import Mathlib

/-!
# rock: bit-packed multi-indices and the radix sorter

A shallow embedding of `src/core.c`, `src/core.h`, `src/sort.c`, of the
multi-partition functions of `src/distribute.c` and of the index and permutation
sampling of `src/random.c`.

* `rock_uint_t` is an unsigned machine word of `W` bits (`W = 32` in the default
  build, `ROCK_WORD_SIZE_32`).  Words are natural numbers below `2 ^ W`; the C
  operators that can leave that range (`<<`, `~`, `*` on `total_size`, `*` and `+`
  on histogram sizes, bin indices and part numbers) are reduced modulo `2 ^ W`
  explicitly.
  Counters that are bounded by the array length (bin counts, positions, bit
  offsets) are not reduced.  A shift by `W` or more, which C leaves undefined, is the
  mathematical shift reduced modulo `2 ^ W`.
* C arrays are lists.  A read is `List.getD _ _ 0` and a write is `List.set`, so an
  access outside the array reads 0 and writes nothing.
* The `T` cooperating threads of the sorter run the three phases of a pass
  (histogram, prefix sum, movement) separated by barriers; the embedding runs the
  threads of one phase one after the other in the order of their ids.
* The `while` loop of the sorter takes a bound on its number of iterations and
  returns `none` when the bound is reached before the loop condition fails.
* The process-wide `rock_radix_bits` and the number of threads of the parallel
  region are the parameters `R` and `T`.
* The search loop of `rock_part_num_from_mpart` takes such a bound as well.  The
  local `prev` of `rock_part_indx_based`, which C leaves uninitialised, starts with
  an arbitrary value given as a parameter.
* Functions returning a status return it together with the objects they modify.
* `rand()` is a sequence of results given with the platform constants in a
  `rand_env`; the sampling functions thread the number of results consumed, and
  their loops take a bound on their iterations.
-/

namespace Rock

/-! ## Machine words -/

/-- The constant `ROCK_UINT_MAX` of `common.h`. -/
def ROCK_UINT_MAX (W : Nat) : Nat := 2 ^ W - 1

/-- The constant `ROCK_MAX_SHIFT` of `common.h`, which is `ROCK_MAX_ORDER - 1`. -/
def ROCK_MAX_SHIFT (W : Nat) : Nat := W - 1

/-- The C expression `x << n` on a `W`-bit unsigned word. -/
def shl (W x n : Nat) : Nat := (x * 2 ^ n) % 2 ^ W

/-- The C expression `~x` on a `W`-bit unsigned word. -/
def bnot (W x : Nat) : Nat := (2 ^ W - 1) - x % 2 ^ W

/-- Search upwards from `w` for the first exponent whose power of two reaches `n`. -/
def ceil_log2_from (n : Nat) : Nat → Nat → Nat
  | 0, w => w
  | fuel + 1, w => if n ≤ 2 ^ w then w else ceil_log2_from n fuel (w + 1)

/-- The C expression `ceil(log2(n))` converted to `rock_uint_t`, for `n ≥ 1`: the
value of the real-number expression (the `double` computation is exact on the
words of the 32-bit build). -/
def ceil_log2 (n : Nat) : Nat := ceil_log2_from n n 0

/-! ## Descriptor (`core.h`, `core.c`) -/

/-- The struct `rock_desc_s`; each array holds the entries written so far. -/
structure rock_desc_t where
  order : Nat
  dim_size : List Nat
  total_size : Nat
  bit_width : List Nat
  bit_offset : List Nat
  bit_mask : List Nat
deriving DecidableEq, Repr

/-- The bit mask expression of `rock_desc_init` for one dimension. -/
def desc_mask (W width offset : Nat) : Nat :=
  if width > ROCK_MAX_SHIFT W then ROCK_UINT_MAX W
  else shl W (bnot W (shl W (bnot W 0) width)) offset

/-- One iteration `i` of the loop of `rock_desc_init`: `acc` is the running
`total_size` and `d` the descriptor whose arrays hold entries `0 .. i-1`. -/
def desc_init_step (W : Nat) (dim_size : List Nat) (st : Nat × rock_desc_t) (i : Nat) :
    Nat × rock_desc_t :=
  let total_size := (st.1 * dim_size.getD i 0) % 2 ^ W
  let d := st.2
  let size := dim_size.getD i 0
  let width := ceil_log2 size
  let offset := if i = 0 then 0 else d.bit_offset.getD (i - 1) 0 + d.bit_width.getD (i - 1) 0
  (total_size,
   { d with
     dim_size := d.dim_size ++ [size]
     bit_width := d.bit_width ++ [width]
     bit_offset := d.bit_offset ++ [offset]
     bit_mask := d.bit_mask ++ [desc_mask W width offset] })

/-- The function `rock_desc_init` of `core.c`. -/
def rock_desc_init (W order : Nat) (dim_size : List Nat) : rock_desc_t :=
  let r := (List.range order).foldl (desc_init_step W dim_size) (1, ⟨0, [], 0, [], [], []⟩)
  { r.2 with order := order, total_size := r.1 }

/-! ## Single-word access (`core.h`) -/

/-- The function `rock_indx_extract` of `core.h`. -/
def rock_indx_extract (desc : rock_desc_t) (indx : List Nat) (i dim : Nat) : Nat :=
  (indx.getD i 0 &&& desc.bit_mask.getD dim 0) >>> desc.bit_offset.getD dim 0

/-- The function `rock_indx_insert` of `core.h`. -/
def rock_indx_insert (W : Nat) (desc : rock_desc_t) (indx : List Nat) (i dim val : Nat) :
    List Nat :=
  indx.set i ((indx.getD i 0 &&& bnot W (desc.bit_mask.getD dim 0)) |||
    shl W val (desc.bit_offset.getD dim 0))

/-- The function `rock_indx_init` of `core.c`: `len` zeroed words. -/
def rock_indx_init (len : Nat) : List Nat := List.replicate len 0

/-- The function `rock_perm_init` of `core.c`: `len` zeroed entries. -/
def rock_perm_init (len : Nat) : List Nat := List.replicate len 0

/-- The function `rock_upkd_init` of `core.c`: `len * order` zeroed entries. -/
def rock_upkd_init (desc : rock_desc_t) (len : Nat) : List Nat :=
  List.replicate (len * desc.order) 0

/-- The constant `ROCK_DEFAULT_RADIX_BITS` of `common.h`. -/
def ROCK_DEFAULT_RADIX_BITS : Nat := 8

/-- The value `num_bins` computed at the start of `indx_sort`. -/
def sort_num_bins (W R : Nat) : Nat :=
  if R > ROCK_MAX_SHIFT W then ROCK_UINT_MAX W else shl W 1 R

/-- The number of histogram words `calloc`ed by `indx_sort`: the product
`num_threads * num_bins` is formed in `rock_uint_t`. -/
def sort_bins_len (W R T : Nat) : Nat := (T * sort_num_bins W R) % 2 ^ W

/-- The `mask` of one pass of `indx_sort_thread`. -/
def sort_mask (W num_bits offset : Nat) : Nat :=
  shl W (bnot W (shl W (bnot W 0) num_bits)) offset

/-- The digit `(w & mask) >> offset` a pass reads from the word `w`. -/
def sort_digit (mask offset w : Nat) : Nat := (w &&& mask) >>> offset

/-- The value `indx_offset = id * chunk` of thread `id`, with `chunk = len / T`. -/
def slice_offset (T len id : Nat) : Nat := id * (len / T)

/-- The value `size` of thread `id`: the last thread takes the remainder. -/
def slice_size (T len id : Nat) : Nat :=
  if id = T - 1 then len - slice_offset T len id else len / T

/-- The value `bins_offset = id * num_bins` of thread `id`, formed in `rock_uint_t`. -/
def bins_offset (W num_bins id : Nat) : Nat := (id * num_bins) % 2 ^ W

/-- One iteration of the histogram loop (phase 1) of a thread. -/
def hist_step (W mask offset boff ioff : Nat) (first_pass : Bool) (indx : List Nat)
    (st : List Nat × Option (List Nat)) (i : Nat) : List Nat × Option (List Nat) :=
  let perm := if first_pass then st.2.map (fun p => p.set (ioff + i) (ioff + i)) else st.2
  let val := sort_digit mask offset (indx.getD (ioff + i) 0)
  let k := (boff + val) % 2 ^ W
  (st.1.set k (st.1.getD k 0 + 1), perm)

/-- Phase 1 of a pass, all threads: `st` is `(bins, perm)`. -/
def hist_phase (W T num_bins mask offset : Nat) (first_pass : Bool) (indx : List Nat)
    (st : List Nat × Option (List Nat)) : List Nat × Option (List Nat) :=
  (List.range T).foldl (fun st id =>
    (List.range (slice_size T indx.length id)).foldl
      (hist_step W mask offset (bins_offset W num_bins id) (slice_offset T indx.length id)
        first_pass indx) st) st

/-- One iteration of the inner loop of the prefix sum: `st` is `(bins, total)`. -/
def prefix_step (W num_bins i : Nat) (st : List Nat × Nat) (k : Nat) : List Nat × Nat :=
  let idx := ((k * num_bins) % 2 ^ W + i) % 2 ^ W
  let old := st.1.getD idx 0
  (st.1.set idx st.2, st.2 + old)

/-- Phase 2 of a pass (master thread): bin-major, thread-minor exclusive prefix sum. -/
def prefix_phase (W T num_bins : Nat) (bins : List Nat) : List Nat :=
  ((List.range num_bins).foldl
    (fun st i => (List.range T).foldl (prefix_step W num_bins i) st) (bins, 0)).1

/-- The buffers written by the movement phase. -/
structure move_state where
  bins : List Nat
  indx_alt : List Nat
  perm_alt : List Nat
deriving DecidableEq, Repr

/-- One iteration of the movement loop (phase 3) of a thread. -/
def move_step (W mask offset boff ioff : Nat) (indx : List Nat) (perm : Option (List Nat))
    (st : move_state) (i : Nat) : move_state :=
  let ele := indx.getD (ioff + i) 0
  let val := sort_digit mask offset ele
  let k := (boff + val) % 2 ^ W
  let pos := st.bins.getD k 0
  { bins := st.bins.set k (pos + 1)
    indx_alt := st.indx_alt.set pos ele
    perm_alt := match perm with
      | some p => st.perm_alt.set pos (p.getD (ioff + i) 0)
      | none => st.perm_alt }

/-- Phase 3 of a pass, all threads. -/
def move_phase (W T num_bins mask offset : Nat) (indx : List Nat) (perm : Option (List Nat))
    (st : move_state) : move_state :=
  (List.range T).foldl (fun st id =>
    (List.range (slice_size T indx.length id)).foldl
      (move_step W mask offset (bins_offset W num_bins id) (slice_offset T indx.length id)
        indx perm) st) st

/-- The local variables of `indx_sort_thread` together with the buffers its
pointers refer to.  `flipped` records whether the local pointers `indx`/`indx_alt`
(and `perm`/`perm_alt`) are exchanged with respect to the caller's. -/
structure sort_state where
  indx : List Nat
  indx_alt : List Nat
  perm : Option (List Nat)
  perm_alt : List Nat
  bins : List Nat
  flipped : Bool
  dim_num : Nat
  dim : Nat
  offset : Nat
  dim_offset : Nat
  dim_bits : Nat
  num_bits : Nat
  first_pass : Bool
  processed_bits : Nat
  num_passes : Nat
deriving DecidableEq, Repr

/-- The three phases of one pass with the barriers between them: the result is the
state the movement phase leaves and the permutation buffer `perm` points to. -/
def pass_phases (W T num_bins mask offset : Nat) (first_pass : Bool) (indx : List Nat)
    (perm : Option (List Nat)) (bins indx_alt perm_alt : List Nat) :
    move_state × Option (List Nat) :=
  let h := hist_phase W T num_bins mask offset first_pass indx (bins, perm)
  let b := prefix_phase W T num_bins h.1
  (move_phase W T num_bins mask offset indx h.2 ⟨b, indx_alt, perm_alt⟩, h.2)

/-- The body of the `while` loop of `indx_sort_thread`: one radix pass. -/
def sort_pass (W R T num_bins : Nat) (desc : rock_desc_t) (dims : List Nat) (st : sort_state) :
    sort_state :=
  -- Update extraction information.
  let upd := st.first_pass || (st.offset == st.dim_offset + st.dim_bits)
  let dim := if upd then dims.getD st.dim_num 0 else st.dim
  let dim_offset := if upd then desc.bit_offset.getD dim 0 else st.dim_offset
  let dim_bits := if upd then desc.bit_width.getD dim 0 else st.dim_bits
  let num_bits0 := if upd then R else st.num_bits
  let offset := if upd then dim_offset else st.offset
  let dim_num := if upd then st.dim_num - 1 else st.dim_num
  let num_bits := if offset + R > dim_offset + dim_bits then dim_offset + dim_bits - offset
    else num_bits0
  -- Exchange the buffers after the first pass.
  let indx := if st.first_pass then st.indx else st.indx_alt
  let indx_alt := if st.first_pass then st.indx_alt else st.indx
  let perm := if st.first_pass then st.perm else st.perm.map (fun _ => st.perm_alt)
  let perm_alt := if st.first_pass then st.perm_alt else st.perm.getD st.perm_alt
  let flipped := if st.first_pass then st.flipped else !st.flipped
  let mask := sort_mask W num_bits offset
  -- Histogram, prefix sum, movement.
  let r := pass_phases W T num_bins mask offset st.first_pass indx perm st.bins indx_alt perm_alt
  { indx := indx
    indx_alt := r.1.indx_alt
    perm := r.2
    perm_alt := r.1.perm_alt
    bins := List.replicate r.1.bins.length 0
    flipped := flipped
    dim_num := dim_num
    dim := dim
    offset := offset + num_bits
    dim_offset := dim_offset
    dim_bits := dim_bits
    num_bits := num_bits
    first_pass := false
    processed_bits := st.processed_bits + num_bits
    num_passes := st.num_passes + 1 }

/-- The `while (processed_bits < total_bits)` loop, at most `fuel` iterations;
`none` when the loop has not finished by then. -/
def sort_loop (W R T num_bins : Nat) (desc : rock_desc_t) (dims : List Nat) (total_bits : Nat) :
    Nat → sort_state → Option sort_state
  | 0, st => if st.processed_bits < total_bits then none else some st
  | fuel + 1, st =>
    if st.processed_bits < total_bits then
      sort_loop W R T num_bins desc dims total_bits fuel (sort_pass W R T num_bins desc dims st)
    else some st

/-- The value `total_bits` of `indx_sort_thread`. -/
def sort_total_bits (desc : rock_desc_t) (num_dims : Nat) (dims : List Nat) : Nat :=
  (List.range num_dims).foldl (fun acc i => acc + desc.bit_width.getD (dims.getD i 0) 0) 0

/-- The local variables of `indx_sort_thread` before its loop. -/
def sort_init (num_dims : Nat) (dims : List Nat) (perm : Option (List Nat))
    (perm_alt indx indx_alt bins : List Nat) : sort_state :=
  { indx := indx
    indx_alt := indx_alt
    perm := perm
    perm_alt := perm_alt
    bins := bins
    flipped := false
    dim_num := num_dims - 1
    dim := dims.getD (num_dims - 1) 0
    offset := 0
    dim_offset := 0
    dim_bits := 0
    num_bits := 0
    first_pass := true
    processed_bits := 0
    num_passes := 0 }

/-- The function `indx_sort_thread` of `sort.c`, all threads of the region. -/
def indx_sort_thread (W R T num_bins fuel : Nat) (desc : rock_desc_t) (num_dims : Nat)
    (dims : List Nat) (perm : Option (List Nat)) (perm_alt : List Nat) (indx indx_alt : List Nat)
    (bins : List Nat) : Option sort_state :=
  sort_loop W R T num_bins desc dims (sort_total_bits desc num_dims dims) fuel
    (sort_init num_dims dims perm perm_alt indx indx_alt bins)

/-- What the caller of the sorter sees afterwards: the four buffers (`none` for a
`NULL` argument) and the flag stored through `swapped` (`false` when the caller
passed `NULL` for it). -/
structure sort_result where
  indx : List Nat
  indx_alt : Option (List Nat)
  perm : Option (List Nat)
  perm_alt : Option (List Nat)
  swapped : Bool
deriving DecidableEq, Repr

/-- The master block "Rearrange buffers and cleanup" at the end of `indx_sort`:
from the state `indx_sort_thread` leaves to what the caller sees. -/
def sort_cleanup (perm perm_alt : Option (List Nat)) (indx_alt_passed want_swapped : Bool)
    (st : sort_state) : sort_result :=
  -- the buffers behind the caller's pointers
  let a := if st.flipped then st.indx_alt else st.indx
  let b := if st.flipped then st.indx else st.indx_alt
  let pa := if st.flipped then st.perm_alt else st.perm.getD []
  let pb := if st.flipped then st.perm.getD [] else st.perm_alt
  let perm_alt_passed := !(perm.isSome && perm_alt.isNone)
  let odd_passes := st.num_passes % 2 != 0
  { indx := if !indx_alt_passed && odd_passes then b else a
    indx_alt := if indx_alt_passed then some b else none
    perm := perm.map (fun _ => if !perm_alt_passed && odd_passes then pb else pa)
    perm_alt := match perm, perm_alt with
      | some _, some _ => some pb
      | _, q => q
    swapped := want_swapped && odd_passes }

/-- The twin permutation buffer `indx_sort` works with: the caller's `perm_alt`, or
a fresh `rock_perm_init(perm->len)` when `perm` is given and `perm_alt` is `NULL`. -/
def sort_perm_alt (perm perm_alt : Option (List Nat)) : List Nat :=
  match perm, perm_alt with
  | some p, none => rock_perm_init p.length
  | _, some q => q
  | none, none => []

/-- The function `indx_sort` of `sort.c` for radix width `R` and a parallel region
of `T` threads.  `indx_alt` and `perm_alt` are `none` for a `NULL` argument and
`want_swapped` tells whether `swapped` is non-`NULL`. -/
def indx_sort (W R T fuel : Nat) (desc : rock_desc_t) (num_dims : Nat) (dims : List Nat)
    (perm perm_alt : Option (List Nat)) (indx : List Nat) (indx_alt : Option (List Nat))
    (want_swapped : Bool) : Option sort_result :=
  let num_bins := sort_num_bins W R
  let indx_alt0 := indx_alt.getD (rock_indx_init indx.length)
  let perm_alt0 := sort_perm_alt perm perm_alt
  let bins := List.replicate (sort_bins_len W R T) 0
  (indx_sort_thread W R T num_bins fuel desc num_dims dims perm perm_alt0 indx indx_alt0 bins).map
    (sort_cleanup perm perm_alt indx_alt.isSome want_swapped)

/-- The function `rock_indx_sort_alt` of `sort.c`, once the radix width `R` and the
number of threads `T` of the parallel region are fixed. -/
def rock_indx_sort_alt (W R T fuel : Nat) (desc : rock_desc_t) (num_dims : Nat)
    (dims : List Nat) (perm perm_alt : Option (List Nat)) (indx : List Nat)
    (indx_alt : Option (List Nat)) (want_swapped : Bool) : Option sort_result :=
  indx_sort W R T fuel desc num_dims dims perm perm_alt indx indx_alt want_swapped

/-- The function `rock_indx_sort` of `sort.c`. -/
def rock_indx_sort (W R T fuel : Nat) (desc : rock_desc_t) (num_dims : Nat) (dims : List Nat)
    (perm : Option (List Nat)) (indx : List Nat) : Option sort_result :=
  rock_indx_sort_alt W R T fuel desc num_dims dims perm none indx none false

/-! ## Specification-side definitions -/

/-- Width of dimension `i` as `rock_desc_init` computes it from the sizes `ds`. -/
def init_width (ds : List Nat) (i : Nat) : Nat := ceil_log2 (ds.getD i 0)

/-- Offset of dimension `i`: the summed widths of the dimensions before it. -/
def init_offset (ds : List Nat) (i : Nat) : Nat :=
  ((List.range i).map (init_width ds)).sum

/-- Number of words of `src` whose digit `d` is below `v`. -/
def cnt_lt (d : Nat → Nat) (src : List Nat) (v : Nat) : Nat :=
  src.countP (fun w => decide (d w < v))

/-- Number of words among the first `s` of `src` whose digit `d` equals `v`. -/
def cnt_eq (d : Nat → Nat) (src : List Nat) (s v : Nat) : Nat :=
  (src.take s).countP (fun w => decide (d w = v))

/-- Destination of source position `s` in a stable counting sort on the digit `d`:
the rows with a smaller digit, then the earlier rows with the same digit. -/
def dest_pos (d : Nat → Nat) (src : List Nat) (s : Nat) : Nat :=
  cnt_lt d src (d (src.getD s 0)) + cnt_eq d src s (d (src.getD s 0))

/-- First source position of thread `t`; the array length for `t ≥ T`. -/
def slice_bound (T n t : Nat) : Nat := if t < T then slice_offset T n t else n

/-- Number of rows with digit `v` among the first `s` rows that lie in the slice of
thread `t`. -/
def hist_count (d : Nat → Nat) (src : List Nat) (T t v s : Nat) : Nat :=
  cnt_eq d src (min s (slice_bound T src.length (t + 1))) v -
    cnt_eq d src (min s (slice_bound T src.length t)) v

/-- A permutation buffer whose first `s` entries have been set to the identity. -/
def perm_identity_upto (p : List Nat) (s : Nat) : List Nat :=
  (List.range s).foldl (fun p j => p.set j j) p

/-- The part of the slice of thread `t` already moved when `s` rows are done. -/
def slice_clamp (T n s t : Nat) : Nat :=
  min (max s (slice_bound T n t)) (slice_bound T n (t + 1))

/-- State of the histogram phase after the first `s` rows. -/
def hist_inv (T nb mask offset : Nat) (first_pass : Bool) (src : List Nat)
    (perm0 : Option (List Nat)) (s : Nat) (st : List Nat × Option (List Nat)) : Prop :=
  st.1.length = T * nb ∧
  (∀ t v, t < T → v < nb →
    st.1.getD (t * nb + v) 0 = hist_count (sort_digit mask offset) src T t v s) ∧
  st.2 = if first_pass then perm0.map (fun p => perm_identity_upto p s) else perm0

/-- State of the prefix sum when bins below `i`, and bin `i` of threads below `k`,
have been replaced by their start offsets. -/
def prefix_inv (d : Nat → Nat) (src : List Nat) (T nb i k : Nat) (st : List Nat × Nat) : Prop :=
  st.1.length = T * nb ∧
  st.2 = cnt_lt d src i + cnt_eq d src (slice_bound T src.length k) i ∧
  ∀ t v, t < T → v < nb →
    st.1.getD (t * nb + v) 0 =
      if v < i ∨ (v = i ∧ t < k) then
        cnt_lt d src v + cnt_eq d src (slice_bound T src.length t) v
      else hist_count d src T t v src.length

/-- State of the movement phase after the first `s` rows: every moved row sits at
its destination and every bin holds the next free slot of its thread. -/
def move_inv (d : Nat → Nat) (src : List Nat) (T nb : Nat) (perm : Option (List Nat))
    (perm_alt0 : List Nat) (s : Nat) (st : move_state) : Prop :=
  st.bins.length = T * nb ∧
  (∀ t v, t < T → v < nb →
    st.bins.getD (t * nb + v) 0 =
      cnt_lt d src v + cnt_eq d src (slice_clamp T src.length s t) v) ∧
  st.indx_alt.length = src.length ∧
  (∀ u, u < s → st.indx_alt.getD (dest_pos d src u) 0 = src.getD u 0) ∧
  st.perm_alt.length = perm_alt0.length ∧
  (match perm with
    | none => st.perm_alt = perm_alt0
    | some p => ∀ u, u < s → st.perm_alt.getD (dest_pos d src u) 0 = p.getD u 0)

/-- The array `cur` is the input `x` rearranged by `σ` (`cur[i] = x[σ i]`) and is
ordered by the key `K`, rows of equal key keeping the order they have in `x`. -/
def sorted_inv (K : Nat → Nat) (x cur : List Nat) (σ : Nat → Nat) : Prop :=
  cur.length = x.length ∧
  (∀ i, i < x.length → σ i < x.length ∧ cur.getD i 0 = x.getD (σ i) 0) ∧
  (∀ i j, i < j → j < x.length →
    K (cur.getD i 0) < K (cur.getD j 0) ∨
      (K (cur.getD i 0) = K (cur.getD j 0) ∧ σ i < σ j))

/-- Coordinate of the packed word `w` on dimension `dim`: the `bit_width[dim]` bits
of `w` from bit `bit_offset[dim]` upwards. -/
def dim_coord (desc : rock_desc_t) (dim w : Nat) : Nat :=
  (w / 2 ^ desc.bit_offset.getD dim 0) % 2 ^ desc.bit_width.getD dim 0

/-- Summed bit widths of a list of dimensions. -/
def dims_bits (desc : rock_desc_t) (dims : List Nat) : Nat :=
  (dims.map (fun dm => desc.bit_width.getD dm 0)).sum

/-- The composite key of the word `w`: the bit fields of `dims` concatenated, the
first dimension most significant. -/
def sort_key (desc : rock_desc_t) : List Nat → Nat → Nat
  | [], _ => 0
  | dm :: rest, w => dim_coord desc dm w * 2 ^ dims_bits desc rest + sort_key desc rest w

/-- Lexicographic `≤` on coordinate tuples of equal length, first entry most
significant. -/
def lex_le : List Nat → List Nat → Prop
  | [], _ => True
  | _ :: _, [] => False
  | a :: as, b :: bs => a < b ∨ (a = b ∧ lex_le as bs)

/-- The coordinates of row `i` of `indx` on the dimensions `dims`, read with
`rock_indx_extract`. -/
def row_key (desc : rock_desc_t) (dims : List Nat) (indx : List Nat) (i : Nat) : List Nat :=
  dims.map (fun dm => rock_indx_extract desc indx i dm)

/-- Invariant of the pass loop of `indx_sort_thread` after at least one pass.  The
current dimension is `dims[m]`; the buffer written last, `indx_alt`, holds the rows
ordered (stably) by the `processed_bits` low bits of the composite key. -/
def loop_inv (R T nb : Nat) (desc : rock_desc_t) (dims x : List Nat) (track : Bool)
    (m : Nat) (st : sort_state) : Prop :=
  st.first_pass = false ∧ 1 ≤ st.num_passes ∧ st.flipped = (st.num_passes % 2 == 0) ∧
  st.bins = List.replicate (T * nb) 0 ∧
  st.indx.length = x.length ∧
  (st.offset ≠ st.dim_offset + st.dim_bits → st.num_bits = R) ∧
  m < dims.length ∧ st.dim_num = m - 1 ∧
  st.dim_offset = desc.bit_offset.getD (dims.getD m 0) 0 ∧
  st.dim_bits = desc.bit_width.getD (dims.getD m 0) 0 ∧
  st.dim_offset ≤ st.offset ∧ st.offset ≤ st.dim_offset + st.dim_bits ∧
  st.processed_bits = dims_bits desc (dims.drop (m + 1)) + (st.offset - st.dim_offset) ∧
  ∃ σ, sorted_inv (fun w => sort_key desc dims w % 2 ^ st.processed_bits) x st.indx_alt σ ∧
    (if track then
      (∃ q, st.perm = some q ∧ q.length = x.length) ∧ st.perm_alt.length = x.length ∧
        ∀ i, i < x.length → st.perm_alt.getD i 0 = σ i
    else st.perm = none)

/-- What a sort call owes its caller.  With a key of at least one bit, `out` is the
input `x` in stable order of the composite key and a supplied permutation holds the
source position of every row; with a key of no bits, nothing is written. -/
def sort_post (desc : rock_desc_t) (dims x : List Nat) (perm : Option (List Nat))
    (out : List Nat) (pout : Option (List Nat)) : Prop :=
  if dims_bits desc dims = 0 then out = x ∧ pout = perm
  else ∃ σ, sorted_inv (sort_key desc dims) x out σ ∧
    match perm with
    | none => pout = none
    | some _ => ∃ q, pout = some q ∧ q.length = x.length ∧
        ∀ i, i < x.length → q.getD i 0 = σ i

/-- Deciding `lex_le` entry by entry. -/
instance lex_le_decidable : (a b : List Nat) → Decidable (lex_le a b)
  | [], _ => isTrue trivial
  | _ :: _, [] => isFalse (fun h => h)
  | a :: as, b :: bs =>
    @instDecidableOr _ _ (Nat.decLt a b)
      (@instDecidableAnd _ _ (Nat.decEq a b) (lex_le_decidable as bs))

/-! ## Status codes and permutation application (`core.c`) -/

/-- Modelled from the spec: `error_codes.h` is not part of the source tree; the
spec lists the status codes `OK`, `ERR` (generic failure) and `BAD_INPUT`. -/
inductive rock_status where
  | ROCK_OK
  | ROCK_ERR
  | ROCK_BAD_INPUT
  deriving DecidableEq, Repr

/-- `rock_elem_init`: `len` elements from `calloc`; `z` is the all-zero element. -/
def rock_elem_init {α : Type} (z : α) (len : Nat) : List α := List.replicate len z

/-- The loop `for (i = 0; i < src->len; i++) out->v[i] = src->v[perm->v[i]]` of the
permutation functions. -/
def permute_loop {α : Type} (z : α) (src : List α) (perm : List Nat) (out : List α) : List α :=
  (List.range src.length).foldl (fun o i => o.set i (src.getD (perm.getD i 0) z)) out

/-- `rock_indx_permute_alt`: returns the status, the array `indx` and the buffer
`out` after the call. With `out = NULL` (`none`) the permuted words are built in a
temporary array and copied back over `indx` (`rock_indx_init` allocates
`sizeof(rock_indx_t)` bytes per entry, so the `memcpy` of that many bytes stays
inside both arrays and carries the `len` words). -/
def rock_indx_permute_alt (indx perm : List Nat) (out : Option (List Nat)) :
    rock_status × List Nat × Option (List Nat) :=
  match out with
  | some o =>
    if indx.length ≠ o.length then (rock_status.ROCK_BAD_INPUT, indx, some o)
    else (rock_status.ROCK_OK, indx, some (permute_loop 0 indx perm o))
  | none =>
    let tmp := permute_loop 0 indx perm (rock_indx_init indx.length)
    (rock_status.ROCK_OK, tmp, none)

/-- `rock_indx_permute`: the in-place form. -/
def rock_indx_permute (indx perm : List Nat) : rock_status × List Nat × Option (List Nat) :=
  rock_indx_permute_alt indx perm none

/-- `rock_elem_permute_alt`: the same code over element arrays. -/
def rock_elem_permute_alt {α : Type} (z : α) (elem : List α) (perm : List Nat)
    (out : Option (List α)) : rock_status × List α × Option (List α) :=
  match out with
  | some o =>
    if elem.length ≠ o.length then (rock_status.ROCK_BAD_INPUT, elem, some o)
    else (rock_status.ROCK_OK, elem, some (permute_loop z elem perm o))
  | none =>
    let tmp := permute_loop z elem perm (rock_elem_init z elem.length)
    (rock_status.ROCK_OK, tmp, none)

/-- `rock_elem_permute`: the in-place form for element arrays. -/
def rock_elem_permute {α : Type} (z : α) (elem : List α) (perm : List Nat) :
    rock_status × List α × Option (List α) :=
  rock_elem_permute_alt z elem perm none

/-! ## Frequencies (`core.c`) -/

/-- The statement `freq->dim_freq[k][val]++` for row `i` and dimension `k`, with
`val = rock_indx_extract(desc, indx, i, k)`. -/
def freq_step (desc : rock_desc_t) (indx : List Nat) (i : Nat) (f : List (List Nat)) (k : Nat) :
    List (List Nat) :=
  let val := rock_indx_extract desc indx i k
  f.set k ((f.getD k []).set val ((f.getD k []).getD val 0 + 1))

/-- `rock_freq_init`: the arrays `dim_freq[0 .. order)`, each `calloc`ed with
`dim_size[i]` counters, after the counting loop over all rows and dimensions. -/
def rock_freq_init (desc : rock_desc_t) (indx : List Nat) : List (List Nat) :=
  (List.range indx.length).foldl
    (fun f i => (List.range desc.order).foldl (freq_step desc indx i) f)
    ((List.range desc.order).map (fun i => List.replicate (desc.dim_size.getD i 0) 0))

/-! ## Partitions (`core.h`, `core.c`) -/

/-- `rock_part_t`: the number of parts and the array `offset` of `num_parts + 1`
words; part `k` is `[offset[k], offset[k+1])`. -/
structure rock_part_t where
  num_parts : Nat
  offset : List Nat
  deriving DecidableEq, Repr

/-- `rock_part_init`: `calloc(num_parts + 1, ...)`, the sum formed in `rock_uint_t`. -/
def rock_part_init (W num_parts : Nat) : rock_part_t :=
  ⟨num_parts, List.replicate ((num_parts + 1) % 2 ^ W) 0⟩

/-- The variables of the loop of `rock_part_indx_based`. -/
structure part_loop_state where
  offset : List Nat
  curr_part : Nat
  proc_part : Nat
  prev : Nat
  deriving DecidableEq, Repr

/-- One iteration of the `while` loop of `rock_part_indx_based` at row `proc_total`
(the loop increments `proc_total` once per iteration, from 0 to `len`). -/
def part_indx_step (desc : rock_desc_t) (indx : List Nat) (dim_num chunk : Nat)
    (st : part_loop_state) (proc_total : Nat) : part_loop_state :=
  let curr := rock_indx_extract desc indx proc_total dim_num
  if st.proc_part ≥ chunk ∧ st.prev ≠ curr then
    { offset := st.offset.set (st.curr_part + 1) proc_total
      curr_part := st.curr_part + 1
      proc_part := 0
      prev := curr }
  else
    { offset := st.offset
      curr_part := st.curr_part
      proc_part := st.proc_part + 1
      prev := curr }

/-- The loop of `rock_part_indx_based` with its initial assignments. -/
def part_indx_loop (desc : rock_desc_t) (offset : List Nat) (indx : List Nat)
    (dim_num chunk prev0 : Nat) : part_loop_state :=
  (List.range indx.length).foldl (part_indx_step desc indx dim_num chunk)
    { offset := offset.set 0 0, curr_part := 0, proc_part := 0, prev := prev0 }

/-- `rock_part_indx_based`: the status and the partition object after the call.
`prev0` is the indeterminate value of the uninitialised local `prev`; the counters
`proc_total`, `proc_part` and `curr_part` are bounded by `len`. For
`num_parts = 0` the C division is undefined; the quotient is 0 here. -/
def rock_part_indx_based (desc : rock_desc_t) (part : rock_part_t) (indx : List Nat)
    (dim_num prev0 : Nat) : rock_status × rock_part_t :=
  if dim_num ≥ desc.order then (rock_status.ROCK_BAD_INPUT, part)
  else if indx.length < part.num_parts then (rock_status.ROCK_BAD_INPUT, part)
  else if desc.dim_size.getD dim_num 0 < part.num_parts then (rock_status.ROCK_BAD_INPUT, part)
  else
    let st := part_indx_loop desc part.offset indx dim_num (indx.length / part.num_parts) prev0
    (rock_status.ROCK_OK,
      { num_parts := part.num_parts, offset := st.offset.set (st.curr_part + 1) indx.length })

/-- One iteration of the loop of `rock_part_desc_based`; `i * block` and
`(i + 1) * block + overflow` are at most `dim_size[dim_num]`. -/
def part_desc_step (block overflow num_parts : Nat) (offset : List Nat) (i : Nat) : List Nat :=
  if i = num_parts - 1 then
    (offset.set i (i * block)).set (i + 1) ((i + 1) * block + overflow)
  else offset.set i (i * block)

/-- `rock_part_desc_based`: the status and the partition object after the call. -/
def rock_part_desc_based (desc : rock_desc_t) (part : rock_part_t) (dim_num : Nat) :
    rock_status × rock_part_t :=
  if dim_num ≥ desc.order then (rock_status.ROCK_BAD_INPUT, part)
  else if desc.dim_size.getD dim_num 0 < part.num_parts then (rock_status.ROCK_BAD_INPUT, part)
  else
    let block := desc.dim_size.getD dim_num 0 / part.num_parts
    let overflow := desc.dim_size.getD dim_num 0 % part.num_parts
    (rock_status.ROCK_OK,
      { num_parts := part.num_parts
        offset := (List.range part.num_parts).foldl
          (part_desc_step block overflow part.num_parts) part.offset })

/-! ## Views (`core.c`) -/

/-- `rock_indx_copy`: a fresh array holding the `len` words of `indx` (the `memcpy`
of `sizeof(indx->v) * len` bytes covers the `len` words on an LP64 platform and
stays inside the `sizeof(rock_indx_t) * len` bytes of both arrays). -/
def rock_indx_copy (indx : List Nat) : List Nat :=
  (List.range indx.length).foldl (fun c i => c.set i (indx.getD i 0))
    (rock_indx_init indx.length)

/-- The variables of the loop of `rock_view_init`: the private copy `tmp_indx` and
the array `dim_perm`. -/
structure view_state where
  tmp_indx : List Nat
  dim_perm : List (List Nat)
  deriving DecidableEq, Repr

/-- One iteration of the loop of `rock_view_init` for dimension `i`: the identity
for `sorted_dim`, otherwise `rock_indx_sort(desc, 1, {i}, dim_perm[i], tmp_indx)`,
which sorts `tmp_indx` in place. -/
def view_step (W R T fuel : Nat) (desc : rock_desc_t) (sorted_dim : Nat)
    (st : Option view_state) (i : Nat) : Option view_state :=
  match st with
  | none => none
  | some s =>
    let p := rock_perm_init s.tmp_indx.length
    if sorted_dim = i then
      some { tmp_indx := s.tmp_indx
             dim_perm := s.dim_perm.set i ((List.range p.length).foldl (fun q k => q.set k k) p) }
    else
      match rock_indx_sort W R T fuel desc 1 [i] (some p) s.tmp_indx with
      | none => none
      | some r => some { tmp_indx := r.indx, dim_perm := s.dim_perm.set i (r.perm.getD []) }

/-- `rock_view_init`: the permutations `dim_perm[0 .. order)` of the returned view
(`none` when a sort exceeds the iteration bound `fuel`). -/
def rock_view_init (W R T fuel : Nat) (desc : rock_desc_t) (indx : List Nat)
    (sorted_dim : Nat) : Option (List (List Nat)) :=
  ((List.range desc.order).foldl (view_step W R T fuel desc sorted_dim)
    (some { tmp_indx := rock_indx_copy indx, dim_perm := List.replicate desc.order [] })).map
    (fun s => s.dim_perm)

/-! ## Multi-partitions (`distribute.h`, `distribute.c`) -/

/-- `rock_mpart_t`: the descriptor, the number of partitioned dimensions, their
dimension numbers and their partition objects. -/
structure rock_mpart_t where
  desc : rock_desc_t
  order : Nat
  dim_num : List Nat
  dim_part : List rock_part_t
  deriving DecidableEq, Repr

/-- The loop `while (dim_indx >= offset[part_indx + 1]) part_indx++` with a bound on
its number of iterations; `none` when the bound is reached. -/
def part_search (offset : List Nat) (dim_indx : Nat) : Nat → Nat → Option Nat
  | 0, _ => none
  | fuel + 1, part_indx =>
    if dim_indx ≥ offset.getD (part_indx + 1) 0 then
      part_search offset dim_indx fuel (part_indx + 1)
    else some part_indx

/-- One iteration of the first loop of `rock_part_num_from_mpart`: the part index
of row `i` in slot `j`. -/
def mpart_search_step (fuel : Nat) (mpart : rock_mpart_t) (indx : List Nat) (i : Nat)
    (st : Option (List Nat)) (j : Nat) : Option (List Nat) :=
  match st with
  | none => none
  | some part_indx =>
    match part_search (mpart.dim_part.getD j ⟨0, []⟩).offset
        (rock_indx_extract mpart.desc indx i (mpart.dim_num.getD j 0)) fuel 0 with
    | none => none
    | some k => some (part_indx.set j k)

/-- The inner loop `prev_prod = 1; for k < j: prev_prod *= dim_part[k]->num_parts`
in `rock_uint_t`. -/
def mpart_prev_prod (W : Nat) (mpart : rock_mpart_t) (j : Nat) : Nat :=
  (List.range j).foldl
    (fun p k => (p * (mpart.dim_part.getD k ⟨0, []⟩).num_parts) % 2 ^ W) 1

/-- The second loop of `rock_part_num_from_mpart`:
`part_num += prev_prod * part_indx[j]` in `rock_uint_t`. -/
def mpart_part_num (W : Nat) (mpart : rock_mpart_t) (part_indx : List Nat) : Nat :=
  (List.range mpart.order).foldl
    (fun acc j => (acc + (mpart_prev_prod W mpart j * part_indx.getD j 0) % 2 ^ W) % 2 ^ W) 0

/-- `rock_part_num_from_mpart`: the part number of row `i` (`none` when a search
exceeds the iteration bound `fuel`). -/
def rock_part_num_from_mpart (W fuel : Nat) (mpart : rock_mpart_t) (indx : List Nat)
    (i : Nat) : Option Nat :=
  ((List.range mpart.order).foldl (mpart_search_step fuel mpart indx i)
    (some (List.replicate mpart.order 0))).map (mpart_part_num W mpart)
/-! ## Specification-side definitions for multi-partitions -/

/-- Number of parts of slot `j` of a multi-partition. -/
def mpart_np (mpart : rock_mpart_t) (j : Nat) : Nat :=
  (mpart.dim_part.getD j ⟨0, []⟩).num_parts

/-- Offset `k` of slot `j` of a multi-partition. -/
def mpart_offset (mpart : rock_mpart_t) (j k : Nat) : Nat :=
  (mpart.dim_part.getD j ⟨0, []⟩).offset.getD k 0

/-- Coordinate of row `i` on the dimension partitioned by slot `j`. -/
def mpart_coord (mpart : rock_mpart_t) (indx : List Nat) (i j : Nat) : Nat :=
  rock_indx_extract mpart.desc indx i (mpart.dim_num.getD j 0)

/-- The product of `np k` over `k < j`. -/
def parts_before (np : Nat → Nat) (j : Nat) : Nat := ((List.range j).map np).prod

/-- The row-major part number: the sum over `j < order` of
`(product over k < j of np k) * pidx j`. -/
def part_num_formula (np pidx : Nat → Nat) (order : Nat) : Nat :=
  ((List.range order).map (fun j => parts_before np j * pidx j)).sum

/-- A multi-partition of 17 slots over a descriptor of 17 dimensions of size 2: 16
slots of 4 parts `[0, 1, 2, 3, 4]` and one slot of 2 parts `[0, 1, 2]`. -/
def mpart_wide : rock_mpart_t :=
  ⟨rock_desc_init 32 17 (List.replicate 17 2), 17, List.range 17,
    List.replicate 16 ⟨4, [0, 1, 2, 3, 4]⟩ ++ [⟨2, [0, 1, 2]⟩]⟩

/-- A multi-partition of 2 slots over the descriptor `[4, 6]`: dimension 0 in parts
`[0, 2, 4]`, dimension 1 in parts `[0, 2, 4, 6]`. -/
def mpart_small : rock_mpart_t :=
  ⟨rock_desc_init 32 2 [4, 6], 2, [0, 1], [⟨2, [0, 2, 4]⟩, ⟨3, [0, 2, 4, 6]⟩]⟩

/-- Number of distinct coordinates on dimension `dim` among the rows of `x`. -/
def distinct_coords (desc : rock_desc_t) (x : List Nat) (dim : Nat) : Nat :=
  ((List.range x.length).map (fun r => rock_indx_extract desc x r dim)).dedup.length

/-- Number of rows `r` with `0 < r < n` whose coordinate differs from that of the
row before. -/
def coord_changes (desc : rock_desc_t) (x : List Nat) (dim n : Nat) : Nat :=
  (List.range n).countP (fun r =>
    decide (0 < r ∧ rock_indx_extract desc x (r - 1) dim ≠ rock_indx_extract desc x r dim))

/-! ## Specification-side definitions for the pass schedule -/

/-- The bit window `(offset, num_bits)` of the pass that produced `st`: a pass ends
with `offset += num_bits`. -/
def pass_window (st : sort_state) : Nat × Nat := (st.offset - st.num_bits, st.num_bits)

/-- The windows of the passes made by the loop `sort_loop`, in order (`none` when
the loop has not finished within `fuel` passes). -/
def sort_loop_windows (W R T num_bins : Nat) (desc : rock_desc_t) (dims : List Nat)
    (total_bits : Nat) : Nat → sort_state → Option (List (Nat × Nat))
  | 0, st => if st.processed_bits < total_bits then none else some []
  | fuel + 1, st =>
    if st.processed_bits < total_bits then
      (sort_loop_windows W R T num_bins desc dims total_bits fuel
        (sort_pass W R T num_bins desc dims st)).map
        (fun l => pass_window (sort_pass W R T num_bins desc dims st) :: l)
    else some []

/-- The windows of one dimension of width `w` at bit offset `off` for radix width
`R`: window `j` starts at `off + j * R` and has `min R (w - j * R)` bits, for
`j < ceil (w / R)`. -/
def dim_windows (R off w : Nat) : List (Nat × Nat) :=
  (List.range ((w + R - 1) / R)).map (fun j => (off + j * R, min R (w - j * R)))

/-- The pass schedule: the windows of `dims[last]`, then those of `dims[last - 1]`,
down to `dims[0]`. -/
def sort_windows (desc : rock_desc_t) (dims : List Nat) (R : Nat) : List (Nat × Nat) :=
  (dims.reverse.map (fun d =>
    dim_windows R (desc.bit_offset.getD d 0) (desc.bit_width.getD d 0))).flatten

/-- The loop state is about to make window `j` of dimension `dims[m]`. -/
def sched_at (R : Nat) (desc : rock_desc_t) (dims : List Nat) (m j : Nat) (st : sort_state) :
    Prop :=
  if j = 0 then
    (st.first_pass = true ∨ st.offset = st.dim_offset + st.dim_bits) ∧ st.dim_num = m
  else
    st.first_pass = false ∧ st.dim_offset = desc.bit_offset.getD (dims.getD m 0) 0 ∧
      st.dim_bits = desc.bit_width.getD (dims.getD m 0) 0 ∧
      st.offset = desc.bit_offset.getD (dims.getD m 0) 0 + j * R ∧ st.num_bits = R ∧
      st.dim_num = m - 1

/-- The windows still to be made when the loop is about to make window `j` of
dimension `dims[m]`. -/
def windows_from (R : Nat) (desc : rock_desc_t) (dims : List Nat) (m j : Nat) :
    List (Nat × Nat) :=
  (dim_windows R (desc.bit_offset.getD (dims.getD m 0) 0)
      (desc.bit_width.getD (dims.getD m 0) 0)).drop j ++
    ((dims.take m).reverse.map (fun d =>
      dim_windows R (desc.bit_offset.getD d 0) (desc.bit_width.getD d 0))).flatten

/-! ## Building a multi-partition (`distribute.c`) -/

/-- The constant `ROCK_MAX_ORDER` of `common.h`: 32 for the 32-bit word, 64 for the
64-bit word. -/
def ROCK_MAX_ORDER (W : Nat) : Nat := W

/-- `rock_mpart_init`: a zeroed object (`calloc`) whose first `order` slots get the
dimension number `ROCK_UINT_MAX` and a partition object from `rock_part_init`. -/
def rock_mpart_init (W order : Nat) (dim_num_parts : List Nat) : rock_mpart_t :=
  (List.range order).foldl
    (fun mp i =>
      { desc := mp.desc
        order := mp.order
        dim_num := mp.dim_num.set i (ROCK_UINT_MAX W)
        dim_part := mp.dim_part.set i (rock_part_init W (dim_num_parts.getD i 0)) })
    { desc := ⟨0, [], 0, [], [], []⟩
      order := order
      dim_num := List.replicate (ROCK_MAX_ORDER W) 0
      dim_part := List.replicate (ROCK_MAX_ORDER W) ⟨0, []⟩ }

/-- The flag `already_partitioned` that `rock_get_largest_remaining_dim` computes
for dimension `i`. -/
def already_partitioned (W : Nat) (mpart : rock_mpart_t) (i : Nat) : Bool :=
  if mpart.dim_num.getD i 0 = ROCK_UINT_MAX W then false
  else (List.range mpart.order).foldl
    (fun ap k => if i = mpart.dim_num.getD k 0 then true else ap) false

/-- `rock_get_largest_remaining_dim`. -/
def rock_get_largest_remaining_dim (W : Nat) (desc : rock_desc_t) (mpart : rock_mpart_t) :
    Nat :=
  (List.range desc.order).foldl
    (fun dim_num i =>
      if !already_partitioned W mpart i then
        if dim_num = ROCK_UINT_MAX W then i
        else if desc.dim_size.getD dim_num 0 < desc.dim_size.getD i 0 then i
        else dim_num
      else dim_num)
    (ROCK_UINT_MAX W)

/-- One iteration of the loop of `rock_mpart_desc_based` for slot `i`; the status of
`rock_part_desc_based` is not looked at. -/
def mpart_desc_step (W : Nat) (desc : rock_desc_t) (num_prio_dims : Nat)
    (prio_dims : List Nat) (mp : rock_mpart_t) (i : Nat) : rock_mpart_t :=
  let dim_num := if i < num_prio_dims then prio_dims.getD i 0
    else rock_get_largest_remaining_dim W desc mp
  { desc := mp.desc
    order := mp.order
    dim_num := mp.dim_num.set i dim_num
    dim_part := mp.dim_part.set i
      (rock_part_desc_based desc (mp.dim_part.getD i ⟨0, []⟩) dim_num).2 }

/-- `rock_mpart_desc_based`: the status and the multi-partition after the call. -/
def rock_mpart_desc_based (W : Nat) (desc : rock_desc_t) (mpart : rock_mpart_t)
    (num_prio_dims : Nat) (prio_dims : List Nat) : rock_status × rock_mpart_t :=
  let mp := (List.range mpart.order).foldl (mpart_desc_step W desc num_prio_dims prio_dims)
    mpart
  (rock_status.ROCK_OK,
    { desc := desc, order := mp.order, dim_num := mp.dim_num, dim_part := mp.dim_part })

/-! ## Random sampling (`random.c`) -/

/-- What the sampling code takes from its platform: the constant `RAND_MAX`, the
successive results `rnd 0, rnd 1, ...` of `rand()`, and the values of `ROCK_ERR` and
`ROCK_BAD_INPUT` converted to `rock_uint_t` (`error_codes.h` is not part of the
source tree). -/
structure rand_env where
  RAND_MAX : Nat
  rnd : Nat → Nat
  err : Nat
  bad_input : Nat

/-- The rejection loop `for (;;)` of `rock_uint_random`, at most `fuel` draws; `n`
counts the calls of `rand()` made so far. -/
def random_loop (env : rand_env) (range threshold : Nat) : Nat → Nat → Option (Nat × Nat)
  | 0, _ => none
  | fuel + 1, n =>
    let r := env.rnd n % 2 ^ 32
    if r ≥ threshold then some (r % range, n + 1)
    else random_loop env range threshold fuel (n + 1)

/-- `rock_uint_random`: the value and the new draw count. The 64-bit build returns
`ROCK_ERR`; the 32-bit build computes `threshold = -range % range` in `uint32_t`
(for `range = 0` C divides by zero; `x % 0` is `x` here). -/
def rock_uint_random (W : Nat) (env : rand_env) (range fuel n : Nat) : Option (Nat × Nat) :=
  if W = 64 then some (env.err, n)
  else if range > env.RAND_MAX then some (env.bad_input, n)
  else random_loop env range (((2 ^ 32 - range % 2 ^ 32) % 2 ^ 32) % range) fuel n

/-- `rock_indx_set`. -/
def rock_indx_set (indx : List Nat) (i val : Nat) : List Nat := indx.set i val

/-- The inner loop of `rock_val_to_indx` for row `i`: the state is `(v, indx)`. -/
def val_to_indx_step (W : Nat) (desc : rock_desc_t) (i : Nat) (st : Nat × List Nat) (k : Nat) :
    Nat × List Nat :=
  let n_k := desc.dim_size.getD k 0
  let v_k := st.1 % n_k
  ((st.1 - v_k) / n_k, rock_indx_insert W desc st.2 i k v_k)

/-- `rock_val_to_indx`. -/
def rock_val_to_indx (W : Nat) (desc : rock_desc_t) (indx : List Nat) : List Nat :=
  (List.range indx.length).foldl
    (fun ix i => ((List.range desc.order).foldl (val_to_indx_step W desc i)
      (ix.getD i 0, ix)).2) indx

/-- The loop `while (indx->v[i] == indx->v[i+1])` of `rock_indx_distinct_step`, at
most `fuel` iterations: the state is `(indx, distinct, n)`. -/
def resample_loop (W : Nat) (env : rand_env) (total_size rfuel i : Nat) :
    Nat → List Nat × Bool × Nat → Option (List Nat × Bool × Nat)
  | 0, _ => none
  | fuel + 1, st =>
    if st.1.getD i 0 = st.1.getD (i + 1) 0 then
      match rock_uint_random W env total_size rfuel st.2.2 with
      | none => none
      | some (v, n) => resample_loop W env total_size rfuel i fuel (rock_indx_set st.1 i v, false, n)
    else some st

/-- `rock_indx_distinct_step`: sort, then replace the first word of every adjacent
equal pair by a new draw; the loop bound `indx->len - 1` is formed in
`rock_uint_t`. The result is `(indx, distinct, n)`. -/
def rock_indx_distinct_step (W R T : Nat) (env : rand_env) (fuel : Nat) (desc : rock_desc_t)
    (indx : List Nat) (num_dims : Nat) (dims : List Nat) (n : Nat) :
    Option (List Nat × Bool × Nat) :=
  match rock_indx_sort W R T fuel desc num_dims dims none indx with
  | none => none
  | some r =>
    (List.range ((indx.length + 2 ^ W - 1) % 2 ^ W)).foldlM
      (fun st i => resample_loop W env desc.total_size fuel i fuel st) (r.indx, true, n)

/-- The loop `while (!distinct)` of `rock_indx_sample_sort_discard`, at most `fuel`
iterations: the state is `(indx, n)`. -/
def distinct_loop (W R T : Nat) (env : rand_env) (ifuel : Nat) (desc : rock_desc_t)
    (num_dims : Nat) (dims : List Nat) : Nat → List Nat × Nat → Option (List Nat × Nat)
  | 0, _ => none
  | fuel + 1, st =>
    match rock_indx_distinct_step W R T env ifuel desc st.1 num_dims dims st.2 with
    | none => none
    | some (indx, distinct, n) =>
      if distinct then some (indx, n)
      else distinct_loop W R T env ifuel desc num_dims dims fuel (indx, n)

/-- The part of `rock_indx_sample_sort_discard` after its check: the initial
sample, the resampling until all words are distinct and `rock_val_to_indx`. -/
def sample_sort_discard_body (W R T : Nat) (env : rand_env) (fuel : Nat) (desc : rock_desc_t)
    (indx : List Nat) (n : Nat) : Option (List Nat × Nat) :=
  let dims := (List.range desc.order).foldl (fun d i => d.set i i)
    (List.replicate desc.order 0)
  match (List.range indx.length).foldlM
      (fun (st : List Nat × Nat) i =>
        (rock_uint_random W env desc.total_size fuel st.2).map
          (fun p => (rock_indx_set st.1 i p.1, p.2))) (indx, n) with
  | none => none
  | some st =>
    (distinct_loop W R T env fuel desc desc.order dims fuel st).map
      (fun p => (rock_val_to_indx W desc p.1, p.2))

/-- `rock_indx_sample_sort_discard`: the status, the index array and the draw count
(`none` when a loop exceeds the bound `fuel`). -/
def rock_indx_sample_sort_discard (W R T : Nat) (env : rand_env) (fuel : Nat)
    (desc : rock_desc_t) (indx : List Nat) (n : Nat) : Option (rock_status × List Nat × Nat) :=
  if indx.length > desc.total_size then some (rock_status.ROCK_BAD_INPUT, indx, n)
  else (sample_sort_discard_body W R T env fuel desc indx n).map
    (fun p => (rock_status.ROCK_OK, p.1, p.2))

/-- The variables of the loop of `rock_uint_shuffle_take`. -/
structure shuffle_state where
  a : List Nat
  b : List Nat
  pos_z : Nat
  n : Nat
  deriving DecidableEq, Repr

/-- The body of the loop of `rock_uint_shuffle_take` for index `i`, once the draw
`k = rock_uint_random(range - i) + i` is made. -/
def shuffle_take_body (len i k : Nat) (st : shuffle_state) : shuffle_state :=
  let ival := if st.a.getD i 0 = 0 then (if i = st.pos_z then 0 else i) else st.a.getD i 0
  let pos_z := if st.a.getD i 0 = 0 ∧ i = st.pos_z then k else st.pos_z
  if (k < len ∧ st.a.getD k 0 = 0) ∨ (k ≥ len ∧ st.b.getD (k - len) 0 = 0) then
    let a1 := if k = pos_z then st.a.set i 0 else st.a.set i k
    let pos_z1 := if k = pos_z then ival else pos_z
    if k < len then { a := a1.set k ival, b := st.b, pos_z := pos_z1, n := st.n }
    else { a := a1, b := st.b.set (k - len) ival, pos_z := pos_z1, n := st.n }
  else
    if k < len then
      { a := (st.a.set i (st.a.getD k 0)).set k ival, b := st.b, pos_z := pos_z, n := st.n }
    else
      { a := st.a.set i (st.b.getD (k - len) 0), b := st.b.set (k - len) ival
        pos_z := pos_z, n := st.n }

/-- One iteration of the loop of `rock_uint_shuffle_take`. -/
def shuffle_take_step (W : Nat) (env : rand_env) (fuel len range : Nat) (st : shuffle_state)
    (i : Nat) : Option shuffle_state :=
  (rock_uint_random W env ((range + 2 ^ W - i) % 2 ^ W) fuel st.n).map
    (fun p => shuffle_take_body len i ((p.1 + i) % 2 ^ W)
      { a := st.a, b := st.b, pos_z := st.pos_z, n := p.2 })

/-- `rock_uint_shuffle_take`: the array `a` and the draw count afterwards; `b` has
`range - len` zeroed words, the difference formed in `rock_uint_t`. -/
def rock_uint_shuffle_take (W : Nat) (env : rand_env) (fuel : Nat) (a : List Nat)
    (len range n : Nat) : Option (List Nat × Nat) :=
  match rock_uint_random W env range fuel n with
  | none => none
  | some (k, n1) =>
    ((List.range (len - 1)).foldlM
      (fun st j => shuffle_take_step W env fuel len range st (j + 1))
      { a := a.set 0 k, b := List.replicate ((range + 2 ^ W - len) % 2 ^ W) 0
        pos_z := k, n := n1 }).map (fun st => (st.a, st.n))

/-- `rock_indx_sample_shuffle_take`: the status, the index array and the draw
count. -/
def rock_indx_sample_shuffle_take (W : Nat) (env : rand_env) (fuel : Nat)
    (desc : rock_desc_t) (indx : List Nat) (n : Nat) : Option (rock_status × List Nat × Nat) :=
  if indx.length > desc.total_size then some (rock_status.ROCK_BAD_INPUT, indx, n)
  else (rock_uint_shuffle_take W env fuel indx indx.length desc.total_size n).map
    (fun p => (rock_status.ROCK_OK, rock_val_to_indx W desc p.1, p.2))

/-- `rock_indx_sample`. -/
def rock_indx_sample (W R T : Nat) (env : rand_env) (fuel : Nat) (desc : rock_desc_t)
    (indx : List Nat) (n : Nat) : Option (rock_status × List Nat × Nat) :=
  rock_indx_sample_sort_discard W R T env fuel desc indx n
/-- A generator whose `n`-th result of `rand()` is `n`, with `RAND_MAX = 2 ^ 31 - 1`;
the two status values are not read on the 32-bit build for ranges up to
`RAND_MAX`. -/
def rand_counting : rand_env := ⟨2147483647, fun n => n, 1, 2⟩

/-- The array accesses of `rock_upkd_pack`, in program order: iteration `(i, k)` of
the two loops reads and writes `indx->v[i]` and reads `upkd->v[i*order + k]`; the
pair is `(i, i*order + k)`.  The outer loop runs over `upkd->len`. -/
def upkd_pack_accesses (desc : rock_desc_t) (upkd : List Nat) : List (Nat × Nat) :=
  ((List.range upkd.length).map
    (fun i => (List.range desc.order).map (fun k => (i, i * desc.order + k)))).flatten

/-- The indices of `offset` read by the loop
`while (dim_indx >= offset[part_indx + 1]) part_indx++`, in program order: every
evaluation of the loop condition reads `offset[part_indx + 1]`. -/
def part_search_reads (offset : List Nat) (dim_indx : Nat) : Nat → Nat → List Nat
  | 0, _ => []
  | fuel + 1, part_indx =>
    (part_indx + 1) ::
      (if dim_indx ≥ offset.getD (part_indx + 1) 0 then
        part_search_reads offset dim_indx fuel (part_indx + 1)
      else [])

/-- The word stored at position `j` of the virtual array of `rock_uint_shuffle_take`:
`a[j]` for `j < len`, `b[j - len]` from `len` on. -/
def shuffle_stored (len : Nat) (st : shuffle_state) (j : Nat) : Nat :=
  if j < len then st.a.getD j 0 else st.b.getD (j - len) 0

/-- The value the virtual array holds at position `j` before iteration `i`:
positions below `i` hold their stored word (the sample drawn so far); from `i` on
a stored 0 stands for the position itself, except at `pos_z`, where it stands
for the value 0. -/
def shuffle_value (i pos_z : Nat) (s : Nat → Nat) (j : Nat) : Nat :=
  if j < i then s j
  else if s j = 0 then (if j = pos_z then 0 else j) else s j

/-- Invariant of the loop of `rock_uint_shuffle_take` before iteration `i`: the
buffers have their lengths and the virtual array over `[0, range)` holds every value
below `range` exactly once. -/
def shuffle_inv (len range i : Nat) (st : shuffle_state) : Prop :=
  st.a.length = len ∧ st.b.length = range - len ∧
  (∀ j, j < range → shuffle_value i st.pos_z (shuffle_stored len st) j < range) ∧
  ∀ j1 j2, j1 < range → j2 < range →
    shuffle_value i st.pos_z (shuffle_stored len st) j1 =
      shuffle_value i st.pos_z (shuffle_stored len st) j2 → j1 = j2

/-! ## Random permutations (`random.c`) -/

/-- `rock_uint_swap` of `core.c`, called on the entries `k` and `i` of one array:
`tmp = v[k]; v[k] = v[i]; v[i] = tmp`. -/
def rock_uint_swap (v : List Nat) (k i : Nat) : List Nat :=
  (v.set k (v.getD i 0)).set i (v.getD k 0)

/-- The loop `for (i = len - 1; i > 0; i--)` of `rock_perm_shuffle`, from the given
`i` down to 1; the argument `i + 1` of `rock_uint_random` is formed in `rock_uint_t`.
The state is `(perm, n)`, `n` the number of calls of `rand()` so far. -/
def perm_shuffle_loop (W : Nat) (env : rand_env) (fuel : Nat) :
    Nat → List Nat × Nat → Option (List Nat × Nat)
  | 0, st => some st
  | i + 1, st =>
    match rock_uint_random W env ((i + 1 + 1) % 2 ^ W) fuel st.2 with
    | none => none
    | some (k, n) => perm_shuffle_loop W env fuel i (rock_uint_swap st.1 k (i + 1), n)

/-- `rock_perm_shuffle`: the array and the draw count afterwards; the start value
`perm->len - 1` is formed in `rock_uint_t`. -/
def rock_perm_shuffle (W : Nat) (env : rand_env) (fuel : Nat) (perm : List Nat) (n : Nat) :
    Option (List Nat × Nat) :=
  perm_shuffle_loop W env fuel ((perm.length + 2 ^ W - 1) % 2 ^ W) (perm, n)

/-- `rock_perm_sample`: `perm[i] = i` for every `i`, then `rock_perm_shuffle`. -/
def rock_perm_sample (W : Nat) (env : rand_env) (fuel : Nat) (perm : List Nat) (n : Nat) :
    Option (List Nat × Nat) :=
  rock_perm_shuffle W env fuel ((List.range perm.length).foldl (fun p i => p.set i i) perm) n

/-! # Theorems -/

/-! ## Words and masks -/

theorem shl_ones (W n : Nat) (h : n ≤ W) : shl W (bnot W 0) n = 2 ^ W - 2 ^ n := by
  unfold shl bnot
  have hW : 0 < 2 ^ W := Nat.two_pow_pos _
  have hn : 0 < 2 ^ n := Nat.two_pow_pos _
  have hle : 2 ^ n ≤ 2 ^ W := Nat.pow_le_pow_right (by norm_num) h
  simp only [Nat.zero_mod, Nat.sub_zero]
  have e : (2 ^ W - 1) * 2 ^ n = (2 ^ W - 2 ^ n) + (2 ^ n - 1) * 2 ^ W := by
    have h1 : (2 ^ W - 1) * 2 ^ n = 2 ^ W * 2 ^ n - 2 ^ n := by
      rw [Nat.sub_mul, Nat.one_mul]
    have h2 : (2 ^ n - 1) * 2 ^ W = 2 ^ n * 2 ^ W - 2 ^ W := by
      rw [Nat.sub_mul, Nat.one_mul]
    have h3 : 2 ^ W ≤ 2 ^ n * 2 ^ W := Nat.le_mul_of_pos_left _ hn
    have h4 : 2 ^ n ≤ 2 ^ W * 2 ^ n := Nat.le_mul_of_pos_left _ hW
    rw [h1, h2, Nat.mul_comm (2 ^ n) (2 ^ W)]
    rw [Nat.mul_comm (2 ^ n) (2 ^ W)] at h3
    omega
  rw [e, Nat.add_mul_mod_self_right]
  apply Nat.mod_eq_of_lt
  omega

theorem sort_mask_eq (W nb off : Nat) (h : nb + off ≤ W) :
    sort_mask W nb off = (2 ^ nb - 1) * 2 ^ off := by
  unfold sort_mask
  rw [shl_ones W nb (by omega)]
  have hW : 0 < 2 ^ W := Nat.two_pow_pos _
  have hn : 0 < 2 ^ nb := Nat.two_pow_pos _
  have hle : 2 ^ nb ≤ 2 ^ W := Nat.pow_le_pow_right (by norm_num) (by omega)
  have e1 : bnot W (2 ^ W - 2 ^ nb) = 2 ^ nb - 1 := by
    unfold bnot
    rw [Nat.mod_eq_of_lt (by omega)]
    omega
  rw [e1]
  unfold shl
  apply Nat.mod_eq_of_lt
  calc (2 ^ nb - 1) * 2 ^ off < 2 ^ nb * 2 ^ off :=
        Nat.mul_lt_mul_of_pos_right (by omega) (Nat.two_pow_pos _)
    _ = 2 ^ (nb + off) := by rw [← Nat.pow_add]
    _ ≤ 2 ^ W := Nat.pow_le_pow_right (by norm_num) h

theorem desc_mask_eq (W w off : Nat) (h : w + off ≤ W) :
    desc_mask W w off = (2 ^ w - 1) * 2 ^ off := by
  unfold desc_mask
  split
  · rename_i hw
    unfold ROCK_MAX_SHIFT at hw
    have hw2 : w = W := by omega
    have ho : off = 0 := by omega
    subst hw2; subst ho
    simp [ROCK_UINT_MAX]
  · exact sort_mask_eq W w off h

theorem testBit_field (w off b : Nat) :
    ((2 ^ w - 1) * 2 ^ off).testBit b = decide (off ≤ b ∧ b < off + w) := by
  rw [Nat.mul_comm, Nat.testBit_mul_pow_two, Nat.testBit_two_pow_sub_one]
  by_cases h1 : off ≤ b <;> by_cases h2 : b < off + w <;> simp [h1, h2] <;> omega

theorem digit_field (w off x : Nat) :
    sort_digit ((2 ^ w - 1) * 2 ^ off) off x = (x / 2 ^ off) % 2 ^ w := by
  unfold sort_digit
  apply Nat.eq_of_testBit_eq
  intro i
  rw [Nat.testBit_shiftRight, Nat.testBit_and, testBit_field, Nat.testBit_mod_two_pow,
    ← Nat.shiftRight_eq_div_pow, Nat.testBit_shiftRight]
  by_cases h : i < w <;> simp [h]

/-! ## The descriptor built by `rock_desc_init` -/

theorem getD_map_range {α : Type} (f : Nat → α) (n i : Nat) (a : α) (h : i < n) :
    ((List.range n).map f).getD i a = f i := by
  simp [List.getD_eq_getElem?_getD, List.getElem?_map, List.getElem?_range h]

theorem init_offset_succ (ds : List Nat) (i : Nat) :
    init_offset ds (i + 1) = init_offset ds i + init_width ds i := by
  simp [init_offset, List.range_succ, List.map_append, List.sum_append]

theorem init_offset_mono (ds : List Nat) (i j : Nat) (h : i ≤ j) :
    init_offset ds i ≤ init_offset ds j := by
  induction j with
  | zero => have : i = 0 := by omega
            subst this; exact Nat.le_refl _
  | succ j ih =>
    rcases Nat.lt_or_ge i (j + 1) with h1 | h1
    · have := ih (by omega)
      rw [init_offset_succ]; omega
    · have : i = j + 1 := by omega
      subst this; exact Nat.le_refl _

theorem init_offset_field_le (ds : List Nat) (i j : Nat) (h : i < j) :
    init_offset ds i + init_width ds i ≤ init_offset ds j := by
  rw [← init_offset_succ]
  exact init_offset_mono ds (i + 1) j h

theorem desc_init_fold (W : Nat) (ds : List Nat) (n : Nat) :
    (List.range n).foldl (desc_init_step W ds) (1, ⟨0, [], 0, [], [], []⟩) =
      (if n = 0 then 1 else ((List.range n).map (fun i => ds.getD i 0)).prod % 2 ^ W,
        ⟨0, (List.range n).map (fun i => ds.getD i 0), 0,
          (List.range n).map (init_width ds),
          (List.range n).map (init_offset ds),
          (List.range n).map (fun i => desc_mask W (init_width ds i) (init_offset ds i))⟩) := by
  induction n with
  | zero => simp
  | succ n ih =>
    rw [List.range_succ, List.foldl_append, ih]
    simp only [List.foldl_cons, List.foldl_nil, desc_init_step, List.map_append, List.map_cons,
      List.map_nil, List.prod_append, List.prod_cons, List.prod_nil, Nat.mul_one]
    have hoff : (if n = 0 then 0 else
        ((List.range n).map (init_offset ds)).getD (n - 1) 0 +
        ((List.range n).map (init_width ds)).getD (n - 1) 0) = init_offset ds n := by
      rcases Nat.eq_zero_or_pos n with h | h
      · subst h; simp [init_offset]
      · rw [if_neg (by omega), getD_map_range _ _ _ _ (by omega),
          getD_map_range _ _ _ _ (by omega)]
        have := init_offset_succ ds (n - 1)
        rw [show n - 1 + 1 = n by omega] at this
        rw [this]
    rw [hoff]
    have hprod : ((if n = 0 then 1 else ((List.range n).map (fun i => ds.getD i 0)).prod %
        2 ^ W) * ds.getD n 0) % 2 ^ W =
        (if n + 1 = 0 then 1 else
          (((List.range n).map (fun i => ds.getD i 0)).prod * ds.getD n 0) % 2 ^ W) := by
      rcases Nat.eq_zero_or_pos n with h | h
      · subst h; simp
      · rw [if_neg (by omega), if_neg (by omega)]
        simp [Nat.mod_mul_mod]
    rw [hprod]
    rfl

theorem rock_desc_init_eq (W order : Nat) (ds : List Nat) :
    rock_desc_init W order ds =
      ⟨order, (List.range order).map (fun i => ds.getD i 0),
        if order = 0 then 1 else ((List.range order).map (fun i => ds.getD i 0)).prod % 2 ^ W,
        (List.range order).map (init_width ds),
        (List.range order).map (init_offset ds),
        (List.range order).map (fun i => desc_mask W (init_width ds i) (init_offset ds i))⟩ := by
  unfold rock_desc_init
  rw [desc_init_fold]

theorem map_getD_range (ds : List Nat) :
    (List.range ds.length).map (fun i => ds.getD i 0) = ds := by
  apply List.ext_getElem
  · simp
  · intro i h1 h2
    simp [List.getD_eq_getElem?_getD, List.getElem?_eq_getElem h2]

theorem desc_width_sum (W order : Nat) (ds : List Nat) :
    (rock_desc_init W order ds).bit_width.sum = init_offset ds order := by
  rw [rock_desc_init_eq]; rfl

theorem desc_getD (W order : Nat) (ds : List Nat) (i : Nat) (h : i < order) :
    (rock_desc_init W order ds).bit_width.getD i 0 = init_width ds i ∧
    (rock_desc_init W order ds).bit_offset.getD i 0 = init_offset ds i ∧
    (rock_desc_init W order ds).bit_mask.getD i 0 =
      desc_mask W (init_width ds i) (init_offset ds i) ∧
    (rock_desc_init W order ds).dim_size.getD i 0 = ds.getD i 0 := by
  rw [rock_desc_init_eq]
  simp only
  rw [getD_map_range _ _ _ _ h, getD_map_range _ _ _ _ h, getD_map_range _ _ _ _ h,
    getD_map_range _ _ _ _ h]
  exact ⟨rfl, rfl, rfl, rfl⟩

theorem desc_field_fits (W order : Nat) (ds : List Nat)
    (hfit : (rock_desc_init W order ds).bit_width.sum ≤ W) (i : Nat) (h : i < order) :
    init_width ds i + init_offset ds i ≤ W := by
  rw [desc_width_sum] at hfit
  have := init_offset_field_le ds i order h
  omega

/-! ## Descriptor claims -/

/-- C9: in a descriptor built by `rock_desc_init` whose widths sum to at most the
word width, bit `b` of `bit_mask[i]` is set exactly when
`bit_offset[i] ≤ b < bit_offset[i] + bit_width[i]`; a width equal to the word
width gives the all-ones mask; masks of distinct dimensions are disjoint. -/
theorem desc_masks (W order : Nat) (ds : List Nat) (hlen : ds.length = order)
    (hds : ∀ s ∈ ds, 1 ≤ s) (hfit : (rock_desc_init W order ds).bit_width.sum ≤ W) :
    (∀ i b, i < order → (((rock_desc_init W order ds).bit_mask.getD i 0).testBit b = true ↔
      ((rock_desc_init W order ds).bit_offset.getD i 0 ≤ b ∧
        b < (rock_desc_init W order ds).bit_offset.getD i 0 +
          (rock_desc_init W order ds).bit_width.getD i 0))) ∧
    (∀ i, i < order → (rock_desc_init W order ds).bit_width.getD i 0 = W →
      (rock_desc_init W order ds).bit_mask.getD i 0 = ROCK_UINT_MAX W) ∧
    (∀ i j, i < order → j < order → i ≠ j →
      (rock_desc_init W order ds).bit_mask.getD i 0 &&&
        (rock_desc_init W order ds).bit_mask.getD j 0 = 0) := by
  have hm : ∀ i, i < order → (rock_desc_init W order ds).bit_mask.getD i 0 =
      (2 ^ init_width ds i - 1) * 2 ^ init_offset ds i := by
    intro i hi
    rw [(desc_getD W order ds i hi).2.2.1]
    exact desc_mask_eq W _ _ (desc_field_fits W order ds hfit i hi)
  refine ⟨?_, ?_, ?_⟩
  · intro i b hi
    rw [hm i hi, (desc_getD W order ds i hi).1, (desc_getD W order ds i hi).2.1, testBit_field]
    simp
  · intro i hi hw
    rw [(desc_getD W order ds i hi).1] at hw
    have hf := desc_field_fits W order ds hfit i hi
    rw [hm i hi, hw, show init_offset ds i = 0 by omega]
    simp [ROCK_UINT_MAX]
  · intro i j hi hj hij
    rw [hm i hi, hm j hj]
    apply Nat.eq_of_testBit_eq
    intro b
    rw [Nat.testBit_and, testBit_field, testBit_field, Nat.zero_testBit]
    rcases Nat.lt_or_gt_of_ne hij with h | h
    · have := init_offset_field_le ds i j h
      by_cases h1 : b < init_offset ds i + init_width ds i
      · simp; intro _ _ _; omega
      · simp; intro _ _; omega
    · have := init_offset_field_le ds j i h
      by_cases h1 : b < init_offset ds j + init_width ds j
      · simp; intro _ _ ; omega
      · simp; intro _ _ _; omega

/-- Witness for C9 at the sizes `[1000, 20, 500]` on a 32-bit word. -/
theorem desc_masks_witness :
    (rock_desc_init 32 3 [1000, 20, 500]).bit_width.sum ≤ 32 ∧
    (rock_desc_init 32 3 [1000, 20, 500]).bit_mask.getD 0 0 &&&
      (rock_desc_init 32 3 [1000, 20, 500]).bit_mask.getD 1 0 = 0 :=
  ⟨by decide, (desc_masks 32 3 [1000, 20, 500] (by decide) (by decide) (by decide)).2.2 0 1
    (by decide) (by decide) (by decide)⟩

theorem getD_set (l : List Nat) (i j v : Nat) :
    (l.set i v).getD j 0 = if i = j ∧ i < l.length then v else l.getD j 0 := by
  by_cases h : i = j
  · subst h
    by_cases h2 : i < l.length
    · simp [List.getD_eq_getElem?_getD, List.getElem?_set, h2]
    · rw [List.set_eq_of_length_le (by omega)]
      simp [h2]
  · simp [List.getD_eq_getElem?_getD, List.getElem?_set, h]

theorem list_ext_getD (l1 l2 : List Nat) (hl : l1.length = l2.length)
    (h : ∀ p, p < l1.length → l1.getD p 0 = l2.getD p 0) : l1 = l2 := by
  apply List.ext_getElem hl
  intro p h1 h2
  have := h p h1
  simpa [List.getD_eq_getElem?_getD, List.getElem?_eq_getElem h1,
    List.getElem?_eq_getElem h2] using this

theorem cnt_eq_succ (d : Nat → Nat) (src : List Nat) (s v : Nat) (h : s < src.length) :
    cnt_eq d src (s + 1) v = cnt_eq d src s v + if d (src.getD s 0) = v then 1 else 0 := by
  unfold cnt_eq
  rw [List.take_succ, List.countP_append, List.getD_eq_getElem?_getD,
    List.getElem?_eq_getElem h]
  by_cases hv : d src[s] = v <;> simp [hv]

theorem cnt_eq_zero (d : Nat → Nat) (src : List Nat) (v : Nat) : cnt_eq d src 0 v = 0 := by
  simp [cnt_eq]

theorem cnt_eq_mono (d : Nat → Nat) (src : List Nat) (v : Nat) (s s' : Nat) (h : s ≤ s') :
    cnt_eq d src s v ≤ cnt_eq d src s' v := by
  unfold cnt_eq
  exact List.Sublist.countP_le _ (List.take_sublist_take_left src h)

theorem cnt_eq_full (d : Nat → Nat) (src : List Nat) (v s : Nat) (h : src.length ≤ s) :
    cnt_eq d src s v = src.countP (fun w => decide (d w = v)) := by
  unfold cnt_eq
  rw [List.take_of_length_le h]

theorem cnt_lt_succ (d : Nat → Nat) (src : List Nat) (v : Nat) :
    cnt_lt d src (v + 1) = cnt_lt d src v + cnt_eq d src src.length v := by
  rw [cnt_eq_full d src v _ (Nat.le_refl _)]
  unfold cnt_lt
  induction src with
  | nil => simp
  | cons a l ih =>
    simp only [List.countP_cons, ih]
    by_cases h1 : d a < v
    · have h2 : d a < v + 1 := by omega
      have h3 : ¬ d a = v := by omega
      simp [h1, h2, h3]; omega
    · by_cases h3 : d a = v
      · have h2 : d a < v + 1 := by omega
        simp [h1, h2, h3]; omega
      · have h2 : ¬ d a < v + 1 := by omega
        simp [h1, h2, h3]

theorem cnt_lt_mono (d : Nat → Nat) (src : List Nat) (v v' : Nat) (h : v ≤ v') :
    cnt_lt d src v ≤ cnt_lt d src v' := by
  induction v' with
  | zero => have : v = 0 := by omega
            subst this; exact Nat.le_refl _
  | succ k ih =>
    rcases Nat.lt_or_ge v (k + 1) with h1 | h1
    · have := ih (by omega)
      rw [cnt_lt_succ]; omega
    · have : v = k + 1 := by omega
      subst this; exact Nat.le_refl _

theorem cnt_lt_le_length (d : Nat → Nat) (src : List Nat) (v : Nat) :
    cnt_lt d src v ≤ src.length := List.countP_le_length _

theorem cnt_lt_zero (d : Nat → Nat) (src : List Nat) : cnt_lt d src 0 = 0 := by
  simp [cnt_lt]

theorem cnt_lt_all (d : Nat → Nat) (src : List Nat) (nb : Nat)
    (h : ∀ s, s < src.length → d (src.getD s 0) < nb) : cnt_lt d src nb = src.length := by
  unfold cnt_lt
  rw [List.countP_eq_length]
  intro a ha
  obtain ⟨s, hs, rfl⟩ := List.getElem_of_mem ha
  have := h s hs
  simpa [List.getD_eq_getElem?_getD, List.getElem?_eq_getElem hs] using this

/-! ## Destinations of a stable counting sort -/

theorem dest_pos_lt (d : Nat → Nat) (src : List Nat) (s : Nat) (h : s < src.length) :
    dest_pos d src s < src.length := by
  unfold dest_pos
  have h1 := cnt_eq_succ d src s (d (src.getD s 0)) h
  rw [if_pos rfl] at h1
  have h2 := cnt_eq_mono d src (d (src.getD s 0)) (s + 1) src.length h
  have h3 := cnt_lt_succ d src (d (src.getD s 0))
  have h4 := cnt_lt_le_length d src (d (src.getD s 0) + 1)
  omega

theorem dest_pos_lt_of_lex (d : Nat → Nat) (src : List Nat) (u u' : Nat)
    (hu : u < src.length) (hu' : u' < src.length)
    (h : d (src.getD u 0) < d (src.getD u' 0) ∨
      (d (src.getD u 0) = d (src.getD u' 0) ∧ u < u')) :
    dest_pos d src u < dest_pos d src u' := by
  unfold dest_pos
  have h1 := cnt_eq_succ d src u (d (src.getD u 0)) hu
  rw [if_pos rfl] at h1
  rcases h with h | ⟨h, hlt⟩
  · have h2 := cnt_eq_mono d src (d (src.getD u 0)) (u + 1) src.length hu
    have h3 := cnt_lt_succ d src (d (src.getD u 0))
    have h4 := cnt_lt_mono d src (d (src.getD u 0) + 1) (d (src.getD u' 0)) h
    omega
  · rw [← h]
    have h2 := cnt_eq_mono d src (d (src.getD u 0)) (u + 1) u' hlt
    omega

theorem dest_pos_lex (d : Nat → Nat) (src : List Nat) (u u' : Nat)
    (hu : u < src.length) (hu' : u' < src.length)
    (h : dest_pos d src u < dest_pos d src u') :
    d (src.getD u 0) < d (src.getD u' 0) ∨
      (d (src.getD u 0) = d (src.getD u' 0) ∧ u < u') := by
  by_contra hc
  have h2 : d (src.getD u' 0) < d (src.getD u 0) ∨
      (d (src.getD u' 0) = d (src.getD u 0) ∧ u' < u) ∨ u = u' := by
    rcases Nat.lt_trichotomy (d (src.getD u 0)) (d (src.getD u' 0)) with h1 | h1 | h1
    · exact absurd (Or.inl h1) hc
    · rcases Nat.lt_trichotomy u u' with h3 | h3 | h3
      · exact absurd (Or.inr ⟨h1, h3⟩) hc
      · exact Or.inr (Or.inr h3)
      · exact Or.inr (Or.inl ⟨h1.symm, h3⟩)
    · exact Or.inl h1
  rcases h2 with h2 | h2 | h2
  · have := dest_pos_lt_of_lex d src u' u hu' hu (Or.inl h2); omega
  · have := dest_pos_lt_of_lex d src u' u hu' hu (Or.inr h2); omega
  · subst h2; omega

theorem dest_pos_inj (d : Nat → Nat) (src : List Nat) (u u' : Nat)
    (hu : u < src.length) (hu' : u' < src.length)
    (h : dest_pos d src u = dest_pos d src u') : u = u' := by
  by_contra hne
  rcases Nat.lt_trichotomy (d (src.getD u 0)) (d (src.getD u' 0)) with h1 | h1 | h1
  · have := dest_pos_lt_of_lex d src u u' hu hu' (Or.inl h1); omega
  · rcases Nat.lt_or_gt_of_ne hne with h3 | h3
    · have := dest_pos_lt_of_lex d src u u' hu hu' (Or.inr ⟨h1, h3⟩); omega
    · have := dest_pos_lt_of_lex d src u' u hu' hu (Or.inr ⟨h1.symm, h3⟩); omega
  · have := dest_pos_lt_of_lex d src u' u hu' hu (Or.inl h1); omega

theorem dest_pos_surj (d : Nat → Nat) (src : List Nat) (i : Nat) (hi : i < src.length) :
    ∃ u, u < src.length ∧ dest_pos d src u = i := by
  let f : Fin src.length → Fin src.length :=
    fun u => ⟨dest_pos d src u.1, dest_pos_lt d src u.1 u.2⟩
  have hinj : Function.Injective f := by
    intro a b hab
    apply Fin.ext
    exact dest_pos_inj d src a.1 b.1 a.2 b.2 (by simpa [f] using congrArg Fin.val hab)
  have hsurj : Function.Surjective f := Finite.injective_iff_surjective.mp hinj
  obtain ⟨u, hu⟩ := hsurj ⟨i, hi⟩
  exact ⟨u.1, u.2, by simpa [f] using congrArg Fin.val hu⟩

/-! ## Slices of the threads and loops over them -/

theorem range_fold_inv {σ : Type} (m : Nat) (g : σ → Nat → σ) (Q : Nat → σ → Prop) (s : σ)
    (h0 : Q 0 s) (hstep : ∀ i s, i < m → Q i s → Q (i + 1) (g s i)) :
    Q m ((List.range m).foldl g s) := by
  induction m with
  | zero => exact h0
  | succ m ih =>
    rw [List.range_succ, List.foldl_append]
    simp only [List.foldl_cons, List.foldl_nil]
    exact hstep m _ (by omega) (ih (fun i s hi => hstep i s (by omega)))

theorem slice_offset_le (T n t : Nat) (ht : t < T) : slice_offset T n t ≤ n := by
  unfold slice_offset
  calc t * (n / T) ≤ T * (n / T) := Nat.mul_le_mul_right _ (by omega)
    _ ≤ n := Nat.mul_div_le n T

theorem slice_bound_zero (T n : Nat) (hT : 1 ≤ T) : slice_bound T n 0 = 0 := by
  simp [slice_bound, slice_offset, show 0 < T by omega]

theorem slice_bound_last (T n : Nat) : slice_bound T n T = n := by
  simp [slice_bound]

theorem slice_bound_eq (T n t : Nat) (ht : t < T) : slice_bound T n t = slice_offset T n t := by
  simp [slice_bound, ht]

theorem slice_bound_succ (T n t : Nat) (ht : t < T) :
    slice_bound T n (t + 1) = slice_offset T n t + slice_size T n t := by
  unfold slice_bound slice_size
  have hle := slice_offset_le T n t ht
  by_cases h : t + 1 < T
  · rw [if_pos h, if_neg (by omega)]
    unfold slice_offset
    ring
  · rw [if_neg h, if_pos (by omega)]
    omega

theorem slice_bound_le_succ (T n t : Nat) (ht : t < T) :
    slice_bound T n t ≤ slice_bound T n (t + 1) := by
  rw [slice_bound_succ T n t ht, slice_bound_eq T n t ht]; omega

theorem slice_bound_mono (T n t t' : Nat) (h : t ≤ t') (ht' : t' ≤ T) :
    slice_bound T n t ≤ slice_bound T n t' := by
  induction t' with
  | zero => have : t = 0 := by omega
            subst this; exact Nat.le_refl _
  | succ k ih =>
    rcases Nat.lt_or_ge t (k + 1) with h1 | h1
    · have := ih (by omega) (by omega)
      have := slice_bound_le_succ T n k (by omega)
      omega
    · have : t = k + 1 := by omega
      subst this; exact Nat.le_refl _

theorem slice_bound_le (T n t : Nat) (ht : t ≤ T) : slice_bound T n t ≤ n := by
  have := slice_bound_mono T n t T ht (Nat.le_refl _)
  rw [slice_bound_last] at this
  exact this

theorem slices_fold_inv {σ : Type} (T n : Nat) (f : Nat → σ → Nat → σ)
    (P : Nat → σ → Prop) (st0 : σ) (hT : 1 ≤ T) (h0 : P 0 st0)
    (hstep : ∀ t i st, t < T → i < slice_size T n t →
      P (slice_offset T n t + i) st → P (slice_offset T n t + i + 1) (f t st i)) :
    P n ((List.range T).foldl
      (fun st id => (List.range (slice_size T n id)).foldl (f id) st) st0) := by
  have key := range_fold_inv T
    (fun st id => (List.range (slice_size T n id)).foldl (f id) st)
    (fun t st => P (slice_bound T n t) st) st0
    (by show P (slice_bound T n 0) st0; rw [slice_bound_zero T n hT]; exact h0)
    (by
      intro t st ht hP
      show P (slice_bound T n (t + 1)) _
      have hP : P (slice_bound T n t) st := hP
      rw [slice_bound_succ T n t ht]
      rw [slice_bound_eq T n t ht] at hP
      exact range_fold_inv (slice_size T n t) (f t)
        (fun i st => P (slice_offset T n t + i) st) st hP
        (fun i st hi h => hstep t i st ht hi h))
  have key2 : P (slice_bound T n T) _ := key
  rw [slice_bound_last] at key2
  exact key2

theorem bin_index_inj (nb t v k i : Nat) (hv : v < nb) (hi : i < nb)
    (h : t * nb + v = k * nb + i) : t = k ∧ v = i := by
  have h1 : (t * nb + v) / nb = t := by
    rw [Nat.mul_comm, Nat.mul_add_div (by omega), Nat.div_eq_of_lt hv]; rfl
  have h2 : (k * nb + i) / nb = k := by
    rw [Nat.mul_comm, Nat.mul_add_div (by omega), Nat.div_eq_of_lt hi]; rfl
  have htk : t = k := by rw [← h1, ← h2, h]
  subst htk
  exact ⟨rfl, by omega⟩

theorem bin_index_lt (nb T t v : Nat) (ht : t < T) (hv : v < nb) : t * nb + v < T * nb := by
  calc t * nb + v < t * nb + nb := by omega
    _ = (t + 1) * nb := by ring
    _ ≤ T * nb := Nat.mul_le_mul_right _ ht

theorem bin_index_wrap (W nb T t v : Nat) (ht : t < T) (hv : v < nb)
    (hw : T * nb < 2 ^ W) : (bins_offset W nb t + v) % 2 ^ W = t * nb + v := by
  have h1 := bin_index_lt nb T t v ht hv
  have h2 : t * nb < 2 ^ W := by omega
  unfold bins_offset
  rw [Nat.mod_eq_of_lt h2, Nat.mod_eq_of_lt (by omega)]

/-! ## Phase 1: the histogram -/

theorem hist_count_step (d : Nat → Nat) (src : List Nat) (T t0 s t v : Nat)
    (ht0 : t0 < T) (ht : t < T) (hs : s < src.length)
    (hlo : slice_bound T src.length t0 ≤ s) (hhi : s < slice_bound T src.length (t0 + 1)) :
    hist_count d src T t v (s + 1) =
      hist_count d src T t v s + if t = t0 ∧ d (src.getD s 0) = v then 1 else 0 := by
  unfold hist_count
  have hsucc := cnt_eq_succ d src s v hs
  rcases Nat.lt_trichotomy t t0 with h | h | h
  · have h1 := slice_bound_mono T src.length (t + 1) t0 (by omega) (by omega)
    have h2 := slice_bound_le_succ T src.length t ht
    rw [if_neg (by omega), Nat.min_eq_right (by omega), Nat.min_eq_right (by omega),
      Nat.min_eq_right (by omega), Nat.min_eq_right (by omega)]
    rfl
  · subst h
    have h2 := cnt_eq_mono d src v (slice_bound T src.length t) s hlo
    rw [Nat.min_eq_left (by omega), Nat.min_eq_right (by omega), Nat.min_eq_left (by omega),
      Nat.min_eq_right (by omega), hsucc]
    by_cases hv : d (src.getD s 0) = v
    · rw [if_pos hv, if_pos ⟨rfl, hv⟩]; omega
    · rw [if_neg hv, if_neg (by tauto)]; omega
  · have h1 := slice_bound_mono T src.length (t0 + 1) t (by omega) (by omega)
    have h2 := slice_bound_le_succ T src.length t ht
    rw [if_neg (by omega), Nat.min_eq_left (by omega), Nat.min_eq_left (by omega),
      Nat.min_eq_left (by omega), Nat.min_eq_left (by omega)]
    omega

theorem hist_count_zero (d : Nat → Nat) (src : List Nat) (T t v : Nat) :
    hist_count d src T t v 0 = 0 := by
  simp [hist_count]

theorem hist_count_full (d : Nat → Nat) (src : List Nat) (T t v : Nat) (ht : t < T) :
    hist_count d src T t v src.length =
      cnt_eq d src (slice_bound T src.length (t + 1)) v -
        cnt_eq d src (slice_bound T src.length t) v := by
  unfold hist_count
  rw [Nat.min_eq_right (slice_bound_le T _ _ (by omega)),
    Nat.min_eq_right (slice_bound_le T _ _ (by omega))]

theorem perm_identity_upto_succ (p : List Nat) (s : Nat) :
    perm_identity_upto p (s + 1) = (perm_identity_upto p s).set s s := by
  simp [perm_identity_upto, List.range_succ, List.foldl_append]

theorem perm_identity_upto_spec (p : List Nat) (s : Nat) :
    (perm_identity_upto p s).length = p.length ∧
    ∀ j, (perm_identity_upto p s).getD j 0 = if j < s ∧ j < p.length then j else p.getD j 0 := by
  induction s with
  | zero =>
    refine ⟨rfl, ?_⟩
    intro j; rw [if_neg (by omega)]; rfl
  | succ s ih =>
    rw [perm_identity_upto_succ]
    refine ⟨by rw [List.length_set]; exact ih.1, ?_⟩
    intro j
    rw [getD_set, ih.1, ih.2]
    by_cases h : s = j
    · subst h
      by_cases h2 : s < p.length
      · rw [if_pos ⟨rfl, h2⟩, if_pos (by omega)]
      · rw [if_neg (by omega), if_neg (by omega), if_neg (by omega)]
    · rw [if_neg (by omega)]
      by_cases h3 : j < s ∧ j < p.length
      · rw [if_pos h3, if_pos (by omega)]
      · rw [if_neg h3, if_neg (by omega)]

theorem hist_phase_spec (W T nb mask offset : Nat) (first_pass : Bool) (src : List Nat)
    (perm0 : Option (List Nat)) (hT : 1 ≤ T) (hw : T * nb < 2 ^ W)
    (hd : ∀ s, s < src.length → sort_digit mask offset (src.getD s 0) < nb) :
    hist_inv T nb mask offset first_pass src perm0 src.length
      (hist_phase W T nb mask offset first_pass src (List.replicate (T * nb) 0, perm0)) := by
  unfold hist_phase
  apply slices_fold_inv T src.length
    (fun id => hist_step W mask offset (bins_offset W nb id) (slice_offset T src.length id)
      first_pass src)
    (hist_inv T nb mask offset first_pass src perm0) _ hT
  · refine ⟨by simp, ?_, ?_⟩
    · intro t v ht hv
      rw [hist_count_zero]
      simp [List.getD_eq_getElem?_getD, List.getElem?_replicate, bin_index_lt nb T t v ht hv]
    · cases first_pass <;> cases perm0 <;> simp [perm_identity_upto]
  · intro t0 i st ht0 hi hinv
    obtain ⟨hlen, hb, hp⟩ := hinv
    have hlo : slice_bound T src.length t0 ≤ slice_offset T src.length t0 + i := by
      rw [slice_bound_eq T _ t0 ht0]; omega
    have hhi : slice_offset T src.length t0 + i < slice_bound T src.length (t0 + 1) := by
      rw [slice_bound_succ T _ t0 ht0]; omega
    have hs : slice_offset T src.length t0 + i < src.length := by
      have := slice_bound_le T src.length (t0 + 1) (by omega); omega
    have hv0 := hd _ hs
    have hk := bin_index_wrap W nb T t0 _ ht0 hv0 hw
    refine ⟨?_, ?_, ?_⟩
    · simp only [hist_step, List.length_set]; exact hlen
    · intro t v ht hv
      simp only [hist_step]
      rw [hk, getD_set, hlen, hist_count_step _ src T t0 _ t v ht0 ht hs hlo hhi, hb t v ht hv]
      by_cases hc : t = t0 ∧ sort_digit mask offset (src.getD (slice_offset T src.length t0 + i) 0) = v
      · rw [if_pos hc, if_pos ⟨by rw [hc.1, hc.2], bin_index_lt nb T t0 _ ht0 hv0⟩,
          hb t0 _ ht0 hv0, hc.1, hc.2]
      · rw [if_neg hc, if_neg]
        · rfl
        · intro hcon
          have := bin_index_inj nb t0 _ t v hv0 hv hcon.1
          exact hc ⟨this.1.symm, this.2⟩
    · simp only [hist_step]
      rw [hp]
      cases first_pass
      · rfl
      · cases perm0
        · rfl
        · simp [perm_identity_upto_succ]

/-! ## Phase 2: the prefix sum -/

theorem prefix_inner_step (W : Nat) (d : Nat → Nat) (src : List Nat) (T nb i k : Nat)
    (st : List Nat × Nat) (hw : T * nb < 2 ^ W) (hi : i < nb) (hk : k < T)
    (h : prefix_inv d src T nb i k st) :
    prefix_inv d src T nb i (k + 1) (prefix_step W nb i st k) := by
  obtain ⟨hlen, htot, hb⟩ := h
  have hidx : ((k * nb) % 2 ^ W + i) % 2 ^ W = k * nb + i := by
    have := bin_index_wrap W nb T k i hk hi hw
    unfold bins_offset at this
    exact this
  have hlt := bin_index_lt nb T k i hk hi
  have hold : st.1.getD (k * nb + i) 0 = hist_count d src T k i src.length := by
    rw [hb k i hk hi, if_neg (by omega)]
  refine ⟨?_, ?_, ?_⟩
  · simp only [prefix_step, List.length_set]; exact hlen
  · simp only [prefix_step]
    rw [hidx, hold, htot, hist_count_full d src T k i hk]
    have := cnt_eq_mono d src i _ _ (slice_bound_le_succ T src.length k hk)
    omega
  · intro t v ht hv
    simp only [prefix_step]
    rw [hidx, getD_set, hlen]
    by_cases hc : k * nb + i = t * nb + v
    · have := bin_index_inj nb k i t v hi hv hc
      rw [if_pos ⟨hc, hlt⟩, if_pos (by omega), htot, this.1, this.2]
    · rw [if_neg (by tauto), hb t v ht hv]
      have hne : ¬ (v = i ∧ t = k) := by
        intro hcon; apply hc; rw [hcon.1, hcon.2]
      by_cases h1 : v < i ∨ (v = i ∧ t < k)
      · rw [if_pos h1, if_pos (by omega)]
      · rw [if_neg h1, if_neg (by omega)]

theorem prefix_phase_spec (W : Nat) (d : Nat → Nat) (src : List Nat) (T nb : Nat)
    (bins : List Nat) (hT : 1 ≤ T) (hw : T * nb < 2 ^ W) (hlen : bins.length = T * nb)
    (hb : ∀ t v, t < T → v < nb →
      bins.getD (t * nb + v) 0 = hist_count d src T t v src.length) :
    (prefix_phase W T nb bins).length = T * nb ∧
    ∀ t v, t < T → v < nb →
      (prefix_phase W T nb bins).getD (t * nb + v) 0 =
        cnt_lt d src v + cnt_eq d src (slice_bound T src.length t) v := by
  have key := range_fold_inv nb
    (fun st i => (List.range T).foldl (prefix_step W nb i) st)
    (fun i st => prefix_inv d src T nb i 0 st) (bins, 0)
    (by
      refine ⟨hlen, ?_, ?_⟩
      · simp [cnt_lt_zero, slice_bound_zero T _ hT, cnt_eq_zero]
      · intro t v ht hv
        rw [if_neg (by omega)]
        exact hb t v ht hv)
    (by
      intro i st hi hinv
      have inner := range_fold_inv T (prefix_step W nb i)
        (fun k st => prefix_inv d src T nb i k st) st hinv
        (fun k st hk h => prefix_inner_step W d src T nb i k st hw hi hk h)
      obtain ⟨h1, h2, h3⟩ := inner
      refine ⟨h1, ?_, ?_⟩
      · rw [h2, slice_bound_last, slice_bound_zero T _ hT, cnt_eq_zero, cnt_lt_succ]
        rfl
      · intro t v ht hv
        rw [h3 t v ht hv]
        by_cases hc : v < i ∨ (v = i ∧ t < T)
        · rw [if_pos hc, if_pos (by omega)]
        · rw [if_neg hc, if_neg (by omega)])
  obtain ⟨h1, _, h3⟩ := key
  refine ⟨h1, ?_⟩
  intro t v ht hv
  have := h3 t v ht hv
  rw [if_pos (by omega)] at this
  exact this

/-! ## Phase 3: the movement -/

theorem slice_clamp_zero (T n t : Nat) (ht : t < T) :
    slice_clamp T n 0 t = slice_bound T n t := by
  unfold slice_clamp
  have := slice_bound_le_succ T n t ht
  rw [Nat.max_eq_right (by omega), Nat.min_eq_left this]

theorem slice_clamp_self (T n s t0 : Nat)
    (hlo : slice_bound T n t0 ≤ s) (hhi : s < slice_bound T n (t0 + 1)) :
    slice_clamp T n s t0 = s := by
  unfold slice_clamp
  rw [Nat.max_eq_left hlo, Nat.min_eq_left (by omega)]

theorem slice_clamp_step (T n s t0 t : Nat) (ht0 : t0 < T) (ht : t < T)
    (hlo : slice_bound T n t0 ≤ s) (hhi : s < slice_bound T n (t0 + 1)) :
    slice_clamp T n (s + 1) t = if t = t0 then s + 1 else slice_clamp T n s t := by
  unfold slice_clamp
  rcases Nat.lt_trichotomy t t0 with h | h | h
  · have h1 := slice_bound_mono T n (t + 1) t0 (by omega) (by omega)
    have h2 := slice_bound_le_succ T n t ht
    rw [if_neg (by omega), Nat.max_eq_left (by omega), Nat.max_eq_left (by omega),
      Nat.min_eq_right (by omega), Nat.min_eq_right (by omega)]
  · subst h
    rw [if_pos rfl, Nat.max_eq_left (by omega), Nat.min_eq_left (by omega)]
  · have h1 := slice_bound_mono T n (t0 + 1) t (by omega) (by omega)
    rw [if_neg (by omega), Nat.max_eq_right (by omega), Nat.max_eq_right (by omega)]

theorem move_phase_spec (W T nb mask offset : Nat) (src : List Nat)
    (perm : Option (List Nat)) (bins indx_alt0 perm_alt0 : List Nat)
    (hT : 1 ≤ T) (hw : T * nb < 2 ^ W)
    (hd : ∀ s, s < src.length → sort_digit mask offset (src.getD s 0) < nb)
    (hbl : bins.length = T * nb)
    (hb : ∀ t v, t < T → v < nb → bins.getD (t * nb + v) 0 =
      cnt_lt (sort_digit mask offset) src v +
        cnt_eq (sort_digit mask offset) src (slice_bound T src.length t) v)
    (hal : indx_alt0.length = src.length)
    (hpl : perm.isSome → perm_alt0.length = src.length) :
    move_inv (sort_digit mask offset) src T nb perm perm_alt0 src.length
      (move_phase W T nb mask offset src perm ⟨bins, indx_alt0, perm_alt0⟩) := by
  unfold move_phase
  apply slices_fold_inv T src.length
    (fun id => move_step W mask offset (bins_offset W nb id) (slice_offset T src.length id)
      src perm)
    (move_inv (sort_digit mask offset) src T nb perm perm_alt0) _ hT
  · refine ⟨hbl, ?_, hal, ?_, rfl, ?_⟩
    · intro t v ht hv
      rw [slice_clamp_zero T _ t ht]
      exact hb t v ht hv
    · intro u hu; omega
    · cases perm
      · rfl
      · intro u hu; omega
  · intro t0 i st ht0 hi hinv
    obtain ⟨h1, h2, h3, h4, h5, h6⟩ := hinv
    have hlo : slice_bound T src.length t0 ≤ slice_offset T src.length t0 + i := by
      rw [slice_bound_eq T _ t0 ht0]; omega
    have hhi : slice_offset T src.length t0 + i < slice_bound T src.length (t0 + 1) := by
      rw [slice_bound_succ T _ t0 ht0]; omega
    have hs : slice_offset T src.length t0 + i < src.length := by
      have := slice_bound_le T src.length (t0 + 1) (by omega); omega
    simp only [move_step]
    generalize hsdef : slice_offset T src.length t0 + i = s at *
    have hv0 := hd s hs
    have hk := bin_index_wrap W nb T t0 _ ht0 hv0 hw
    have hklt := bin_index_lt nb T t0 _ ht0 hv0
    have hpos : st.bins.getD (t0 * nb + sort_digit mask offset (src.getD s 0)) 0 =
        dest_pos (sort_digit mask offset) src s := by
      rw [h2 t0 _ ht0 hv0, slice_clamp_self T _ s t0 hlo hhi]
      rfl
    have hposlt := dest_pos_lt (sort_digit mask offset) src s hs
    have hne : ∀ u, u < s → dest_pos (sort_digit mask offset) src s ≠
        dest_pos (sort_digit mask offset) src u := by
      intro u hu hcon
      have := dest_pos_inj _ src s u hs (by omega) hcon
      omega
    refine ⟨?_, ?_, ?_, ?_, ?_, ?_⟩
    · simp only [List.length_set]; exact h1
    · intro t v ht hv
      rw [hk, getD_set, h1, slice_clamp_step T _ s t0 t ht0 ht hlo hhi, hpos]
      by_cases hc : t0 * nb + sort_digit mask offset (src.getD s 0) = t * nb + v
      · have := bin_index_inj nb t0 _ t v hv0 hv hc
        rw [if_pos ⟨hc, hklt⟩, if_pos this.1.symm,
          cnt_eq_succ _ src s v hs, if_pos this.2, ← this.2]
        unfold dest_pos
        omega
      · rw [if_neg (by tauto), h2 t v ht hv]
        by_cases htt : t = t0
        · subst htt
          have hvne : ¬ sort_digit mask offset (src.getD s 0) = v := by
            intro hcon; apply hc; rw [hcon]
          rw [if_pos rfl, slice_clamp_self T _ s t hlo hhi, cnt_eq_succ _ src s v hs,
            if_neg hvne]
          rfl
        · rw [if_neg htt]
    · simp only [List.length_set]; exact h3
    · intro u hu
      rw [hk, hpos, getD_set, h3]
      by_cases hus : u = s
      · subst hus
        rw [if_pos ⟨rfl, hposlt⟩]
      · rw [if_neg (by intro hcon; exact hne u (by omega) hcon.1), h4 u (by omega)]
    · cases perm <;> simp [h5]
    · cases perm with
      | none => exact h6
      | some p =>
        intro u hu
        show (st.perm_alt.set _ _).getD _ 0 = _
        rw [hk, hpos, getD_set, h5, hpl rfl]
        by_cases hus : u = s
        · subst hus
          rw [if_pos ⟨rfl, hposlt⟩]
        · rw [if_neg (by intro hcon; exact hne u (by omega) hcon.1)]
          exact h6 u (by omega)

/-! ## One pass is a stable counting sort -/

theorem pass_phases_spec (W T nb mask offset : Nat) (first_pass : Bool) (src : List Nat)
    (perm0 : Option (List Nat)) (indx_alt0 perm_alt0 : List Nat)
    (hT : 1 ≤ T) (hw : T * nb < 2 ^ W)
    (hd : ∀ s, s < src.length → sort_digit mask offset (src.getD s 0) < nb)
    (hal : indx_alt0.length = src.length)
    (hpl : perm0.isSome → perm_alt0.length = src.length) :
    (hist_phase W T nb mask offset first_pass src (List.replicate (T * nb) 0, perm0)).2 =
      (if first_pass then perm0.map (fun p => perm_identity_upto p src.length) else perm0) ∧
    move_inv (sort_digit mask offset) src T nb
      (if first_pass then perm0.map (fun p => perm_identity_upto p src.length) else perm0)
      perm_alt0 src.length
      (move_phase W T nb mask offset src
        (hist_phase W T nb mask offset first_pass src (List.replicate (T * nb) 0, perm0)).2
        ⟨prefix_phase W T nb
          (hist_phase W T nb mask offset first_pass src (List.replicate (T * nb) 0, perm0)).1,
          indx_alt0, perm_alt0⟩) := by
  obtain ⟨h1, h2, h3⟩ := hist_phase_spec W T nb mask offset first_pass src perm0 hT hw hd
  obtain ⟨p1, p2⟩ := prefix_phase_spec W (sort_digit mask offset) src T nb _ hT hw h1 h2
  refine ⟨h3, ?_⟩
  rw [h3]
  apply move_phase_spec W T nb mask offset src _ _ indx_alt0 perm_alt0 hT hw hd p1 p2 hal
  intro hsome
  apply hpl
  cases first_pass <;> cases perm0 <;> simp_all

theorem sorted_inv_init (x : List Nat) : sorted_inv (fun _ => 0) x x (fun i => i) := by
  refine ⟨rfl, fun i hi => ⟨hi, rfl⟩, ?_⟩
  intro i j hij _
  exact Or.inr ⟨rfl, hij⟩

theorem sorted_inv_pass (K K' d : Nat → Nat) (x cur dst : List Nat) (σ : Nat → Nat)
    (hinv : sorted_inv K x cur σ) (hlen : dst.length = cur.length)
    (hmove : ∀ u, u < cur.length → dst.getD (dest_pos d cur u) 0 = cur.getD u 0)
    (hK1 : ∀ a b, d a < d b → K' a < K' b)
    (hK2 : ∀ a b, d a = d b → K a < K b → K' a < K' b)
    (hK3 : ∀ a b, d a = d b → K a = K b → K' a = K' b) :
    ∃ σ', sorted_inv K' x dst σ' ∧ ∀ u, u < cur.length → σ' (dest_pos d cur u) = σ u := by
  obtain ⟨hcl, hσ, hord⟩ := hinv
  have hex : ∀ i, ∃ u, i < cur.length → (u < cur.length ∧ dest_pos d cur u = i) := by
    intro i
    by_cases hi : i < cur.length
    · obtain ⟨u, hu, hp⟩ := dest_pos_surj d cur i hi
      exact ⟨u, fun _ => ⟨hu, hp⟩⟩
    · exact ⟨0, fun h => absurd h hi⟩
  choose inv hinvp using hex
  refine ⟨fun i => σ (inv i), ⟨by rw [hlen, hcl], ?_, ?_⟩, ?_⟩
  · intro i hi
    have h1 := hinvp i (by omega)
    have h2 := hσ (inv i) (by omega)
    refine ⟨h2.1, ?_⟩
    rw [← h2.2, ← hmove (inv i) h1.1, h1.2]
  · intro i j hij hj
    have hi1 := hinvp i (by omega)
    have hj1 := hinvp j (by omega)
    have hdi : dst.getD i 0 = cur.getD (inv i) 0 := by
      rw [← hmove (inv i) hi1.1, hi1.2]
    have hdj : dst.getD j 0 = cur.getD (inv j) 0 := by
      rw [← hmove (inv j) hj1.1, hj1.2]
    rw [hdi, hdj]
    have hlex := dest_pos_lex d cur (inv i) (inv j) hi1.1 hj1.1 (by rw [hi1.2, hj1.2]; exact hij)
    rcases hlex with h | ⟨h, hlt⟩
    · exact Or.inl (hK1 _ _ h)
    · rcases hord (inv i) (inv j) hlt (by omega) with h2 | ⟨h2, h3⟩
      · exact Or.inl (hK2 _ _ h h2)
      · exact Or.inr ⟨hK3 _ _ h h2, h3⟩
  · intro u hu
    have h1 := hinvp (dest_pos d cur u) (dest_pos_lt d cur u hu)
    have := dest_pos_inj d cur _ u h1.1 hu h1.2
    show σ (inv (dest_pos d cur u)) = σ u
    rw [this]

/-! ## The composite key -/

theorem testBit_concat (a b m j : Nat) (hb : b < 2 ^ m) :
    (a * 2 ^ m + b).testBit j = if j < m then b.testBit j else a.testBit (j - m) := by
  rw [Nat.mul_comm, Nat.testBit_mul_pow_two_add a hb]

theorem dim_coord_lt (desc : rock_desc_t) (dm w : Nat) :
    dim_coord desc dm w < 2 ^ desc.bit_width.getD dm 0 :=
  Nat.mod_lt _ (Nat.two_pow_pos _)

theorem dims_bits_cons (desc : rock_desc_t) (dm : Nat) (rest : List Nat) :
    dims_bits desc (dm :: rest) = desc.bit_width.getD dm 0 + dims_bits desc rest := by
  simp [dims_bits]

theorem dims_bits_append (desc : rock_desc_t) (l1 l2 : List Nat) :
    dims_bits desc (l1 ++ l2) = dims_bits desc l1 + dims_bits desc l2 := by
  simp [dims_bits, List.map_append, List.sum_append]

theorem sort_key_lt (desc : rock_desc_t) (dims : List Nat) (w : Nat) :
    sort_key desc dims w < 2 ^ dims_bits desc dims := by
  induction dims with
  | nil => simp [sort_key, dims_bits]
  | cons dm rest ih =>
    rw [sort_key, dims_bits_cons, Nat.pow_add]
    have h1 := dim_coord_lt desc dm w
    have h2 : (dim_coord desc dm w + 1) * 2 ^ dims_bits desc rest ≤
        2 ^ desc.bit_width.getD dm 0 * 2 ^ dims_bits desc rest :=
      Nat.mul_le_mul_right _ h1
    rw [Nat.add_mul, Nat.one_mul] at h2
    omega

theorem sort_key_append (desc : rock_desc_t) (l1 l2 : List Nat) (w : Nat) :
    sort_key desc (l1 ++ l2) w =
      sort_key desc l1 w * 2 ^ dims_bits desc l2 + sort_key desc l2 w := by
  induction l1 with
  | nil => simp [sort_key]
  | cons dm rest ih =>
    rw [List.cons_append, sort_key, sort_key, ih, dims_bits_append, Nat.pow_add]
    ring

/-- The digit a pass reads in the window `δ .. δ + nbits` of dimension `dm` is the
corresponding window of the composite key. -/
theorem key_window (desc : rock_desc_t) (pre post : List Nat) (dm δ nbits w : Nat)
    (h : δ + nbits ≤ desc.bit_width.getD dm 0) :
    (sort_key desc (pre ++ dm :: post) w / 2 ^ (dims_bits desc post + δ)) % 2 ^ nbits =
      (w / 2 ^ (desc.bit_offset.getD dm 0 + δ)) % 2 ^ nbits := by
  apply Nat.eq_of_testBit_eq
  intro i
  rw [Nat.testBit_mod_two_pow, Nat.testBit_mod_two_pow, ← Nat.shiftRight_eq_div_pow,
    ← Nat.shiftRight_eq_div_pow, Nat.testBit_shiftRight, Nat.testBit_shiftRight]
  by_cases hi : i < nbits
  · simp only [hi, decide_True, Bool.true_and]
    rw [sort_key_append, sort_key, Nat.add_assoc,
      show sort_key desc pre w * 2 ^ dims_bits desc (dm :: post) +
        (dim_coord desc dm w * 2 ^ dims_bits desc post + sort_key desc post w) =
        (sort_key desc pre w * 2 ^ desc.bit_width.getD dm 0 + dim_coord desc dm w) *
          2 ^ dims_bits desc post + sort_key desc post w by
        rw [dims_bits_cons, Nat.pow_add]; ring,
      testBit_concat _ _ _ _ (sort_key_lt desc post w), if_neg (by omega),
      testBit_concat _ _ _ _ (dim_coord_lt desc dm w), if_pos (by omega)]
    unfold dim_coord
    rw [Nat.testBit_mod_two_pow, ← Nat.shiftRight_eq_div_pow, Nat.testBit_shiftRight]
    have e1 : dims_bits desc post + (δ + i) - dims_bits desc post = δ + i := by omega
    rw [e1]
    have : decide (δ + i < desc.bit_width.getD dm 0) = true := by
      rw [decide_eq_true_iff]; omega
    rw [this, Bool.true_and]
    congr 1
    omega
  · simp [hi]

theorem mod_pow_add (a pb nb : Nat) :
    a % 2 ^ (pb + nb) = a % 2 ^ pb + 2 ^ pb * ((a / 2 ^ pb) % 2 ^ nb) := by
  rw [Nat.pow_add, Nat.mod_mul]

theorem key_step_lt (a b pb nb : Nat)
    (h : (a / 2 ^ pb) % 2 ^ nb < (b / 2 ^ pb) % 2 ^ nb) :
    a % 2 ^ (pb + nb) < b % 2 ^ (pb + nb) := by
  rw [mod_pow_add, mod_pow_add]
  have h1 : a % 2 ^ pb < 2 ^ pb := Nat.mod_lt _ (Nat.two_pow_pos _)
  have h2 : 2 ^ pb * ((a / 2 ^ pb) % 2 ^ nb + 1) ≤ 2 ^ pb * ((b / 2 ^ pb) % 2 ^ nb) :=
    Nat.mul_le_mul_left _ h
  rw [Nat.mul_add, Nat.mul_one] at h2
  omega

theorem key_step_eq_lt (a b pb nb : Nat)
    (h : (a / 2 ^ pb) % 2 ^ nb = (b / 2 ^ pb) % 2 ^ nb) (h2 : a % 2 ^ pb < b % 2 ^ pb) :
    a % 2 ^ (pb + nb) < b % 2 ^ (pb + nb) := by
  rw [mod_pow_add, mod_pow_add, h]
  omega

theorem key_step_eq (a b pb nb : Nat)
    (h : (a / 2 ^ pb) % 2 ^ nb = (b / 2 ^ pb) % 2 ^ nb) (h2 : a % 2 ^ pb = b % 2 ^ pb) :
    a % 2 ^ (pb + nb) = b % 2 ^ (pb + nb) := by
  rw [mod_pow_add, mod_pow_add, h, h2]

/-! ## One pass extends the sorted key by its window -/

theorem pass_core (W R T nb : Nat) (desc : rock_desc_t) (pre post : List Nat)
    (dm δ nbits : Nat) (first : Bool) (x cur : List Nat) (σ : Nat → Nat)
    (perm : Option (List Nat)) (indx_alt0 perm_alt0 : List Nat)
    (hT : 1 ≤ T) (hw : T * nb < 2 ^ W) (hRnb : 2 ^ R ≤ nb) (hnR : nbits ≤ R)
    (hδ : δ + nbits ≤ desc.bit_width.getD dm 0)
    (hfit : desc.bit_width.getD dm 0 + desc.bit_offset.getD dm 0 ≤ W)
    (hinv : sorted_inv
      (fun w => sort_key desc (pre ++ dm :: post) w % 2 ^ (dims_bits desc post + δ)) x cur σ)
    (hal : indx_alt0.length = x.length)
    (hperm : ∀ q, perm = some q → q.length = x.length ∧ perm_alt0.length = x.length ∧
      (first = false → ∀ i, i < x.length → q.getD i 0 = σ i))
    (hfirst : first = true → ∀ i, i < x.length → σ i = i) :
    (hist_phase W T nb (sort_mask W nbits (desc.bit_offset.getD dm 0 + δ))
        (desc.bit_offset.getD dm 0 + δ) first cur (List.replicate (T * nb) 0, perm)).2 =
      (if first then perm.map (fun p => perm_identity_upto p cur.length) else perm) ∧
    (move_phase W T nb (sort_mask W nbits (desc.bit_offset.getD dm 0 + δ))
      (desc.bit_offset.getD dm 0 + δ) cur
      (hist_phase W T nb (sort_mask W nbits (desc.bit_offset.getD dm 0 + δ))
        (desc.bit_offset.getD dm 0 + δ) first cur (List.replicate (T * nb) 0, perm)).2
      ⟨prefix_phase W T nb
        (hist_phase W T nb (sort_mask W nbits (desc.bit_offset.getD dm 0 + δ))
          (desc.bit_offset.getD dm 0 + δ) first cur (List.replicate (T * nb) 0, perm)).1,
        indx_alt0, perm_alt0⟩).bins.length = T * nb ∧
    (move_phase W T nb (sort_mask W nbits (desc.bit_offset.getD dm 0 + δ))
      (desc.bit_offset.getD dm 0 + δ) cur
      (hist_phase W T nb (sort_mask W nbits (desc.bit_offset.getD dm 0 + δ))
        (desc.bit_offset.getD dm 0 + δ) first cur (List.replicate (T * nb) 0, perm)).2
      ⟨prefix_phase W T nb
        (hist_phase W T nb (sort_mask W nbits (desc.bit_offset.getD dm 0 + δ))
          (desc.bit_offset.getD dm 0 + δ) first cur (List.replicate (T * nb) 0, perm)).1,
        indx_alt0, perm_alt0⟩).perm_alt.length = perm_alt0.length ∧
    ∃ σ', sorted_inv
        (fun w => sort_key desc (pre ++ dm :: post) w % 2 ^ (dims_bits desc post + δ + nbits))
        x
        (move_phase W T nb (sort_mask W nbits (desc.bit_offset.getD dm 0 + δ))
          (desc.bit_offset.getD dm 0 + δ) cur
          (hist_phase W T nb (sort_mask W nbits (desc.bit_offset.getD dm 0 + δ))
            (desc.bit_offset.getD dm 0 + δ) first cur (List.replicate (T * nb) 0, perm)).2
          ⟨prefix_phase W T nb
            (hist_phase W T nb (sort_mask W nbits (desc.bit_offset.getD dm 0 + δ))
              (desc.bit_offset.getD dm 0 + δ) first cur (List.replicate (T * nb) 0, perm)).1,
            indx_alt0, perm_alt0⟩).indx_alt σ' ∧
      (∀ q, perm = some q → ∀ i, i < x.length →
        (move_phase W T nb (sort_mask W nbits (desc.bit_offset.getD dm 0 + δ))
          (desc.bit_offset.getD dm 0 + δ) cur
          (hist_phase W T nb (sort_mask W nbits (desc.bit_offset.getD dm 0 + δ))
            (desc.bit_offset.getD dm 0 + δ) first cur (List.replicate (T * nb) 0, perm)).2
          ⟨prefix_phase W T nb
            (hist_phase W T nb (sort_mask W nbits (desc.bit_offset.getD dm 0 + δ))
              (desc.bit_offset.getD dm 0 + δ) first cur (List.replicate (T * nb) 0, perm)).1,
            indx_alt0, perm_alt0⟩).perm_alt.getD i 0 = σ' i) := by
  have hcl : cur.length = x.length := hinv.1
  have hmask : sort_mask W nbits (desc.bit_offset.getD dm 0 + δ) =
      (2 ^ nbits - 1) * 2 ^ (desc.bit_offset.getD dm 0 + δ) :=
    sort_mask_eq W nbits _ (by omega)
  have hdig : ∀ w, sort_digit (sort_mask W nbits (desc.bit_offset.getD dm 0 + δ))
      (desc.bit_offset.getD dm 0 + δ) w =
      (sort_key desc (pre ++ dm :: post) w / 2 ^ (dims_bits desc post + δ)) % 2 ^ nbits := by
    intro w
    rw [hmask, digit_field, key_window desc pre post dm δ nbits w hδ]
  have hd : ∀ s, s < cur.length →
      sort_digit (sort_mask W nbits (desc.bit_offset.getD dm 0 + δ))
        (desc.bit_offset.getD dm 0 + δ) (cur.getD s 0) < nb := by
    intro s _
    rw [hdig]
    have h1 : (sort_key desc (pre ++ dm :: post) (cur.getD s 0) /
        2 ^ (dims_bits desc post + δ)) % 2 ^ nbits < 2 ^ nbits :=
      Nat.mod_lt _ (Nat.two_pow_pos _)
    have h2 : 2 ^ nbits ≤ 2 ^ R := Nat.pow_le_pow_right (by norm_num) hnR
    omega
  obtain ⟨hh, hm⟩ := pass_phases_spec W T nb (sort_mask W nbits (desc.bit_offset.getD dm 0 + δ))
    (desc.bit_offset.getD dm 0 + δ) first cur perm indx_alt0 perm_alt0 hT hw hd
    (by rw [hal, hcl])
    (by
      intro hs
      cases perm with
      | none => simp at hs
      | some q => rw [hcl]; exact (hperm q rfl).2.1)
  obtain ⟨m1, _, m3, m4, m5, m6⟩ := hm
  refine ⟨hh, m1, m5, ?_⟩
  obtain ⟨σ', hs1, hs2⟩ := sorted_inv_pass
    (fun w => sort_key desc (pre ++ dm :: post) w % 2 ^ (dims_bits desc post + δ))
    (fun w => sort_key desc (pre ++ dm :: post) w % 2 ^ (dims_bits desc post + δ + nbits))
    (sort_digit (sort_mask W nbits (desc.bit_offset.getD dm 0 + δ))
      (desc.bit_offset.getD dm 0 + δ)) x cur _ σ hinv m3 m4
    (by intro a b h; rw [hdig, hdig] at h; exact key_step_lt _ _ _ _ h)
    (by intro a b h h2; rw [hdig, hdig] at h; exact key_step_eq_lt _ _ _ _ h h2)
    (by intro a b h h2; rw [hdig, hdig] at h; exact key_step_eq _ _ _ _ h h2)
  refine ⟨σ', hs1, ?_⟩
  intro q hq i hi
  subst hq
  obtain ⟨u, hu, hpu⟩ := dest_pos_surj (sort_digit (sort_mask W nbits
    (desc.bit_offset.getD dm 0 + δ)) (desc.bit_offset.getD dm 0 + δ)) cur i (by omega)
  have hp := hperm q rfl
  rw [← hpu, hs2 u hu]
  cases first with
  | true =>
    simp only [if_true, Option.map_some'] at m6
    rw [m6 u hu, (perm_identity_upto_spec q cur.length).2, if_pos ⟨hu, by omega⟩,
      hfirst rfl u (by omega)]
  | false =>
    simp only [Bool.false_eq_true, if_false] at m6
    rw [m6 u hu, hp.2.2 rfl u (by omega)]

/-! ## The pass schedule -/

theorem dims_split (dims : List Nat) (m : Nat) (h : m < dims.length) :
    dims = dims.take m ++ dims.getD m 0 :: dims.drop (m + 1) := by
  have h1 : dims.getD m 0 = dims[m] := by
    simp [List.getD_eq_getElem?_getD, List.getElem?_eq_getElem h]
  rw [h1, ← List.drop_eq_getElem_cons h, List.take_append_drop]

theorem dims_bits_drop (desc : rock_desc_t) (dims : List Nat) (m : Nat) (h : m < dims.length) :
    dims_bits desc (dims.drop m) =
      desc.bit_width.getD (dims.getD m 0) 0 + dims_bits desc (dims.drop (m + 1)) := by
  have h1 : dims.getD m 0 = dims[m] := by
    simp [List.getD_eq_getElem?_getD, List.getElem?_eq_getElem h]
  rw [h1, List.drop_eq_getElem_cons h, dims_bits_cons]

theorem dims_bits_drop_le (desc : rock_desc_t) (dims : List Nat) (m : Nat) :
    dims_bits desc (dims.drop m) ≤ dims_bits desc dims := by
  have := dims_bits_append desc (dims.take m) (dims.drop m)
  rw [List.take_append_drop] at this
  omega

theorem dims_bits_drop_zero_lt (desc : rock_desc_t) (dims : List Nat) (m : Nat)
    (h : dims_bits desc (dims.drop m) < dims_bits desc dims) : 0 < m := by
  rcases Nat.eq_zero_or_pos m with h0 | h0
  · subst h0; simp at h
  · exact h0

theorem sort_total_bits_eq (desc : rock_desc_t) (dims : List Nat) :
    sort_total_bits desc dims.length dims = dims_bits desc dims := by
  unfold sort_total_bits dims_bits
  have : ∀ n, n ≤ dims.length →
      (List.range n).foldl (fun acc i => acc + desc.bit_width.getD (dims.getD i 0) 0) 0 =
        ((dims.take n).map (fun dm => desc.bit_width.getD dm 0)).sum := by
    intro n
    induction n with
    | zero => intro _; simp
    | succ n ih =>
      intro hn
      rw [List.range_succ, List.foldl_append, ih (by omega)]
      simp only [List.foldl_cons, List.foldl_nil]
      rw [List.take_succ, List.map_append, List.sum_append]
      simp [List.getD_eq_getElem?_getD, List.getElem?_eq_getElem (show n < dims.length by omega)]
  rw [this dims.length (Nat.le_refl _), List.take_length]

theorem pass_phases_core (W R T nb : Nat) (desc : rock_desc_t) (dims pre post : List Nat)
    (dm δ nbits offset pb : Nat) (first : Bool) (x cur bins : List Nat) (σ : Nat → Nat)
    (perm : Option (List Nat)) (indx_alt0 perm_alt0 : List Nat)
    (hT : 1 ≤ T) (hw : T * nb < 2 ^ W) (hRnb : 2 ^ R ≤ nb) (hnR : nbits ≤ R)
    (hδ : δ + nbits ≤ desc.bit_width.getD dm 0)
    (hfit : desc.bit_width.getD dm 0 + desc.bit_offset.getD dm 0 ≤ W)
    (hdims : dims = pre ++ dm :: post) (hoff : offset = desc.bit_offset.getD dm 0 + δ)
    (hpb : pb = dims_bits desc post + δ) (hbins : bins = List.replicate (T * nb) 0)
    (hinv : sorted_inv (fun w => sort_key desc dims w % 2 ^ pb) x cur σ)
    (hal : indx_alt0.length = x.length)
    (hperm : ∀ q, perm = some q → q.length = x.length ∧ perm_alt0.length = x.length ∧
      (first = false → ∀ i, i < x.length → q.getD i 0 = σ i))
    (hfirst : first = true → ∀ i, i < x.length → σ i = i) :
    (pass_phases W T nb (sort_mask W nbits offset) offset first cur perm bins
        indx_alt0 perm_alt0).2 =
      (if first then perm.map (fun p => perm_identity_upto p cur.length) else perm) ∧
    (pass_phases W T nb (sort_mask W nbits offset) offset first cur perm bins
        indx_alt0 perm_alt0).1.bins.length = T * nb ∧
    (pass_phases W T nb (sort_mask W nbits offset) offset first cur perm bins
        indx_alt0 perm_alt0).1.perm_alt.length = perm_alt0.length ∧
    ∃ σ', sorted_inv (fun w => sort_key desc dims w % 2 ^ (pb + nbits)) x
        (pass_phases W T nb (sort_mask W nbits offset) offset first cur perm bins
          indx_alt0 perm_alt0).1.indx_alt σ' ∧
      (∀ q, perm = some q → ∀ i, i < x.length →
        (pass_phases W T nb (sort_mask W nbits offset) offset first cur perm bins
          indx_alt0 perm_alt0).1.perm_alt.getD i 0 = σ' i) := by
  subst hdims hoff hpb hbins
  exact pass_core W R T nb desc pre post dm δ nbits first x cur σ perm indx_alt0 perm_alt0
    hT hw hRnb hnR hδ hfit hinv hal hperm hfirst

theorem pass_state_inv (W R T nb : Nat) (desc : rock_desc_t) (dims x : List Nat)
    (track first fl : Bool) (m δ nbits offset0 doff dbits dn dim np pb : Nat)
    (cur dst bins perm_alt : List Nat) (perm : Option (List Nat)) (σ : Nat → Nat)
    (hT : 1 ≤ T) (hw : T * nb < 2 ^ W) (hRnb : 2 ^ R ≤ nb)
    (hfld : ∀ i, i < dims.length →
      desc.bit_width.getD (dims.getD i 0) 0 + desc.bit_offset.getD (dims.getD i 0) 0 ≤ W)
    (hm : m < dims.length)
    (hdoff : doff = desc.bit_offset.getD (dims.getD m 0) 0)
    (hdbits : dbits = desc.bit_width.getD (dims.getD m 0) 0)
    (hoff : offset0 = doff + δ) (hδ : δ + nbits ≤ dbits) (hnR : nbits ≤ R)
    (hnb : nbits = R ∨ δ + nbits = dbits)
    (hpb : pb = dims_bits desc (dims.drop (m + 1)) + δ)
    (hbins : bins = List.replicate (T * nb) 0)
    (hfl : fl = ((np + 1) % 2 == 0)) (hdn : dn = m - 1)
    (hinv : sorted_inv (fun w => sort_key desc dims w % 2 ^ pb) x cur σ)
    (hal : dst.length = x.length)
    (hperm : if track then ∃ q, perm = some q ∧ q.length = x.length ∧
        perm_alt.length = x.length ∧ (first = false → ∀ i, i < x.length → q.getD i 0 = σ i)
      else perm = none)
    (hfirst : first = true → ∀ i, i < x.length → σ i = i) :
    loop_inv R T nb desc dims x track m
      { indx := cur
        indx_alt := (pass_phases W T nb (sort_mask W nbits offset0) offset0 first cur perm bins
          dst perm_alt).1.indx_alt
        perm := (pass_phases W T nb (sort_mask W nbits offset0) offset0 first cur perm bins
          dst perm_alt).2
        perm_alt := (pass_phases W T nb (sort_mask W nbits offset0) offset0 first cur perm bins
          dst perm_alt).1.perm_alt
        bins := List.replicate (pass_phases W T nb (sort_mask W nbits offset0) offset0 first cur
          perm bins dst perm_alt).1.bins.length 0
        flipped := fl
        dim_num := dn
        dim := dim
        offset := offset0 + nbits
        dim_offset := doff
        dim_bits := dbits
        num_bits := nbits
        first_pass := false
        processed_bits := pb + nbits
        num_passes := np + 1 } := by
  have hcl : cur.length = x.length := hinv.1
  obtain ⟨c1, c2, c3, σ', c4, c5⟩ := pass_phases_core W R T nb desc dims (dims.take m)
    (dims.drop (m + 1)) (dims.getD m 0) δ nbits offset0 pb first x cur bins σ perm dst perm_alt
    hT hw hRnb hnR (by omega) (hfld m hm) (dims_split dims m hm) (by omega) hpb hbins hinv hal
    (by
      intro q hq
      cases track with
      | true =>
        simp only [if_true] at hperm
        obtain ⟨q', hq', h1, h2, h3⟩ := hperm
        rw [hq] at hq'
        cases hq'
        exact ⟨h1, h2, h3⟩
      | false =>
        simp only [Bool.false_eq_true, if_false] at hperm
        rw [hperm] at hq
        cases hq)
    hfirst
  refine ⟨rfl, by simp, hfl, by simp only [c2], hcl, ?_, hm, hdn, hdoff, hdbits, ?_, ?_, ?_,
    σ', c4, ?_⟩
  · intro hne
    rcases hnb with h | h
    · exact h
    · exfalso; apply hne; simp only; omega
  · simp only; omega
  · simp only; omega
  · simp only; omega
  · cases track with
    | true =>
      simp only [if_true] at hperm ⊢
      obtain ⟨q, hq, h1, h2, h3⟩ := hperm
      refine ⟨?_, ?_, ?_⟩
      · rw [c1, hq]
        cases first with
        | true =>
          exact ⟨_, rfl, by rw [(perm_identity_upto_spec q cur.length).1]; exact h1⟩
        | false => exact ⟨q, rfl, h1⟩
      · rw [c3]; exact h2
      · exact c5 q hq
    | false =>
      simp only [Bool.false_eq_true, if_false] at hperm ⊢
      rw [c1, hperm]
      cases first <;> rfl

theorem sort_pass_next (W R T nb : Nat) (desc : rock_desc_t) (dims x : List Nat)
    (track : Bool) (m : Nat) (st : sort_state)
    (hT : 1 ≤ T) (hw : T * nb < 2 ^ W) (hRnb : 2 ^ R ≤ nb) (hR : 1 ≤ R)
    (hfld : ∀ i, i < dims.length →
      desc.bit_width.getD (dims.getD i 0) 0 + desc.bit_offset.getD (dims.getD i 0) 0 ≤ W)
    (hinv : loop_inv R T nb desc dims x track m st)
    (hlt : st.processed_bits < dims_bits desc dims) :
    ∃ m', loop_inv R T nb desc dims x track m' (sort_pass W R T nb desc dims st) ∧
      (dims_bits desc dims - (sort_pass W R T nb desc dims st).processed_bits) + m' <
        (dims_bits desc dims - st.processed_bits) + m ∧
      (sort_pass W R T nb desc dims st).num_passes = st.num_passes + 1 := by
  obtain ⟨hfp, hnp, hfl, hbins, hil, hnb, hm, hdn, hdo, hdb, hlo, hhi, hpb, σ, hs, hperm⟩ := hinv
  have hpermq : if track then ∃ q, Option.map (fun _ => st.perm_alt) st.perm = some q ∧
      q.length = x.length ∧ (st.perm.getD st.perm_alt).length = x.length ∧
      (false = false → ∀ i, i < x.length → q.getD i 0 = σ i)
      else Option.map (fun _ => st.perm_alt) st.perm = none := by
    cases track with
    | true =>
      simp only [if_true] at hperm ⊢
      obtain ⟨⟨q, hq, hql⟩, h2, h3⟩ := hperm
      exact ⟨st.perm_alt, by rw [hq]; rfl, h2, by rw [hq]; exact hql, fun _ => h3⟩
    | false =>
      simp only [Bool.false_eq_true, if_false] at hperm ⊢
      rw [hperm]; rfl
  have hflip : (!st.flipped) = ((st.num_passes + 1) % 2 == 0) := by
    rw [hfl]
    rcases Nat.mod_two_eq_zero_or_one st.num_passes with h | h
    · have : (st.num_passes + 1) % 2 = 1 := by omega
      simp [h, this]
    · have : (st.num_passes + 1) % 2 = 0 := by omega
      simp [h, this]
  by_cases hupd : st.offset = st.dim_offset + st.dim_bits
  · have hb : (st.offset == st.dim_offset + st.dim_bits) = true := by simp [hupd]
    have hpbm : st.processed_bits = dims_bits desc (dims.drop m) := by
      rw [hpb, dims_bits_drop desc dims m hm, ← hdb]; omega
    have hmpos : 0 < m := dims_bits_drop_zero_lt desc dims m (by omega)
    simp only [sort_pass, hfp, hb, Bool.false_or, if_true, Bool.false_eq_true, if_false, hdn]
    refine ⟨m - 1, pass_state_inv W R T nb desc dims x track false _ (m - 1) 0 _ _ _ _ _ _ _ _
      st.indx_alt st.indx st.bins _ _ σ hT hw hRnb hfld (by omega) rfl rfl rfl ?_ ?_ ?_ ?_
      hbins hflip rfl hs hil hpermq (by intro h; cases h), ?_, trivial⟩
    · split <;> omega
    · split <;> omega
    · split
      · right; omega
      · left; rfl
    · rw [hpbm, show m - 1 + 1 = m by omega]; rfl
    · have : R > 0 := hR
      split <;> omega
  · have hb : (st.offset == st.dim_offset + st.dim_bits) = false := by simp [hupd]
    have hnbR := hnb hupd
    simp only [sort_pass, hfp, hb, Bool.false_or, if_true, Bool.false_eq_true, if_false, hnbR]
    refine ⟨m, pass_state_inv W R T nb desc dims x track false _ m (st.offset - st.dim_offset)
      _ _ _ _ _ _ _ _ st.indx_alt st.indx st.bins _ _ σ hT hw hRnb hfld hm hdo hdb (by omega)
      ?_ ?_ ?_ hpb hbins hflip hdn hs hil hpermq (by intro h; cases h), ?_, trivial⟩
    · split <;> omega
    · split <;> omega
    · split
      · right; omega
      · left; rfl
    · split <;> omega

theorem sort_pass_first (W R T nb : Nat) (desc : rock_desc_t) (dims x : List Nat)
    (perm : Option (List Nat)) (indx_alt0 perm_alt0 : List Nat) (dim0 : Nat)
    (hT : 1 ≤ T) (hw : T * nb < 2 ^ W) (hRnb : 2 ^ R ≤ nb) (hR : 1 ≤ R)
    (hfld : ∀ i, i < dims.length →
      desc.bit_width.getD (dims.getD i 0) 0 + desc.bit_offset.getD (dims.getD i 0) 0 ≤ W)
    (hne : 0 < dims.length) (hal : indx_alt0.length = x.length)
    (hperm : ∀ p, perm = some p → p.length = x.length ∧ perm_alt0.length = x.length) :
    loop_inv R T nb desc dims x perm.isSome (dims.length - 1)
      (sort_pass W R T nb desc dims
        { indx := x, indx_alt := indx_alt0, perm := perm, perm_alt := perm_alt0
          bins := List.replicate (T * nb) 0, flipped := false, dim_num := dims.length - 1
          dim := dim0, offset := 0, dim_offset := 0, dim_bits := 0, num_bits := 0
          first_pass := true, processed_bits := 0, num_passes := 0 }) ∧
    (sort_pass W R T nb desc dims
        { indx := x, indx_alt := indx_alt0, perm := perm, perm_alt := perm_alt0
          bins := List.replicate (T * nb) 0, flipped := false, dim_num := dims.length - 1
          dim := dim0, offset := 0, dim_offset := 0, dim_bits := 0, num_bits := 0
          first_pass := true, processed_bits := 0, num_passes := 0 }).processed_bits ≤
      dims_bits desc dims := by
  simp only [sort_pass, Bool.true_or, if_true]
  have hpermq : if perm.isSome then ∃ q, perm = some q ∧ q.length = x.length ∧
      perm_alt0.length = x.length ∧ (true = false → ∀ i, i < x.length → q.getD i 0 = i)
      else perm = none := by
    cases perm with
    | none => simp
    | some p =>
      simp only [Option.isSome_some, if_true]
      exact ⟨p, rfl, (hperm p rfl).1, (hperm p rfl).2, fun h => by cases h⟩
  have hdrop : dims_bits desc (dims.drop (dims.length - 1 + 1)) = 0 := by
    rw [show dims.length - 1 + 1 = dims.length by omega, List.drop_length]
    rfl
  have hinv0 : sorted_inv (fun w => sort_key desc dims w % 2 ^ 0) x x (fun i => i) := by
    have h := sorted_inv_init x
    refine ⟨h.1, h.2.1, ?_⟩
    intro i j hij hj
    right
    exact ⟨by simp [Nat.mod_one], hij⟩
  constructor
  · have key := pass_state_inv W R T nb desc dims x perm.isSome true false (dims.length - 1) 0
      (if desc.bit_offset.getD (dims.getD (dims.length - 1) 0) 0 + R >
          desc.bit_offset.getD (dims.getD (dims.length - 1) 0) 0 +
            desc.bit_width.getD (dims.getD (dims.length - 1) 0) 0 then
        desc.bit_offset.getD (dims.getD (dims.length - 1) 0) 0 +
          desc.bit_width.getD (dims.getD (dims.length - 1) 0) 0 -
          desc.bit_offset.getD (dims.getD (dims.length - 1) 0) 0
        else R)
      (desc.bit_offset.getD (dims.getD (dims.length - 1) 0) 0)
      (desc.bit_offset.getD (dims.getD (dims.length - 1) 0) 0)
      (desc.bit_width.getD (dims.getD (dims.length - 1) 0) 0)
      (dims.length - 1 - 1) (dims.getD (dims.length - 1) 0) 0 0
      x indx_alt0 (List.replicate (T * nb) 0) perm_alt0 perm (fun i => i) hT hw hRnb hfld
      (by omega) rfl rfl rfl (by split <;> omega) (by split <;> omega)
      (by
        split
        · right; omega
        · left; rfl)
      (by rw [hdrop]) rfl (by simp) rfl hinv0 hal hpermq (fun _ i _ => rfl)
    simpa using key
  · have h1 := dims_bits_drop desc dims (dims.length - 1) (by omega)
    have h2 := dims_bits_drop_le desc dims (dims.length - 1)
    simp only [Nat.zero_add]
    split <;> omega

theorem loop_inv_processed_le (R T nb : Nat) (desc : rock_desc_t) (dims x : List Nat)
    (track : Bool) (m : Nat) (st : sort_state) (h : loop_inv R T nb desc dims x track m st) :
    st.processed_bits ≤ dims_bits desc dims := by
  obtain ⟨_, _, _, _, _, _, hm, _, hdo, hdb, hlo, hhi, hpb, _⟩ := h
  have h1 := dims_bits_drop desc dims m hm
  have h2 := dims_bits_drop_le desc dims m
  omega

theorem sort_loop_finishes (W R T nb : Nat) (desc : rock_desc_t) (dims x : List Nat)
    (track : Bool)
    (hT : 1 ≤ T) (hw : T * nb < 2 ^ W) (hRnb : 2 ^ R ≤ nb) (hR : 1 ≤ R)
    (hfld : ∀ i, i < dims.length →
      desc.bit_width.getD (dims.getD i 0) 0 + desc.bit_offset.getD (dims.getD i 0) 0 ≤ W) :
    ∀ fuel m st, loop_inv R T nb desc dims x track m st →
      (dims_bits desc dims - st.processed_bits) + m ≤ fuel →
      ∃ st' m', sort_loop W R T nb desc dims (dims_bits desc dims) fuel st = some st' ∧
        loop_inv R T nb desc dims x track m' st' ∧
        st'.processed_bits = dims_bits desc dims := by
  intro fuel
  induction fuel with
  | zero =>
    intro m st hinv hfuel
    have hle := loop_inv_processed_le R T nb desc dims x track m st hinv
    refine ⟨st, m, ?_, hinv, by omega⟩
    simp only [sort_loop]
    rw [if_neg (by omega)]
  | succ f ih =>
    intro m st hinv hfuel
    have hle := loop_inv_processed_le R T nb desc dims x track m st hinv
    by_cases hlt : st.processed_bits < dims_bits desc dims
    · obtain ⟨m', hinv', hdec, _⟩ :=
        sort_pass_next W R T nb desc dims x track m st hT hw hRnb hR hfld hinv hlt
      obtain ⟨st', m'', h1, h2, h3⟩ := ih m' _ hinv' (by omega)
      refine ⟨st', m'', ?_, h2, h3⟩
      simp only [sort_loop]
      rw [if_pos hlt]
      exact h1
    · refine ⟨st, m, ?_, hinv, by omega⟩
      simp only [sort_loop]
      rw [if_neg hlt]

/-! ## The whole sort -/

theorem sort_loop_more_fuel (W R T nb : Nat) (desc : rock_desc_t) (dims : List Nat)
    (total : Nat) : ∀ fuel st st',
    sort_loop W R T nb desc dims total fuel st = some st' →
    ∀ k, sort_loop W R T nb desc dims total (fuel + k) st = some st' := by
  intro fuel
  induction fuel with
  | zero =>
    intro st st' h k
    simp only [sort_loop] at h
    by_cases hlt : st.processed_bits < total
    · rw [if_pos hlt] at h; cases h
    · rw [if_neg hlt] at h
      cases k with
      | zero => simp only [sort_loop, Nat.add_zero]; rw [if_neg hlt]; exact h
      | succ k =>
        rw [Nat.zero_add]; simp only [sort_loop]; rw [if_neg hlt]; exact h
  | succ f ih =>
    intro st st' h k
    rw [show f + 1 + k = (f + k) + 1 by omega]
    simp only [sort_loop] at h ⊢
    by_cases hlt : st.processed_bits < total
    · rw [if_pos hlt] at h ⊢
      exact ih _ _ h k
    · rw [if_neg hlt] at h ⊢
      exact h

theorem num_bins_eq (W R T : Nat) (hT : 1 ≤ T) (hcfg : T * 2 ^ R < 2 ^ W) :
    sort_num_bins W R = 2 ^ R ∧ sort_bins_len W R T = T * 2 ^ R := by
  have h1 : 2 ^ R < 2 ^ W := by
    have : 2 ^ R ≤ T * 2 ^ R := Nat.le_mul_of_pos_left _ hT
    omega
  have hRW : R < W := (Nat.pow_lt_pow_iff_right (by norm_num)).mp h1
  have hnb : sort_num_bins W R = 2 ^ R := by
    unfold sort_num_bins ROCK_MAX_SHIFT shl
    rw [if_neg (by omega), Nat.one_mul, Nat.mod_eq_of_lt h1]
  refine ⟨hnb, ?_⟩
  unfold sort_bins_len
  rw [hnb, Nat.mod_eq_of_lt hcfg]

/-- With a key of no bits the loop of `indx_sort_thread` does not run. -/
theorem indx_sort_thread_zero (W R T nb fuel : Nat) (desc : rock_desc_t) (dims : List Nat)
    (perm : Option (List Nat)) (perm_alt0 x indx_alt0 bins : List Nat)
    (h0 : dims_bits desc dims = 0) :
    indx_sort_thread W R T nb fuel desc dims.length dims perm perm_alt0 x indx_alt0 bins =
      some (sort_init dims.length dims perm perm_alt0 x indx_alt0 bins) := by
  unfold indx_sort_thread
  rw [sort_total_bits_eq, h0]
  cases fuel <;> simp [sort_loop, sort_init]

theorem indx_sort_thread_pos (W R T nb : Nat) (desc : rock_desc_t) (dims x : List Nat)
    (perm : Option (List Nat)) (indx_alt0 perm_alt0 : List Nat)
    (hT : 1 ≤ T) (hw : T * nb < 2 ^ W) (hRnb : 2 ^ R ≤ nb) (hR : 1 ≤ R)
    (hfld : ∀ i, i < dims.length →
      desc.bit_width.getD (dims.getD i 0) 0 + desc.bit_offset.getD (dims.getD i 0) 0 ≤ W)
    (hal : indx_alt0.length = x.length)
    (hperm : ∀ p, perm = some p → p.length = x.length ∧ perm_alt0.length = x.length)
    (hpos : 0 < dims_bits desc dims) :
    ∃ st m, (∀ fuel, dims_bits desc dims + dims.length ≤ fuel →
        indx_sort_thread W R T nb fuel desc dims.length dims perm perm_alt0 x indx_alt0
          (List.replicate (T * nb) 0) = some st) ∧
      loop_inv R T nb desc dims x perm.isSome m st ∧
      st.processed_bits = dims_bits desc dims := by
  have hne : 0 < dims.length := by
    rcases Nat.eq_zero_or_pos dims.length with h | h
    · have : dims = [] := List.eq_nil_of_length_eq_zero h
      subst this; simp [dims_bits] at hpos
    · exact h
  obtain ⟨h1, h2⟩ := sort_pass_first W R T nb desc dims x perm indx_alt0 perm_alt0
    (dims.getD (dims.length - 1) 0) hT hw hRnb hR hfld hne hal hperm
  obtain ⟨st', m', h3, h4, h5⟩ := sort_loop_finishes W R T nb desc dims x perm.isSome hT hw hRnb
    hR hfld (dims_bits desc dims + dims.length - 1) (dims.length - 1) _ h1 (by omega)
  refine ⟨st', m', ?_, h4, h5⟩
  intro fuel hfuel
  unfold indx_sort_thread sort_init
  rw [sort_total_bits_eq]
  obtain ⟨k, hk⟩ : ∃ k, fuel = (dims_bits desc dims + dims.length - 1 + k) + 1 :=
    ⟨fuel - (dims_bits desc dims + dims.length), by omega⟩
  rw [hk]
  simp only [sort_loop]
  rw [if_pos hpos]
  exact sort_loop_more_fuel W R T nb desc dims _ _ _ _ h3 k

theorem loop_inv_post (R T nb : Nat) (desc : rock_desc_t) (dims x : List Nat)
    (perm : Option (List Nat)) (m : Nat) (st : sort_state)
    (hinv : loop_inv R T nb desc dims x perm.isSome m st)
    (hdone : st.processed_bits = dims_bits desc dims) (hpos : 0 < dims_bits desc dims) :
    sort_post desc dims x perm st.indx_alt (perm.map (fun _ => st.perm_alt)) ∧
    st.flipped = (st.num_passes % 2 == 0) := by
  obtain ⟨_, _, hfl, _, _, _, _, _, _, _, _, _, _, σ, hs, hp⟩ := hinv
  refine ⟨?_, hfl⟩
  unfold sort_post
  rw [if_neg (by omega)]
  have hK : (fun w => sort_key desc dims w % 2 ^ st.processed_bits) = sort_key desc dims := by
    funext w
    rw [hdone]
    exact Nat.mod_eq_of_lt (sort_key_lt desc dims w)
  rw [hK] at hs
  refine ⟨σ, hs, ?_⟩
  cases perm with
  | none => rfl
  | some p =>
    simp only [Option.isSome_some, if_true] at hp
    exact ⟨st.perm_alt, rfl, hp.2.1, hp.2.2⟩

/-- The simple calling convention: the result is in the caller's `indx` and `perm`. -/
theorem rock_indx_sort_post (W R T : Nat) (desc : rock_desc_t) (dims x : List Nat)
    (perm : Option (List Nat))
    (hT : 1 ≤ T) (hR : 1 ≤ R) (hcfg : T * 2 ^ R < 2 ^ W)
    (hfld : ∀ i, i < dims.length →
      desc.bit_width.getD (dims.getD i 0) 0 + desc.bit_offset.getD (dims.getD i 0) 0 ≤ W)
    (hperm : ∀ p, perm = some p → p.length = x.length) :
    ∃ r, (∀ fuel, dims_bits desc dims + dims.length ≤ fuel →
        rock_indx_sort W R T fuel desc dims.length dims perm x = some r) ∧
      sort_post desc dims x perm r.indx r.perm ∧ r.indx_alt = none ∧ r.perm_alt = none ∧
      r.swapped = false := by
  obtain ⟨hnb, hbl⟩ := num_bins_eq W R T hT hcfg
  unfold rock_indx_sort rock_indx_sort_alt indx_sort
  simp only [hnb, hbl]
  rcases Nat.eq_zero_or_pos (dims_bits desc dims) with h0 | hpos
  · obtain ⟨st0, hst0⟩ : ∃ st0, st0 = sort_init dims.length dims perm
        (sort_perm_alt perm none)
        x (Option.getD none (rock_indx_init x.length)) (List.replicate (T * 2 ^ R) 0) :=
      ⟨_, rfl⟩
    refine ⟨sort_cleanup perm none false false st0, fun fuel _ => ?_, ?_, ?_, ?_, ?_⟩
    · rw [indx_sort_thread_zero W R T (2 ^ R) fuel desc dims perm _ x _ _ h0, hst0]
      rfl
    · unfold sort_post
      rw [if_pos h0, hst0]
      cases perm <;> simp [sort_cleanup, sort_init]
    · rfl
    · cases perm <;> rfl
    · rfl
  · obtain ⟨st, m, h1, h2, h3⟩ := indx_sort_thread_pos W R T (2 ^ R) desc dims x perm
      (Option.getD none (rock_indx_init x.length))
      (sort_perm_alt perm none)
      hT hcfg (Nat.le_refl _) hR hfld (by simp [rock_indx_init])
      (by
        intro p hp
        subst hp
        exact ⟨hperm p rfl, by simp [sort_perm_alt, rock_perm_init, hperm p rfl]⟩)
      hpos
    obtain ⟨hpost, hfl⟩ := loop_inv_post R T (2 ^ R) desc dims x perm m st h2 h3 hpos
    refine ⟨sort_cleanup perm none false false st, fun fuel hf => ?_, ?_, ?_, ?_, ?_⟩
    · rw [h1 fuel hf]
      rfl
    · simp only [sort_cleanup, hfl]
      rcases Nat.mod_two_eq_zero_or_one st.num_passes with h | h
      · cases perm <;> simpa [h] using hpost
      · cases perm <;> simpa [h] using hpost
    · rfl
    · cases perm <;> rfl
    · rfl

/-! ## The stable order is unique -/

theorem sorted_inv_strict (K : Nat → Nat) (x cur : List Nat) (σ : Nat → Nat)
    (h : sorted_inv K x cur σ) (i j : Nat) (hij : i < j) (hj : j < x.length) :
    K (x.getD (σ i) 0) < K (x.getD (σ j) 0) ∨
      (K (x.getD (σ i) 0) = K (x.getD (σ j) 0) ∧ σ i < σ j) := by
  have := h.2.2 i j hij hj
  rw [(h.2.1 i (by omega)).2, (h.2.1 j hj).2] at this
  exact this

theorem sorted_inv_inj (K : Nat → Nat) (x cur : List Nat) (σ : Nat → Nat)
    (h : sorted_inv K x cur σ) (i j : Nat) (hi : i < x.length) (hj : j < x.length)
    (he : σ i = σ j) : i = j := by
  rcases Nat.lt_trichotomy i j with h1 | h1 | h1
  · have := sorted_inv_strict K x cur σ h i j h1 hj
    rw [he] at this; omega
  · exact h1
  · have := sorted_inv_strict K x cur σ h j i h1 hi
    rw [he] at this; omega

theorem sorted_inv_surj (K : Nat → Nat) (x cur : List Nat) (σ : Nat → Nat)
    (h : sorted_inv K x cur σ) (a : Nat) (ha : a < x.length) :
    ∃ j, j < x.length ∧ σ j = a := by
  let f : Fin x.length → Fin x.length := fun u => ⟨σ u.1, (h.2.1 u.1 u.2).1⟩
  have hinj : Function.Injective f := by
    intro u v huv
    apply Fin.ext
    exact sorted_inv_inj K x cur σ h u.1 v.1 u.2 v.2 (by simpa [f] using congrArg Fin.val huv)
  obtain ⟨u, hu⟩ := (Finite.injective_iff_surjective.mp hinj) ⟨a, ha⟩
  exact ⟨u.1, u.2, by simpa [f] using congrArg Fin.val hu⟩

theorem sorted_inv_not_before (K : Nat → Nat) (x c1 c2 : List Nat) (σ1 σ2 : Nat → Nat)
    (h1 : sorted_inv K x c1 σ1) (h2 : sorted_inv K x c2 σ2) (i : Nat) (hi : i < x.length)
    (hprev : ∀ j, j < i → σ1 j = σ2 j) :
    ¬ (K (x.getD (σ1 i) 0) < K (x.getD (σ2 i) 0) ∨
      (K (x.getD (σ1 i) 0) = K (x.getD (σ2 i) 0) ∧ σ1 i < σ2 i)) := by
  intro hlt
  obtain ⟨j, hj, hje⟩ := sorted_inv_surj K x c2 σ2 h2 (σ1 i) (h1.2.1 i hi).1
  rcases Nat.lt_trichotomy j i with hji | hji | hji
  · have := sorted_inv_inj K x c1 σ1 h1 j i (by omega) hi (by rw [hprev j hji, hje])
    omega
  · subst hji
    rw [hje] at hlt; omega
  · have := sorted_inv_strict K x c2 σ2 h2 i j hji hj
    rw [hje] at this
    omega

theorem sorted_inv_unique (K : Nat → Nat) (x c1 c2 : List Nat) (σ1 σ2 : Nat → Nat)
    (h1 : sorted_inv K x c1 σ1) (h2 : sorted_inv K x c2 σ2) :
    (∀ i, i < x.length → σ1 i = σ2 i) ∧ c1 = c2 := by
  have hσ : ∀ i, i < x.length → σ1 i = σ2 i := by
    intro i
    induction i using Nat.strong_induction_on with
    | _ i ih =>
      intro hi
      have a := sorted_inv_not_before K x c1 c2 σ1 σ2 h1 h2 i hi
        (fun j hj => ih j hj (by omega))
      have b := sorted_inv_not_before K x c2 c1 σ2 σ1 h2 h1 i hi
        (fun j hj => (ih j hj (by omega)).symm)
      by_contra hne
      rcases Nat.lt_trichotomy (K (x.getD (σ1 i) 0)) (K (x.getD (σ2 i) 0)) with h | h | h
      · exact a (Or.inl h)
      · rcases Nat.lt_or_gt_of_ne hne with h3 | h3
        · exact a (Or.inr ⟨h, h3⟩)
        · exact b (Or.inr ⟨h.symm, h3⟩)
      · exact b (Or.inl h)
  refine ⟨hσ, ?_⟩
  apply list_ext_getD
  · rw [h1.1, h2.1]
  · intro p hp
    rw [h1.1] at hp
    rw [(h1.2.1 p hp).2, (h2.2.1 p hp).2, hσ p hp]

theorem concat_le_iff (ca cb ka kb M : Nat) (ha : ka < M) (hb : kb < M) :
    ca * M + ka ≤ cb * M + kb ↔ ca < cb ∨ (ca = cb ∧ ka ≤ kb) := by
  constructor
  · intro h
    rcases Nat.lt_trichotomy ca cb with h1 | h1 | h1
    · exact Or.inl h1
    · subst h1; exact Or.inr ⟨rfl, by omega⟩
    · exfalso
      have : (cb + 1) * M ≤ ca * M := Nat.mul_le_mul_right _ h1
      rw [Nat.add_mul, Nat.one_mul] at this
      omega
  · intro h
    rcases h with h1 | ⟨h1, h2⟩
    · have : (ca + 1) * M ≤ cb * M := Nat.mul_le_mul_right _ h1
      rw [Nat.add_mul, Nat.one_mul] at this
      omega
    · subst h1; omega

theorem concat_eq_iff (ca cb ka kb M : Nat) (ha : ka < M) (hb : kb < M) :
    ca * M + ka = cb * M + kb ↔ ca = cb ∧ ka = kb := by
  constructor
  · intro h
    have h1 := (concat_le_iff ca cb ka kb M ha hb).mp (by omega)
    have h2 := (concat_le_iff cb ca kb ka M hb ha).mp (by omega)
    rcases h1 with h1 | h1
    · rcases h2 with h2 | h2 <;> omega
    · rcases h2 with h2 | h2
      · omega
      · exact ⟨h1.1, by omega⟩
  · rintro ⟨h1, h2⟩
    rw [h1, h2]

theorem key_eq_iff (desc : rock_desc_t) (dims : List Nat) (a b : Nat) :
    sort_key desc dims a = sort_key desc dims b ↔
      dims.map (fun dm => dim_coord desc dm a) = dims.map (fun dm => dim_coord desc dm b) := by
  induction dims with
  | nil => simp [sort_key]
  | cons dm rest ih =>
    simp only [sort_key, List.map_cons, List.cons.injEq]
    rw [concat_eq_iff _ _ _ _ _ (sort_key_lt desc rest a) (sort_key_lt desc rest b), ih]

theorem desc_fields_fit (W order : Nat) (ds dims : List Nat)
    (hfit : (rock_desc_init W order ds).bit_width.sum ≤ W) (hdims : ∀ dm ∈ dims, dm < order) :
    ∀ i, i < dims.length →
      (rock_desc_init W order ds).bit_width.getD (dims.getD i 0) 0 +
        (rock_desc_init W order ds).bit_offset.getD (dims.getD i 0) 0 ≤ W := by
  intro i hi
  have hmem : dims.getD i 0 ∈ dims := by
    rw [List.getD_eq_getElem?_getD, List.getElem?_eq_getElem hi]
    exact List.getElem_mem hi
  have hlt := hdims _ hmem
  rw [(desc_getD W order ds _ hlt).1, (desc_getD W order ds _ hlt).2.1]
  exact desc_field_fits W order ds hfit _ hlt

/-- C2 (the code at the failing input): for the one-dimensional descriptor of size
1 that `rock_dist_init` builds for a single process, two rows and a permutation
fresh from `rock_perm_init`, the sort makes no pass and returns the permutation as
it was, `[0, 0]`, which is not a permutation of `[0, 2)`. -/
theorem sort_zero_width_perm :
    (∀ fuel, rock_indx_sort 32 8 1 fuel (rock_desc_init 32 1 [1]) 1 [0]
      (some (rock_perm_init 2)) [0, 0] = some ⟨[0, 0], none, some [0, 0], none, false⟩) ∧
    ¬ [0, 0].Nodup := by
  refine ⟨?_, by decide⟩
  intro fuel
  have h0 : dims_bits (rock_desc_init 32 1 [1]) [0] = 0 := by decide
  have hz : indx_sort_thread 32 8 1 (sort_num_bins 32 8) fuel (rock_desc_init 32 1 [1]) 1 [0]
      (some (rock_perm_init 2)) (sort_perm_alt (some (rock_perm_init 2)) none) [0, 0]
      (Option.getD none (rock_indx_init [0, 0].length))
      (List.replicate (sort_bins_len 32 8 1) 0) = some _ :=
    indx_sort_thread_zero 32 8 1 _ fuel (rock_desc_init 32 1 [1]) [0] _ _ _ _ _ h0
  unfold rock_indx_sort rock_indx_sort_alt indx_sort
  simp only []
  rw [hz]
  rfl

/-- C3 (the code at the failing input): descriptor `[12, 1, 2]`, key `dims = [1]`
of width 0, two rows with equal (empty-width) key and a permutation fresh from
`rock_perm_init`: the rows keep their order, but the returned permutation is
`[0, 0]`, so `perm[0] < perm[1]` does not hold. -/
theorem sort_zero_width_stability :
    (∀ fuel, rock_indx_sort 32 8 1 fuel (rock_desc_init 32 3 [12, 1, 2]) 1 [1]
      (some (rock_perm_init 2)) [25, 4] = some ⟨[25, 4], none, some [0, 0], none, false⟩) ∧
    row_key (rock_desc_init 32 3 [12, 1, 2]) [1] [25, 4] 0 =
      row_key (rock_desc_init 32 3 [12, 1, 2]) [1] [25, 4] 1 ∧
    ¬ ([0, 0].getD 0 0 < [0, 0].getD 1 0) := by
  refine ⟨?_, by decide, by decide⟩
  intro fuel
  have h0 : dims_bits (rock_desc_init 32 3 [12, 1, 2]) [1] = 0 := by decide
  have hz : indx_sort_thread 32 8 1 (sort_num_bins 32 8) fuel (rock_desc_init 32 3 [12, 1, 2])
      1 [1] (some (rock_perm_init 2)) (sort_perm_alt (some (rock_perm_init 2)) none) [25, 4]
      (Option.getD none (rock_indx_init [25, 4].length))
      (List.replicate (sort_bins_len 32 8 1) 0) = some _ :=
    indx_sort_thread_zero 32 8 1 _ fuel (rock_desc_init 32 3 [12, 1, 2]) [1] _ _ _ _ _ h0
  unfold rock_indx_sort rock_indx_sort_alt indx_sort
  simp only []
  rw [hz]
  rfl

theorem foldl_set_map {α : Type} (f : Nat → α) (out : List α) (m : Nat) (h : m ≤ out.length) :
    (List.range m).foldl (fun o i => o.set i (f i)) out =
      (List.range m).map f ++ out.drop m := by
  induction m with
  | zero => simp
  | succ m ih =>
    rw [List.range_succ, List.foldl_append, ih (by omega)]
    simp only [List.foldl_cons, List.foldl_nil, List.map_append, List.map_cons, List.map_nil]
    rw [List.set_append]
    simp only [List.length_map, List.length_range, Nat.lt_irrefl, if_false, Nat.sub_self,
      List.append_assoc, List.singleton_append]
    rw [List.drop_eq_getElem_cons (by omega : m < out.length)]
    rfl

theorem permute_loop_eq {α : Type} (z : α) (src : List α) (perm : List Nat) (out : List α)
    (h : out.length = src.length) :
    permute_loop z src perm out =
      (List.range src.length).map (fun i => src.getD (perm.getD i 0) z) := by
  unfold permute_loop
  rw [foldl_set_map (fun i => src.getD (perm.getD i 0) z) out src.length (by omega),
    ← h, List.drop_length, List.append_nil]

theorem range_perm_of_nodup (p : List Nat) (n : Nat) (hl : p.length = n) (hnd : p.Nodup)
    (hlt : ∀ v ∈ p, v < n) : p.Perm (List.range n) := by
  apply List.Subperm.perm_of_length_le
  · apply List.Nodup.subperm hnd
    intro v hv
    exact List.mem_range.mpr (hlt v hv)
  · simp [hl]

theorem map_getD_self {α : Type} (z : α) (x : List α) :
    (List.range x.length).map (fun i => x.getD i z) = x := by
  apply List.ext_getElem
  · simp
  · intro i h1 h2
    simp [List.getD_eq_getElem?_getD, List.getElem?_eq_getElem h2]

theorem map_getD_perm {α : Type} (z : α) (x : List α) (p : List Nat)
    (hl : p.length = x.length) (hnd : p.Nodup) (hlt : ∀ v ∈ p, v < x.length) :
    (p.map (fun v => x.getD v z)).Perm x := by
  have h1 := (range_perm_of_nodup p x.length hl hnd hlt).map (fun v => x.getD v z)
  rw [map_getD_self] at h1
  exact h1

theorem permute_loop_perm {α : Type} (z : α) (src : List α) (perm : List Nat) (out : List α)
    (h : out.length = src.length) (hl : perm.length = src.length) :
    permute_loop z src perm out = perm.map (fun v => src.getD v z) := by
  rw [permute_loop_eq z src perm out h]
  have : (List.range src.length).map (fun i => src.getD (perm.getD i 0) z) =
      ((List.range perm.length).map (fun i => perm.getD i 0)).map (fun v => src.getD v z) := by
    rw [hl, List.map_map]; rfl
  rw [this, map_getD_range]

/-- C13: for an index array `src`, a permutation array `perm` of the same length with
entries below `len` and an `out` buffer of that length, `rock_indx_permute_alt`
returns `ROCK_OK`, leaves `src` as it was and writes `out[i] = src[perm[i]]` (an
in-bounds read) for every `i`; the in-place `rock_indx_permute` returns `ROCK_OK`
and leaves the array equal to that same `out`; `rock_elem_permute_alt` and
`rock_elem_permute` do the same on an element array `e` with its permutation `pe`. -/
theorem permute_applies_perm {α : Type} (z : α) (src perm o : List Nat) (e eo : List α)
    (pe : List Nat)
    (hp : perm.length = src.length) (ho : o.length = src.length)
    (hlt : ∀ v ∈ perm, v < src.length)
    (hpe : pe.length = e.length) (heo : eo.length = e.length)
    (hlte : ∀ v ∈ pe, v < e.length) :
    (∃ out, rock_indx_permute_alt src perm (some o) = (rock_status.ROCK_OK, src, some out) ∧
      out.length = src.length ∧
      (∀ i, i < src.length →
        perm.getD i 0 < src.length ∧ out.getD i 0 = src.getD (perm.getD i 0) 0) ∧
      rock_indx_permute src perm = (rock_status.ROCK_OK, out, none)) ∧
    (∃ out, rock_elem_permute_alt z e pe (some eo) = (rock_status.ROCK_OK, e, some out) ∧
      out.length = e.length ∧
      (∀ i, i < e.length →
        pe.getD i 0 < e.length ∧ out.getD i z = e.getD (pe.getD i 0) z) ∧
      rock_elem_permute z e pe = (rock_status.ROCK_OK, out, none)) := by
  constructor
  · refine ⟨permute_loop 0 src perm o, ?_, ?_, ?_, ?_⟩
    · simp [rock_indx_permute_alt, ho]
    · rw [permute_loop_eq 0 src perm o ho]; simp
    · intro i hi
      refine ⟨hlt _ ?_, ?_⟩
      · rw [List.getD_eq_getElem _ _ (by omega : i < perm.length)]
        exact List.getElem_mem _
      · rw [permute_loop_eq 0 src perm o ho, getD_map_range _ _ _ _ hi]
    · unfold rock_indx_permute rock_indx_permute_alt
      simp only []
      rw [permute_loop_eq 0 src perm o ho, permute_loop_eq 0 src perm _ (by simp [rock_indx_init])]
  · refine ⟨permute_loop z e pe eo, ?_, ?_, ?_, ?_⟩
    · simp [rock_elem_permute_alt, heo]
    · rw [permute_loop_eq z e pe eo heo]; simp
    · intro i hi
      refine ⟨hlte _ ?_, ?_⟩
      · rw [List.getD_eq_getElem _ _ (by omega : i < pe.length)]
        exact List.getElem_mem _
      · rw [permute_loop_eq z e pe eo heo, getD_map_range _ _ _ _ hi]
    · unfold rock_elem_permute rock_elem_permute_alt
      simp only []
      rw [permute_loop_eq z e pe eo heo, permute_loop_eq z e pe _ (by simp [rock_elem_init])]

/-- Witness for C13: the four words of the `core.h` header rotated by `[3, 0, 1, 2]`,
and four element values reversed. -/
theorem permute_applies_perm_witness :
    (∃ out, rock_indx_permute_alt [52, 148, 208, 25] [3, 0, 1, 2] (some [0, 0, 0, 0]) =
        (rock_status.ROCK_OK, [52, 148, 208, 25], some out) ∧
      out.length = 4 ∧
      (∀ i, i < 4 → [3, 0, 1, 2].getD i 0 < 4 ∧
        out.getD i 0 = [52, 148, 208, 25].getD ([3, 0, 1, 2].getD i 0) 0) ∧
      rock_indx_permute [52, 148, 208, 25] [3, 0, 1, 2] = (rock_status.ROCK_OK, out, none)) ∧
    (∃ out, rock_elem_permute_alt (0 : Int) [10, 20, 30, 40] [3, 2, 1, 0] (some [0, 0, 0, 0]) =
        (rock_status.ROCK_OK, [10, 20, 30, 40], some out) ∧
      out.length = 4 ∧
      (∀ i, i < 4 → [3, 2, 1, 0].getD i 0 < 4 ∧
        out.getD i 0 = [10, 20, 30, 40].getD ([3, 2, 1, 0].getD i 0) 0) ∧
      rock_elem_permute (0 : Int) [10, 20, 30, 40] [3, 2, 1, 0] =
        (rock_status.ROCK_OK, out, none)) :=
  permute_applies_perm (0 : Int) [52, 148, 208, 25] [3, 0, 1, 2] [0, 0, 0, 0]
    [10, 20, 30, 40] [0, 0, 0, 0] [3, 2, 1, 0] (by decide) (by decide) (by decide)
    (by decide) (by decide) (by decide)

/-- C14: for an index array `x` and a permutation `p` of `[0, len(x))` (length `len`,
distinct entries, all below `len`), `rock_indx_permute` returns `ROCK_OK` and leaves
an array with the same multiset of words as `x`. -/
theorem permute_preserves_multiset (x p : List Nat) (hl : p.length = x.length)
    (hnd : p.Nodup) (hlt : ∀ v ∈ p, v < x.length) :
    ∃ out, rock_indx_permute x p = (rock_status.ROCK_OK, out, none) ∧
      out.length = x.length ∧ Multiset.ofList out = Multiset.ofList x := by
  refine ⟨permute_loop 0 x p (rock_indx_init x.length), rfl, ?_, ?_⟩
  · rw [permute_loop_eq 0 x p _ (by simp [rock_indx_init])]; simp
  · rw [permute_loop_perm 0 x p _ (by simp [rock_indx_init]) hl]
    exact Multiset.coe_eq_coe.mpr (map_getD_perm 0 x p hl hnd hlt)

/-- Witness for C14: the words of the `core.h` header permuted by `[2, 0, 3, 1]`. -/
theorem permute_preserves_multiset_witness :
    ∃ out, rock_indx_permute [52, 148, 208, 25] [2, 0, 3, 1] =
        (rock_status.ROCK_OK, out, none) ∧
      out.length = 4 ∧ Multiset.ofList out = Multiset.ofList [52, 148, 208, 25] :=
  permute_preserves_multiset [52, 148, 208, 25] [2, 0, 3, 1] (by decide) (by decide)
    (by decide)

/-! ## The sort rearranges rows; sorted input -/

theorem sorted_inv_id (K : Nat → Nat) (x : List Nat)
    (h : ∀ i j, i < j → j < x.length → K (x.getD i 0) ≤ K (x.getD j 0)) :
    sorted_inv K x x (fun i => i) := by
  refine ⟨rfl, fun i hi => ⟨hi, rfl⟩, ?_⟩
  intro i j hij hj
  have := h i j hij hj
  show K (x.getD i 0) < K (x.getD j 0) ∨ (K (x.getD i 0) = K (x.getD j 0) ∧ i < j)
  omega

/-- Sorting an array that is already in key order, with a key of at least one bit:
the array comes back as it was and a supplied permutation comes back as the
identity. -/
theorem sort_sorted_input (W R T : Nat) (desc : rock_desc_t) (dims x : List Nat)
    (perm : Option (List Nat))
    (hT : 1 ≤ T) (hR : 1 ≤ R) (hcfg : T * 2 ^ R < 2 ^ W)
    (hfld : ∀ i, i < dims.length →
      desc.bit_width.getD (dims.getD i 0) 0 + desc.bit_offset.getD (dims.getD i 0) 0 ≤ W)
    (hperm : ∀ p, perm = some p → p.length = x.length)
    (hbits : dims_bits desc dims ≠ 0)
    (hs : ∀ i j, i < j → j < x.length →
      sort_key desc dims (x.getD i 0) ≤ sort_key desc dims (x.getD j 0)) :
    ∃ r, (∀ fuel, dims_bits desc dims + dims.length ≤ fuel →
        rock_indx_sort W R T fuel desc dims.length dims perm x = some r) ∧
      r.indx = x ∧ r.perm = perm.map (fun _ => List.range x.length) := by
  obtain ⟨r, hr, hpost, _⟩ := rock_indx_sort_post W R T desc dims x perm hT hR hcfg hfld hperm
  refine ⟨r, hr, ?_⟩
  unfold sort_post at hpost
  rw [if_neg hbits] at hpost
  obtain ⟨σ, h1, h2⟩ := hpost
  obtain ⟨hσ, hc⟩ := sorted_inv_unique _ x r.indx x σ (fun i => i) h1
    (sorted_inv_id _ x hs)
  refine ⟨hc, ?_⟩
  cases perm with
  | none => simpa using h2
  | some p =>
    obtain ⟨q, e1, l1, g1⟩ := h2
    rw [e1]
    simp only [Option.map_some']
    congr 1
    apply list_ext_getD
    · simp [l1]
    · intro i hi
      rw [l1] at hi
      rw [g1 i hi, hσ i hi, List.getD_eq_getElem _ _ (by simpa using hi)]
      simp

/-- C11 (the code at the failing input): descriptor `[1, 1]` (both widths 0), key
`dims = [0, 1]`, three rows `[0, 0, 0]`, which are in key order, and a permutation
fresh from `rock_perm_init`: the sort makes no pass; the array is unchanged, but the
permutation comes back as `[0, 0, 0]`, not as the identity `[0, 1, 2]`. -/
theorem sort_idempotent_zero_width :
    (∀ i, i < 2 → lex_le (row_key (rock_desc_init 32 2 [1, 1]) [0, 1] [0, 0, 0] i)
      (row_key (rock_desc_init 32 2 [1, 1]) [0, 1] [0, 0, 0] (i + 1))) ∧
    (∀ fuel, rock_indx_sort 32 8 1 fuel (rock_desc_init 32 2 [1, 1]) 2 [0, 1]
      (some (rock_perm_init 3)) [0, 0, 0] =
        some ⟨[0, 0, 0], none, some [0, 0, 0], none, false⟩) ∧
    [0, 0, 0] ≠ List.range 3 := by
  refine ⟨by decide, ?_, by decide⟩
  intro fuel
  have h0 : dims_bits (rock_desc_init 32 2 [1, 1]) [0, 1] = 0 := by decide
  have hz : indx_sort_thread 32 8 1 (sort_num_bins 32 8) fuel (rock_desc_init 32 2 [1, 1])
      2 [0, 1] (some (rock_perm_init 3)) (sort_perm_alt (some (rock_perm_init 3)) none)
      [0, 0, 0] (Option.getD none (rock_indx_init [0, 0, 0].length))
      (List.replicate (sort_bins_len 32 8 1) 0) = some _ :=
    indx_sort_thread_zero 32 8 1 _ fuel (rock_desc_init 32 2 [1, 1]) [0, 1] _ _ _ _ _ h0
  unfold rock_indx_sort rock_indx_sort_alt indx_sort
  simp only []
  rw [hz]
  rfl

theorem getD_set_gen {α : Type} (l : List α) (i j : Nat) (v d : α) :
    (l.set i v).getD j d = if i = j ∧ i < l.length then v else l.getD j d := by
  by_cases h : i = j
  · subst h
    by_cases h2 : i < l.length
    · simp [List.getD_eq_getElem?_getD, List.getElem?_set, h2]
    · rw [List.set_eq_of_length_le (by omega)]
      simp [h2]
  · simp [List.getD_eq_getElem?_getD, List.getElem?_set, h]

theorem sum_set_succ (l : List Nat) (i : Nat) (h : i < l.length) :
    (l.set i (l.getD i 0 + 1)).sum = l.sum + 1 := by
  induction l generalizing i with
  | nil => simp at h
  | cons a t ih =>
    cases i with
    | zero => simp; omega
    | succ i =>
      simp only [List.set_cons_succ, List.sum_cons, List.getD_cons_succ]
      rw [ih i (by simpa using h)]
      omega

theorem countP_range_succ (p : Nat → Bool) (n : Nat) :
    (List.range (n + 1)).countP p = (List.range n).countP p + if p n then 1 else 0 := by
  rw [List.range_succ, List.countP_append]
  simp [List.countP_cons]

theorem freq_row_spec (desc : rock_desc_t) (x : List Nat) (n : Nat) (c : Nat → Nat → Nat)
    (f : List (List Nat))
    (hco : ∀ k, k < desc.order → rock_indx_extract desc x n k < desc.dim_size.getD k 0)
    (hf : f.length = desc.order ∧ ∀ k, k < desc.order →
      (f.getD k []).length = desc.dim_size.getD k 0 ∧
      (∀ v, (f.getD k []).getD v 0 = c k v) ∧ (f.getD k []).sum = n) :
    ((List.range desc.order).foldl (freq_step desc x n) f).length = desc.order ∧
    ∀ k, k < desc.order →
      (((List.range desc.order).foldl (freq_step desc x n) f).getD k []).length =
        desc.dim_size.getD k 0 ∧
      (∀ v, (((List.range desc.order).foldl (freq_step desc x n) f).getD k []).getD v 0 =
        c k v + if rock_indx_extract desc x n k = v then 1 else 0) ∧
      (((List.range desc.order).foldl (freq_step desc x n) f).getD k []).sum = n + 1 := by
  have key := range_fold_inv desc.order (freq_step desc x n)
    (fun m g => g.length = desc.order ∧ ∀ k, k < desc.order →
      (g.getD k []).length = desc.dim_size.getD k 0 ∧
      (∀ v, (g.getD k []).getD v 0 =
        c k v + if k < m ∧ rock_indx_extract desc x n k = v then 1 else 0) ∧
      (g.getD k []).sum = n + if k < m then 1 else 0) f ?_ ?_
  · refine ⟨key.1, ?_⟩
    intro k hk
    obtain ⟨h1, h2, h3⟩ := key.2 k hk
    refine ⟨h1, ?_, ?_⟩
    · intro v
      rw [h2 v]
      simp [hk]
    · rw [h3, if_pos hk]
  · refine ⟨hf.1, ?_⟩
    intro k hk
    obtain ⟨h1, h2, h3⟩ := hf.2 k hk
    refine ⟨h1, ?_, ?_⟩
    · intro v; rw [h2 v]; simp
    · rw [h3]; simp
  · intro i g hi hg
    obtain ⟨hl, hq⟩ := hg
    refine ⟨by simp [freq_step, hl], ?_⟩
    intro k hk
    obtain ⟨h1, h2, h3⟩ := hq k hk
    unfold freq_step
    simp only []
    rw [getD_set_gen]
    by_cases hik : i = k
    · subst hik
      rw [if_pos ⟨rfl, by omega⟩]
      have hv := hco i hk
      rw [← h1] at hv
      refine ⟨by rw [List.length_set]; exact h1, ?_, ?_⟩
      · intro v
        rw [getD_set, h2 v, h2 (rock_indx_extract desc x n i)]
        by_cases hvv : rock_indx_extract desc x n i = v
        · rw [if_pos ⟨hvv, hv⟩]
          simp only [lt_self_iff_false, false_and, if_false, Nat.lt_succ_self, true_and, hvv,
            if_true, Nat.add_zero]
        · rw [if_neg (by tauto)]
          simp only [hvv, and_false, if_false, lt_self_iff_false, false_and]
      · rw [sum_set_succ _ _ hv, h3]
        simp
    · rw [if_neg (by tauto)]
      refine ⟨h1, ?_, ?_⟩
      · intro v
        rw [h2 v]
        have : (k < i + 1 ∧ rock_indx_extract desc x n k = v) ↔
            (k < i ∧ rock_indx_extract desc x n k = v) := by
          constructor
          · rintro ⟨a, b⟩; exact ⟨by omega, b⟩
          · rintro ⟨a, b⟩; exact ⟨by omega, b⟩
        simp only [this]
      · rw [h3]
        have : k < i + 1 ↔ k < i := by omega
        simp only [this]

/-- C15: for a descriptor and an index array `x` whose coordinates are below the
dimension sizes, `rock_freq_init` returns, for every dimension `i < order`, an
array of `dim_size[i]` counters with `dim_freq[i][v]` = the number of rows `r` with
coordinate `i` equal to `v`, and these counters sum to `len(x)`. -/
theorem freq_counts_rows (desc : rock_desc_t) (x : List Nat)
    (hco : ∀ r, r < x.length → ∀ i, i < desc.order →
      rock_indx_extract desc x r i < desc.dim_size.getD i 0) :
    ∀ i, i < desc.order →
      ((rock_freq_init desc x).getD i []).length = desc.dim_size.getD i 0 ∧
      (∀ v, v < desc.dim_size.getD i 0 →
        ((rock_freq_init desc x).getD i []).getD v 0 =
          (List.range x.length).countP (fun r => decide (rock_indx_extract desc x r i = v))) ∧
      ((rock_freq_init desc x).getD i []).sum = x.length := by
  have key := range_fold_inv x.length
    (fun f i => (List.range desc.order).foldl (freq_step desc x i) f)
    (fun n g => g.length = desc.order ∧ ∀ k, k < desc.order →
      (g.getD k []).length = desc.dim_size.getD k 0 ∧
      (∀ v, (g.getD k []).getD v 0 =
        (List.range n).countP (fun r => decide (rock_indx_extract desc x r k = v))) ∧
      (g.getD k []).sum = n)
    ((List.range desc.order).map (fun i => List.replicate (desc.dim_size.getD i 0) 0)) ?_ ?_
  · intro i hi
    obtain ⟨h1, h2, h3⟩ := key.2 i hi
    exact ⟨h1, fun v _ => h2 v, h3⟩
  · refine ⟨by simp, ?_⟩
    intro k hk
    rw [getD_map_range _ _ _ _ hk]
    refine ⟨by simp, ?_, by simp⟩
    intro v
    simp only [List.getD_eq_getElem?_getD, List.getElem?_replicate]
    split <;> rfl
  · intro n g hn hg
    have := freq_row_spec desc x n
      (fun k v => (List.range n).countP (fun r => decide (rock_indx_extract desc x r k = v)))
      g (hco n hn) hg
    refine ⟨this.1, ?_⟩
    intro k hk
    obtain ⟨h1, h2, h3⟩ := this.2 k hk
    refine ⟨h1, ?_, h3⟩
    intro v
    rw [h2 v, countP_range_succ]
    simp

/-- Witness for C15: the four rows of the `core.h` header (with the third row
`(0, 4, 1)`) under the descriptor `[12, 5, 2]`; dimension 1 has two rows with
coordinate 1. -/
theorem freq_counts_rows_witness :
    ((rock_freq_init (rock_desc_init 32 3 [12, 5, 2]) [52, 148, 192, 25]).getD 1 []).length = 5 ∧
    ((rock_freq_init (rock_desc_init 32 3 [12, 5, 2]) [52, 148, 192, 25]).getD 1 []).getD 1 0 =
      (List.range 4).countP (fun r =>
        decide (rock_indx_extract (rock_desc_init 32 3 [12, 5, 2]) [52, 148, 192, 25] r 1 = 1))
      ∧
    ((rock_freq_init (rock_desc_init 32 3 [12, 5, 2]) [52, 148, 192, 25]).getD 1 []).sum = 4 :=
  let h := freq_counts_rows (rock_desc_init 32 3 [12, 5, 2]) [52, 148, 192, 25] (by decide)
    1 (by decide)
  ⟨h.1, h.2.1 1 (by decide), h.2.2⟩

/-! ## Space-based partition -/

theorem part_desc_fold (block overflow np : Nat) (off : List Nat) (hnp : 1 ≤ np)
    (hlen : off.length = np + 1) :
    ((List.range np).foldl (part_desc_step block overflow np) off).length = np + 1 ∧
    (∀ k, k < np →
      ((List.range np).foldl (part_desc_step block overflow np) off).getD k 0 = k * block) ∧
    ((List.range np).foldl (part_desc_step block overflow np) off).getD np 0 =
      np * block + overflow := by
  have key := range_fold_inv np (part_desc_step block overflow np)
    (fun m o => o.length = np + 1 ∧ (∀ k, k < m → o.getD k 0 = k * block) ∧
      (m = np → o.getD np 0 = np * block + overflow)) off ?_ ?_
  · exact ⟨key.1, key.2.1, key.2.2 rfl⟩
  · refine ⟨hlen, ?_, ?_⟩
    · intro k hk; omega
    · intro h; omega
  · intro i o hi ho
    obtain ⟨h1, h2, _⟩ := ho
    unfold part_desc_step
    by_cases hlast : i = np - 1
    · rw [if_pos hlast]
      refine ⟨by simp [h1], ?_, ?_⟩
      · intro k hk
        rw [getD_set, getD_set, List.length_set]
        by_cases hki : k = i
        · subst hki
          rw [if_neg (by omega), if_pos ⟨rfl, by omega⟩]
        · rw [if_neg (by omega), if_neg (by omega)]
          exact h2 k (by omega)
      · intro _
        rw [getD_set, List.length_set, if_pos ⟨by omega, by omega⟩]
        have : i + 1 = np := by omega
        rw [this]
    · rw [if_neg hlast]
      refine ⟨by simp [h1], ?_, ?_⟩
      · intro k hk
        rw [getD_set]
        by_cases hki : k = i
        · subst hki
          rw [if_pos ⟨rfl, by omega⟩]
        · rw [if_neg (by omega)]
          exact h2 k (by omega)
      · intro h; omega

theorem pred_mul_add (n b : Nat) (h : 1 ≤ n) : n * b = (n - 1) * b + b := by
  cases n with
  | zero => omega
  | succ m => simp [Nat.succ_mul]

/-- C18: for a descriptor, `dim < order` and a partition object with
`1 ≤ num_parts ≤ dim_size[dim]` (and its `num_parts + 1` offsets),
`rock_part_desc_based` returns `ROCK_OK` with `offset[k] = k * block` for every
`k < num_parts`, `block = dim_size[dim] / num_parts`, and
`offset[num_parts] = dim_size[dim]`; every part but the last has `block`
coordinates, the last has `block + dim_size[dim] mod num_parts`, and the offsets are
strictly increasing. -/
theorem part_desc_offsets (desc : rock_desc_t) (part : rock_part_t) (dim : Nat)
    (hd : dim < desc.order) (h1 : 1 ≤ part.num_parts)
    (h2 : part.num_parts ≤ desc.dim_size.getD dim 0)
    (hlen : part.offset.length = part.num_parts + 1) :
    ∃ p, rock_part_desc_based desc part dim = (rock_status.ROCK_OK, p) ∧
      p.num_parts = part.num_parts ∧ p.offset.length = part.num_parts + 1 ∧
      (∀ k, k < part.num_parts →
        p.offset.getD k 0 = k * (desc.dim_size.getD dim 0 / part.num_parts)) ∧
      p.offset.getD part.num_parts 0 = desc.dim_size.getD dim 0 ∧
      (∀ k, k + 1 < part.num_parts →
        p.offset.getD (k + 1) 0 - p.offset.getD k 0 =
          desc.dim_size.getD dim 0 / part.num_parts) ∧
      p.offset.getD part.num_parts 0 - p.offset.getD (part.num_parts - 1) 0 =
        desc.dim_size.getD dim 0 / part.num_parts +
          desc.dim_size.getD dim 0 % part.num_parts ∧
      (∀ k, k < part.num_parts → p.offset.getD k 0 < p.offset.getD (k + 1) 0) := by
  obtain ⟨f1, f2, f3⟩ := part_desc_fold (desc.dim_size.getD dim 0 / part.num_parts)
    (desc.dim_size.getD dim 0 % part.num_parts) part.num_parts part.offset h1 hlen
  have hdm : part.num_parts * (desc.dim_size.getD dim 0 / part.num_parts) +
      desc.dim_size.getD dim 0 % part.num_parts = desc.dim_size.getD dim 0 :=
    Nat.div_add_mod _ _
  have hb : 1 ≤ desc.dim_size.getD dim 0 / part.num_parts :=
    (Nat.one_le_div_iff (by omega)).mpr h2
  refine ⟨⟨part.num_parts, (List.range part.num_parts).foldl
      (part_desc_step (desc.dim_size.getD dim 0 / part.num_parts)
        (desc.dim_size.getD dim 0 % part.num_parts) part.num_parts) part.offset⟩,
    ?_, rfl, f1, f2, ?_, ?_, ?_, ?_⟩
  · unfold rock_part_desc_based
    rw [if_neg (by omega), if_neg (by omega)]
  · show ((List.range part.num_parts).foldl _ part.offset).getD part.num_parts 0 = _
    rw [f3, hdm]
  · intro k hk
    show ((List.range part.num_parts).foldl _ part.offset).getD (k + 1) 0 -
      ((List.range part.num_parts).foldl _ part.offset).getD k 0 = _
    rw [f2 (k + 1) hk, f2 k (by omega), Nat.succ_mul]
    omega
  · show ((List.range part.num_parts).foldl _ part.offset).getD part.num_parts 0 -
      ((List.range part.num_parts).foldl _ part.offset).getD (part.num_parts - 1) 0 = _
    rw [f3, f2 (part.num_parts - 1) (by omega)]
    have := pred_mul_add part.num_parts (desc.dim_size.getD dim 0 / part.num_parts) h1
    omega
  · intro k hk
    show ((List.range part.num_parts).foldl _ part.offset).getD k 0 <
      ((List.range part.num_parts).foldl _ part.offset).getD (k + 1) 0
    rw [f2 k hk]
    by_cases hk1 : k + 1 < part.num_parts
    · rw [f2 (k + 1) hk1, Nat.succ_mul]
      omega
    · have : k + 1 = part.num_parts := by omega
      rw [this, f3]
      have hkm : k = part.num_parts - 1 := by omega
      have := pred_mul_add part.num_parts (desc.dim_size.getD dim 0 / part.num_parts) h1
      rw [hkm]
      omega

/-- Witness for C18: a dimension of size 10 split into 3 parts: offsets
`[0, 3, 6, 10]`. -/
theorem part_desc_offsets_witness :
    ∃ p, rock_part_desc_based (rock_desc_init 32 1 [10]) (rock_part_init 32 3) 0 =
        (rock_status.ROCK_OK, p) ∧
      p.offset.getD 0 0 = 0 ∧ p.offset.getD 1 0 = 3 ∧ p.offset.getD 2 0 = 6 ∧
      p.offset.getD 3 0 = 10 :=
  let ⟨p, h, _, _, h4, h5, _⟩ := part_desc_offsets (rock_desc_init 32 1 [10])
    (rock_part_init 32 3) 0 (by decide) (by decide) (by decide) (by decide)
  ⟨p, h, h4 0 (by decide), h4 1 (by decide), h4 2 (by decide), h5⟩

/-! ## Index-based partition -/

theorem part_indx_loop_inv (desc : rock_desc_t) (o0 x : List Nat) (dim chunk prev0 : Nat)
    (hc : 1 ≤ chunk) :
    ∀ k, (part_indx_loop desc o0 x dim chunk prev0).offset.getD k 0 = o0.getD k 0 ∨
      (part_indx_loop desc o0 x dim chunk prev0).offset.getD k 0 = 0 ∨
      (0 < (part_indx_loop desc o0 x dim chunk prev0).offset.getD k 0 ∧
        (part_indx_loop desc o0 x dim chunk prev0).offset.getD k 0 < x.length ∧
        rock_indx_extract desc x
            ((part_indx_loop desc o0 x dim chunk prev0).offset.getD k 0 - 1) dim ≠
          rock_indx_extract desc x
            ((part_indx_loop desc o0 x dim chunk prev0).offset.getD k 0) dim) := by
  have key := range_fold_inv x.length (part_indx_step desc x dim chunk)
    (fun n st => (n = 0 → st.proc_part = 0) ∧
      (0 < n → st.prev = rock_indx_extract desc x (n - 1) dim) ∧
      ∀ k, st.offset.getD k 0 = o0.getD k 0 ∨ st.offset.getD k 0 = 0 ∨
        (0 < st.offset.getD k 0 ∧ st.offset.getD k 0 < x.length ∧
          rock_indx_extract desc x (st.offset.getD k 0 - 1) dim ≠
            rock_indx_extract desc x (st.offset.getD k 0) dim))
    { offset := o0.set 0 0, curr_part := 0, proc_part := 0, prev := prev0 } ?_ ?_
  · exact key.2.2
  · refine ⟨fun _ => rfl, fun h => absurd h (by omega), ?_⟩
    intro k
    show (o0.set 0 0).getD k 0 = o0.getD k 0 ∨ (o0.set 0 0).getD k 0 = 0 ∨ _
    rw [getD_set]
    by_cases h : 0 = k ∧ 0 < o0.length
    · rw [if_pos h]; exact Or.inr (Or.inl rfl)
    · rw [if_neg h]; exact Or.inl rfl
  · intro n st hn hst
    obtain ⟨h1, h2, h3⟩ := hst
    unfold part_indx_step
    simp only []
    by_cases hcl : st.proc_part ≥ chunk ∧ st.prev ≠ rock_indx_extract desc x n dim
    · rw [if_pos hcl]
      have hn0 : 0 < n := by
        rcases Nat.eq_zero_or_pos n with h | h
        · have := h1 h; omega
        · exact h
      refine ⟨fun h => absurd h (by omega), fun _ => by simp, ?_⟩
      intro k
      show (st.offset.set (st.curr_part + 1) n).getD k 0 = o0.getD k 0 ∨
        (st.offset.set (st.curr_part + 1) n).getD k 0 = 0 ∨
        (0 < (st.offset.set (st.curr_part + 1) n).getD k 0 ∧
          (st.offset.set (st.curr_part + 1) n).getD k 0 < x.length ∧
          rock_indx_extract desc x ((st.offset.set (st.curr_part + 1) n).getD k 0 - 1) dim ≠
            rock_indx_extract desc x ((st.offset.set (st.curr_part + 1) n).getD k 0) dim)
      rw [getD_set]
      by_cases hk : st.curr_part + 1 = k ∧ st.curr_part + 1 < st.offset.length
      · rw [if_pos hk]
        refine Or.inr (Or.inr ⟨hn0, hn, ?_⟩)
        rw [← h2 hn0]
        exact hcl.2
      · rw [if_neg hk]
        exact h3 k
    · rw [if_neg hcl]
      exact ⟨fun h => absurd h (by omega), fun _ => by simp, h3⟩

/-- Every entry of the offset array after `rock_part_indx_based` is the entry from
before the call, 0, `len`, or a position at which the coordinate changes. -/
theorem part_indx_entries (desc : rock_desc_t) (part : rock_part_t) (x : List Nat)
    (dim prev0 : Nat) (hnp : 1 ≤ part.num_parts) (k : Nat) :
    (rock_part_indx_based desc part x dim prev0).2.offset.getD k 0 = part.offset.getD k 0 ∨
    (rock_part_indx_based desc part x dim prev0).2.offset.getD k 0 = 0 ∨
    (rock_part_indx_based desc part x dim prev0).2.offset.getD k 0 = x.length ∨
    (0 < (rock_part_indx_based desc part x dim prev0).2.offset.getD k 0 ∧
      (rock_part_indx_based desc part x dim prev0).2.offset.getD k 0 < x.length ∧
      rock_indx_extract desc x
          ((rock_part_indx_based desc part x dim prev0).2.offset.getD k 0 - 1) dim ≠
        rock_indx_extract desc x
          ((rock_part_indx_based desc part x dim prev0).2.offset.getD k 0) dim) := by
  unfold rock_part_indx_based
  by_cases g1 : dim ≥ desc.order
  · rw [if_pos g1]; exact Or.inl rfl
  rw [if_neg g1]
  by_cases g2 : x.length < part.num_parts
  · rw [if_pos g2]; exact Or.inl rfl
  rw [if_neg g2]
  by_cases g3 : desc.dim_size.getD dim 0 < part.num_parts
  · rw [if_pos g3]; exact Or.inl rfl
  rw [if_neg g3]
  have hc : 1 ≤ x.length / part.num_parts := (Nat.one_le_div_iff (by omega)).mpr (by omega)
  have h := part_indx_loop_inv desc part.offset x dim (x.length / part.num_parts) prev0 hc k
  simp only []
  rw [getD_set]
  split
  · exact Or.inr (Or.inr (Or.inl rfl))
  · rcases h with h | h | h
    · exact Or.inl h
    · exact Or.inr (Or.inl h)
    · exact Or.inr (Or.inr (Or.inr h))

theorem part_indx_loop_prev (desc : rock_desc_t) (o0 x : List Nat) (dim chunk prev0 : Nat)
    (hc : 1 ≤ chunk) (hx : 0 < x.length) :
    part_indx_loop desc o0 x dim chunk prev0 = part_indx_loop desc o0 x dim chunk 0 := by
  unfold part_indx_loop
  obtain ⟨m, hm⟩ : ∃ m, x.length = m + 1 := ⟨x.length - 1, by omega⟩
  rw [hm, List.range_succ_eq_map, List.foldl_cons, List.foldl_cons]
  congr 1
  unfold part_indx_step
  simp only []
  rw [if_neg (by intro h; have := h.1; omega), if_neg (by intro h; have := h.1; omega)]

/-- The uninitialised local `prev` is not read when `num_parts ≥ 1`: the result does
not depend on its value. -/
theorem part_indx_based_prev (desc : rock_desc_t) (part : rock_part_t) (x : List Nat)
    (dim prev0 : Nat) (hnp : 1 ≤ part.num_parts) :
    rock_part_indx_based desc part x dim prev0 = rock_part_indx_based desc part x dim 0 := by
  unfold rock_part_indx_based
  by_cases g1 : dim ≥ desc.order
  · rw [if_pos g1, if_pos g1]
  rw [if_neg g1, if_neg g1]
  by_cases g2 : x.length < part.num_parts
  · rw [if_pos g2, if_pos g2]
  rw [if_neg g2, if_neg g2]
  by_cases g3 : desc.dim_size.getD dim 0 < part.num_parts
  · rw [if_pos g3, if_pos g3]
  rw [if_neg g3, if_neg g3]
  have hc : 1 ≤ x.length / part.num_parts := (Nat.one_le_div_iff (by omega)).mpr (by omega)
  simp only []
  rw [part_indx_loop_prev desc part.offset x dim _ prev0 hc (by omega)]

/-- C16 (the code at the failing input): one dimension of size 8, the eight rows
`0, 1, ..., 7` (sorted, all distinct) and a partition object fresh from
`rock_part_init(4)`: the call returns `ROCK_OK` with offsets `[0, 2, 5, 8, 0]`, so
`offset[num_parts] = offset[4]` is 0, not `len = 8`, and the offsets are not
monotone (`offset[3] = 8 > offset[4]`). -/
theorem part_indx_last_offset_unset :
    (∀ j, j < 8 → ∀ i, i < j →
      rock_indx_extract (rock_desc_init 32 1 [8]) [0, 1, 2, 3, 4, 5, 6, 7] i 0 ≤
        rock_indx_extract (rock_desc_init 32 1 [8]) [0, 1, 2, 3, 4, 5, 6, 7] j 0) ∧
    (rock_desc_init 32 1 [8]).dim_size.getD 0 0 ≥ 4 ∧
    (∀ prev0, rock_part_indx_based (rock_desc_init 32 1 [8]) (rock_part_init 32 4)
      [0, 1, 2, 3, 4, 5, 6, 7] 0 prev0 = (rock_status.ROCK_OK, ⟨4, [0, 2, 5, 8, 0]⟩)) ∧
    [0, 2, 5, 8, 0].getD 4 0 ≠ 8 ∧ ¬ ([0, 2, 5, 8, 0].getD 3 0 ≤ [0, 2, 5, 8, 0].getD 4 0) := by
  refine ⟨by decide, by decide, ?_, by decide, by decide⟩
  intro prev0
  rw [part_indx_based_prev _ _ _ _ prev0 (by decide)]
  decide

/-- C17: for an index array sorted on `dim` and `num_parts ≥ 1`, every offset
`b = offset[k]` that `rock_part_indx_based` writes (it differs from the entry before
the call) strictly inside the array (`0 < b < len`) separates two different
coordinates, `coord(b - 1) ≠ coord(b)`; hence every row before `b` has a smaller
coordinate than every row from `b` on: no run of equal coordinates is split, and
the coordinates of a part lie between those of its neighbours. -/
theorem part_indx_no_split (desc : rock_desc_t) (part : rock_part_t) (x : List Nat)
    (dim prev0 : Nat) (hnp : 1 ≤ part.num_parts)
    (hs : ∀ j, j < x.length → ∀ i, i < j →
      rock_indx_extract desc x i dim ≤ rock_indx_extract desc x j dim) :
    ∀ k, (rock_part_indx_based desc part x dim prev0).2.offset.getD k 0 ≠
        part.offset.getD k 0 →
      0 < (rock_part_indx_based desc part x dim prev0).2.offset.getD k 0 →
      (rock_part_indx_based desc part x dim prev0).2.offset.getD k 0 < x.length →
      rock_indx_extract desc x
          ((rock_part_indx_based desc part x dim prev0).2.offset.getD k 0 - 1) dim ≠
        rock_indx_extract desc x
          ((rock_part_indx_based desc part x dim prev0).2.offset.getD k 0) dim ∧
      ∀ r1 r2, r1 < (rock_part_indx_based desc part x dim prev0).2.offset.getD k 0 →
        (rock_part_indx_based desc part x dim prev0).2.offset.getD k 0 ≤ r2 →
        r2 < x.length →
        rock_indx_extract desc x r1 dim < rock_indx_extract desc x r2 dim := by
  intro k
  have h := part_indx_entries desc part x dim prev0 hnp k
  generalize (rock_part_indx_based desc part x dim prev0).2.offset.getD k 0 = b at h
  intro hne hpos hlt
  rcases h with h | h | h | h
  · exact absurd h hne
  · omega
  · omega
  · refine ⟨h.2.2, ?_⟩
    intro r1 r2 hr1 hr2 hr2l
    have a1 : rock_indx_extract desc x r1 dim ≤ rock_indx_extract desc x (b - 1) dim := by
      rcases Nat.lt_or_ge r1 (b - 1) with h1 | h1
      · exact hs (b - 1) (by omega) r1 h1
      · have : r1 = b - 1 := by omega
        rw [this]
    have a2 : rock_indx_extract desc x (b - 1) dim ≤ rock_indx_extract desc x b dim :=
      hs b hlt (b - 1) (by omega)
    have a3 : rock_indx_extract desc x b dim ≤ rock_indx_extract desc x r2 dim := by
      rcases Nat.lt_or_ge b r2 with h1 | h1
      · exact hs r2 hr2l b h1
      · have : r2 = b := by omega
        rw [this]
    have := h.2.2
    omega

/-- Witness for C17: seven rows `0, ..., 6` of a dimension of size 8 in 3 parts: the
offsets are `[0, 2, 5, 7]`, and the boundary `offset[1] = 2` lies between the
coordinates 1 and 2. -/
theorem part_indx_no_split_witness :
    rock_indx_extract (rock_desc_init 32 1 [8]) [0, 1, 2, 3, 4, 5, 6]
        ((rock_part_indx_based (rock_desc_init 32 1 [8]) (rock_part_init 32 3)
          [0, 1, 2, 3, 4, 5, 6] 0 0).2.offset.getD 1 0 - 1) 0 ≠
      rock_indx_extract (rock_desc_init 32 1 [8]) [0, 1, 2, 3, 4, 5, 6]
        ((rock_part_indx_based (rock_desc_init 32 1 [8]) (rock_part_init 32 3)
          [0, 1, 2, 3, 4, 5, 6] 0 0).2.offset.getD 1 0) 0 ∧
    rock_indx_extract (rock_desc_init 32 1 [8]) [0, 1, 2, 3, 4, 5, 6] 1 0 <
      rock_indx_extract (rock_desc_init 32 1 [8]) [0, 1, 2, 3, 4, 5, 6] 2 0 :=
  let h := part_indx_no_split (rock_desc_init 32 1 [8]) (rock_part_init 32 3)
    [0, 1, 2, 3, 4, 5, 6] 0 0 (by decide) (by decide) 1 (by decide) (by decide) (by decide)
  ⟨h.1, h.2 1 2 (by decide) (by decide) (by decide)⟩

/-! ## Views -/

/-- C19 (the code at the failing input): descriptor `[2, 2]`, rows
`(1,1), (0,0), (1,0)` (words `[3, 0, 1]`), no sorted dimension (`sorted_dim = 2`),
radix width 2, one thread. `dim_perm[0] = [1, 0, 2]` sorts `x` on dimension 0, but
`dim_perm[1] = [0, 2, 1]` was computed on the copy already sorted on dimension 0:
applied to the unmodified `x` it gives the words `[3, 1, 0]`, whose coordinates on
dimension 1 are `1, 0, 0`. -/
theorem view_perm_of_sorted_copy :
    rock_view_init 32 2 1 10 (rock_desc_init 32 2 [2, 2]) [3, 0, 1] 2 =
      some [[1, 0, 2], [0, 2, 1]] ∧
    rock_indx_permute [3, 0, 1] [0, 2, 1] = (rock_status.ROCK_OK, [3, 1, 0], none) ∧
    ¬ (rock_indx_extract (rock_desc_init 32 2 [2, 2]) [3, 1, 0] 0 1 ≤
      rock_indx_extract (rock_desc_init 32 2 [2, 2]) [3, 1, 0] 1 1) := by
  refine ⟨?_, by decide, by decide⟩
  decide

/-! ## Multi-partitions -/

theorem offsets_mono (off : Nat → Nat) (n : Nat) (h : ∀ k, k < n → off k < off (k + 1))
    (a b : Nat) (hab : a ≤ b) (hb : b ≤ n) : off a ≤ off b := by
  induction b with
  | zero =>
    have : a = 0 := by omega
    rw [this]
  | succ b ih =>
    rcases Nat.eq_or_lt_of_le hab with h1 | h1
    · rw [h1]
    · have := ih (by omega) (by omega)
      have := h b (by omega)
      omega

theorem part_index_exists (off : Nat → Nat) (c : Nat) (n : Nat) (h0 : off 0 ≤ c)
    (hn : c < off n) : ∃ p, p < n ∧ off p ≤ c ∧ c < off (p + 1) := by
  induction n with
  | zero => omega
  | succ n ih =>
    by_cases h : c < off n
    · obtain ⟨p, hp, h1, h2⟩ := ih h
      exact ⟨p, by omega, h1, h2⟩
    · exact ⟨n, by omega, by omega, hn⟩

theorem part_index_unique (off : Nat → Nat) (c n : Nat)
    (h : ∀ k, k < n → off k < off (k + 1)) (p k : Nat) (hp : p < n) (hk : k < n)
    (hp1 : off p ≤ c) (hp2 : c < off (p + 1)) (hk1 : off k ≤ c) (hk2 : c < off (k + 1)) :
    k = p := by
  rcases Nat.lt_trichotomy k p with h1 | h1 | h1
  · have := offsets_mono off n h (k + 1) p (by omega) (by omega)
    omega
  · exact h1
  · have := offsets_mono off n h (p + 1) k (by omega) (by omega)
    omega

theorem part_search_spec (offset : List Nat) (c n p : Nat)
    (h : ∀ k, k < n → offset.getD k 0 < offset.getD (k + 1) 0) (hp : p < n)
    (hp1 : offset.getD p 0 ≤ c) (hp2 : c < offset.getD (p + 1) 0) :
    ∀ fuel a, a ≤ p → p - a < fuel → part_search offset c fuel a = some p := by
  intro fuel
  induction fuel with
  | zero => intro a _ h2; omega
  | succ fuel ih =>
    intro a ha hf
    unfold part_search
    rcases Nat.eq_or_lt_of_le ha with h1 | h1
    · rw [h1, if_neg (by omega)]
    · have := offsets_mono (fun k => offset.getD k 0) n h (a + 1) p (by omega) (by omega)
      rw [if_pos (by simp only [] at this; omega)]
      exact ih (a + 1) (by omega) (by omega)

theorem mpart_search_fold (fuel : Nat) (mpart : rock_mpart_t) (indx : List Nat) (i : Nat)
    (pidx : Nat → Nat)
    (hs : ∀ j, j < mpart.order →
      part_search (mpart.dim_part.getD j ⟨0, []⟩).offset (mpart_coord mpart indx i j) fuel 0 =
        some (pidx j)) :
    ∃ pi, (List.range mpart.order).foldl (mpart_search_step fuel mpart indx i)
        (some (List.replicate mpart.order 0)) = some pi ∧
      ∀ j, j < mpart.order → pi.getD j 0 = pidx j := by
  have key := range_fold_inv mpart.order (mpart_search_step fuel mpart indx i)
    (fun m st => ∃ pi, st = some pi ∧ pi.length = mpart.order ∧
      ∀ j, j < m → pi.getD j 0 = pidx j)
    (some (List.replicate mpart.order 0)) ?_ ?_
  · obtain ⟨pi, h1, _, h3⟩ := key
    exact ⟨pi, h1, h3⟩
  · exact ⟨_, rfl, by simp, fun j hj => by omega⟩
  · intro m st hm hst
    obtain ⟨pi, h1, h2, h3⟩ := hst
    have hsm := hs m hm
    unfold mpart_coord at hsm
    refine ⟨pi.set m (pidx m), ?_, by simp [h2], ?_⟩
    · rw [h1]
      unfold mpart_search_step
      simp only []
      rw [hsm]
    · intro j hj
      rw [getD_set]
      by_cases hjm : m = j
      · rw [if_pos ⟨hjm, by omega⟩, hjm]
      · rw [if_neg (by tauto)]
        exact h3 j (by omega)

theorem parts_before_succ (np : Nat → Nat) (j : Nat) :
    parts_before np (j + 1) = parts_before np j * np j := by
  unfold parts_before
  rw [List.range_succ, List.map_append, List.prod_append]
  simp

theorem part_num_formula_succ (np pidx : Nat → Nat) (n : Nat) :
    part_num_formula np pidx (n + 1) =
      part_num_formula np pidx n + parts_before np n * pidx n := by
  unfold part_num_formula
  rw [List.range_succ, List.map_append, List.sum_append]
  simp

theorem mpart_prev_prod_eq (W : Nat) (mpart : rock_mpart_t) (j : Nat) :
    mpart_prev_prod W mpart j % 2 ^ W = parts_before (mpart_np mpart) j % 2 ^ W := by
  induction j with
  | zero => rfl
  | succ j ih =>
    have : mpart_prev_prod W mpart (j + 1) =
        (mpart_prev_prod W mpart j * mpart_np mpart j) % 2 ^ W := by
      unfold mpart_prev_prod
      rw [List.range_succ, List.foldl_append]
      rfl
    rw [this, parts_before_succ, Nat.mod_mod, Nat.mul_mod, ih, ← Nat.mul_mod]

theorem mpart_part_num_eq (W : Nat) (mpart : rock_mpart_t) (pi : List Nat) :
    mpart_part_num W mpart pi =
      part_num_formula (mpart_np mpart) (fun j => pi.getD j 0) mpart.order % 2 ^ W := by
  unfold mpart_part_num
  have key := range_fold_inv mpart.order
    (fun acc j => (acc + (mpart_prev_prod W mpart j * pi.getD j 0) % 2 ^ W) % 2 ^ W)
    (fun m acc => acc = part_num_formula (mpart_np mpart) (fun j => pi.getD j 0) m % 2 ^ W)
    0 ?_ ?_
  · exact key
  · show 0 = part_num_formula _ _ 0 % 2 ^ W
    simp [part_num_formula]
  · intro m acc _ hacc
    show (acc + (mpart_prev_prod W mpart m * pi.getD m 0) % 2 ^ W) % 2 ^ W = _
    rw [part_num_formula_succ, hacc]
    have h1 : (mpart_prev_prod W mpart m * pi.getD m 0) % 2 ^ W =
        (parts_before (mpart_np mpart) m * pi.getD m 0) % 2 ^ W := by
      rw [Nat.mul_mod, mpart_prev_prod_eq, ← Nat.mul_mod]
    rw [h1, ← Nat.add_mod]

theorem part_num_formula_congr (np p q : Nat → Nat) (n : Nat)
    (h : ∀ j, j < n → p j = q j) : part_num_formula np p n = part_num_formula np q n := by
  induction n with
  | zero => rfl
  | succ n ih =>
    rw [part_num_formula_succ, part_num_formula_succ, ih (fun j hj => h j (by omega)),
      h n (by omega)]

theorem part_num_formula_lt (np pidx : Nat → Nat) (n : Nat)
    (h : ∀ j, j < n → pidx j < np j) : part_num_formula np pidx n < parts_before np n := by
  induction n with
  | zero => simp [part_num_formula, parts_before]
  | succ n ih =>
    rw [part_num_formula_succ, parts_before_succ]
    have h1 := ih (fun j hj => h j (by omega))
    have h2 := h n (by omega)
    have h3 : parts_before np n * (pidx n + 1) ≤ parts_before np n * np n :=
      Nat.mul_le_mul_left _ h2
    rw [Nat.mul_succ] at h3
    omega

/-- In `rock_uint_t` arithmetic the part number is the row-major formula modulo
`2 ^ W`. -/
theorem part_num_from_mpart_mod (W fuel : Nat) (mpart : rock_mpart_t) (indx : List Nat)
    (i : Nat) (pidx : Nat → Nat)
    (hmono : ∀ j, j < mpart.order → ∀ k, k < mpart_np mpart j →
      mpart_offset mpart j k < mpart_offset mpart j (k + 1))
    (hidx : ∀ j, j < mpart.order → pidx j < mpart_np mpart j ∧
      mpart_offset mpart j (pidx j) ≤ mpart_coord mpart indx i j ∧
      mpart_coord mpart indx i j < mpart_offset mpart j (pidx j + 1))
    (hfuel : ∀ j, j < mpart.order → mpart_np mpart j ≤ fuel) :
    rock_part_num_from_mpart W fuel mpart indx i =
      some (part_num_formula (mpart_np mpart) pidx mpart.order % 2 ^ W) := by
  have hs : ∀ j, j < mpart.order →
      part_search (mpart.dim_part.getD j ⟨0, []⟩).offset (mpart_coord mpart indx i j) fuel 0 =
        some (pidx j) := by
    intro j hj
    obtain ⟨h1, h2, h3⟩ := hidx j hj
    have := hfuel j hj
    exact part_search_spec _ _ (mpart_np mpart j) (pidx j) (hmono j hj) h1 h2 h3 fuel 0
      (by omega) (by omega)
  obtain ⟨pi, hpi, hget⟩ := mpart_search_fold fuel mpart indx i pidx hs
  unfold rock_part_num_from_mpart
  rw [hpi, Option.map_some', mpart_part_num_eq,
    part_num_formula_congr _ _ pidx _ hget]

/-- C20 (as stated, refuted): on a 32-bit word, a multi-partition of 17 slots over
the 17 dimensions (each of size 2) of a descriptor, the first 16 slots with 4 parts
`[0, 1, 2, 3, 4]` and the last with 2 parts `[0, 1, 2]`, and the row with coordinate
1 on dimension 16 and 0 elsewhere: all offsets are strictly increasing and every
coordinate is below the last offset; the part indices are `0, ..., 0, 1` and the
formula gives `4 ^ 16 * 1 = 2 ^ 32`, but `prev_prod` wraps and the function
returns 0. -/
theorem part_num_wraps :
    (∀ j, j < 17 → ∀ k, k < mpart_np mpart_wide j →
      mpart_offset mpart_wide j k < mpart_offset mpart_wide j (k + 1)) ∧
    (∀ j, j < 17 → mpart_coord mpart_wide [65536] 0 j <
      mpart_offset mpart_wide j (mpart_np mpart_wide j)) ∧
    (∀ j, j < 17 →
      (if j = 16 then 1 else 0) < mpart_np mpart_wide j ∧
      mpart_offset mpart_wide j (if j = 16 then 1 else 0) ≤ mpart_coord mpart_wide [65536] 0 j ∧
      mpart_coord mpart_wide [65536] 0 j <
        mpart_offset mpart_wide j ((if j = 16 then 1 else 0) + 1)) ∧
    rock_part_num_from_mpart 32 8 mpart_wide [65536] 0 = some 0 ∧
    part_num_formula (mpart_np mpart_wide) (fun j => if j = 16 then 1 else 0) 17 = 2 ^ 32 := by
  refine ⟨by decide, by decide, by decide, by decide, by decide⟩

/-- C20 (amended): for a multi-partition whose per-slot offsets are strictly
increasing and a row whose coordinate on each partitioned dimension lies between
the first and below the last offset of its slot, each slot has a unique part index
`k` with `offset[k] ≤ coord < offset[k+1]`; when the total number of parts, the
product of all `num_parts`, is at most `2 ^ W`, `rock_part_num_from_mpart` returns
the sum over `j` of `(product over k < j of num_parts_k) * part_index_j`. -/
theorem part_num_from_mpart_formula (W fuel : Nat) (mpart : rock_mpart_t) (indx : List Nat)
    (i : Nat)
    (hmono : ∀ j, j < mpart.order → ∀ k, k < mpart_np mpart j →
      mpart_offset mpart j k < mpart_offset mpart j (k + 1))
    (hfirst : ∀ j, j < mpart.order → mpart_offset mpart j 0 ≤ mpart_coord mpart indx i j)
    (hlast : ∀ j, j < mpart.order →
      mpart_coord mpart indx i j < mpart_offset mpart j (mpart_np mpart j))
    (hfuel : ∀ j, j < mpart.order → mpart_np mpart j ≤ fuel)
    (hprod : parts_before (mpart_np mpart) mpart.order ≤ 2 ^ W) :
    ∃ pidx : Nat → Nat,
      (∀ j, j < mpart.order → pidx j < mpart_np mpart j ∧
        mpart_offset mpart j (pidx j) ≤ mpart_coord mpart indx i j ∧
        mpart_coord mpart indx i j < mpart_offset mpart j (pidx j + 1) ∧
        ∀ k, k < mpart_np mpart j → mpart_offset mpart j k ≤ mpart_coord mpart indx i j →
          mpart_coord mpart indx i j < mpart_offset mpart j (k + 1) → k = pidx j) ∧
      rock_part_num_from_mpart W fuel mpart indx i =
        some (part_num_formula (mpart_np mpart) pidx mpart.order) := by
  have hex : ∀ j, ∃ p, j < mpart.order → p < mpart_np mpart j ∧
      mpart_offset mpart j p ≤ mpart_coord mpart indx i j ∧
      mpart_coord mpart indx i j < mpart_offset mpart j (p + 1) := by
    intro j
    by_cases hj : j < mpart.order
    · obtain ⟨p, h1, h2, h3⟩ := part_index_exists (mpart_offset mpart j)
        (mpart_coord mpart indx i j) (mpart_np mpart j) (hfirst j hj) (hlast j hj)
      exact ⟨p, fun _ => ⟨h1, h2, h3⟩⟩
    · exact ⟨0, fun h => absurd h hj⟩
  choose pidx hp using hex
  refine ⟨pidx, ?_, ?_⟩
  · intro j hj
    obtain ⟨h1, h2, h3⟩ := hp j hj
    refine ⟨h1, h2, h3, ?_⟩
    intro k hk hk1 hk2
    exact part_index_unique (mpart_offset mpart j) (mpart_coord mpart indx i j)
      (mpart_np mpart j) (hmono j hj) (pidx j) k h1 hk h2 h3 hk1 hk2
  · rw [part_num_from_mpart_mod W fuel mpart indx i pidx hmono hp hfuel]
    have := part_num_formula_lt (mpart_np mpart) pidx mpart.order (fun j hj => (hp j hj).1)
    rw [Nat.mod_eq_of_lt (by omega)]

/-- Witness for C20 (amended): a descriptor `[4, 6]`, slot 0 with parts `[0, 2, 4]`
on dimension 0, slot 1 with parts `[0, 2, 4, 6]` on dimension 1, and the row
`(3, 2)`: part indices 1 and 1, part number `1 + 2 * 1 = 3`. -/
theorem part_num_from_mpart_formula_witness :
    ∃ pidx : Nat → Nat,
      (∀ j, j < 2 → pidx j < mpart_np mpart_small j ∧
        mpart_offset mpart_small j (pidx j) ≤ mpart_coord mpart_small [11] 0 j ∧
        mpart_coord mpart_small [11] 0 j < mpart_offset mpart_small j (pidx j + 1) ∧
        ∀ k, k < mpart_np mpart_small j →
          mpart_offset mpart_small j k ≤ mpart_coord mpart_small [11] 0 j →
          mpart_coord mpart_small [11] 0 j < mpart_offset mpart_small j (k + 1) → k = pidx j) ∧
      rock_part_num_from_mpart 32 8 mpart_small [11] 0 =
        some (part_num_formula (mpart_np mpart_small) pidx 2) :=
  part_num_from_mpart_formula 32 8 mpart_small [11] 0 (by decide) (by decide) (by decide)
    (by decide) (by decide)

/-! ## Precondition checks -/

/-- C26: `rock_indx_permute_alt` and `rock_elem_permute_alt` return `ROCK_BAD_INPUT`
exactly when an `out` buffer is supplied whose length differs from the source's, and
then the source and `out` are as they were before the call. -/
theorem permute_rejects_length_mismatch {α : Type} (z : α) (src perm : List Nat)
    (out : Option (List Nat)) (e : List α) (pe : List Nat) (eout : Option (List α)) :
    ((rock_indx_permute_alt src perm out).1 = rock_status.ROCK_BAD_INPUT ↔
      ∃ o, out = some o ∧ src.length ≠ o.length) ∧
    ((rock_indx_permute_alt src perm out).1 = rock_status.ROCK_BAD_INPUT →
      (rock_indx_permute_alt src perm out).2 = (src, out)) ∧
    ((rock_elem_permute_alt z e pe eout).1 = rock_status.ROCK_BAD_INPUT ↔
      ∃ o, eout = some o ∧ e.length ≠ o.length) ∧
    ((rock_elem_permute_alt z e pe eout).1 = rock_status.ROCK_BAD_INPUT →
      (rock_elem_permute_alt z e pe eout).2 = (e, eout)) := by
  refine ⟨?_, ?_, ?_, ?_⟩
  · cases out with
    | none => simp [rock_indx_permute_alt]
    | some o =>
      unfold rock_indx_permute_alt
      by_cases h : src.length ≠ o.length
      · simp [h]
      · simp [h]
  · cases out with
    | none => simp [rock_indx_permute_alt]
    | some o =>
      unfold rock_indx_permute_alt
      by_cases h : src.length ≠ o.length
      · simp [h]
      · simp [h]
  · cases eout with
    | none => simp [rock_elem_permute_alt]
    | some o =>
      unfold rock_elem_permute_alt
      by_cases h : e.length ≠ o.length
      · simp [h]
      · simp [h]
  · cases eout with
    | none => simp [rock_elem_permute_alt]
    | some o =>
      unfold rock_elem_permute_alt
      by_cases h : e.length ≠ o.length
      · simp [h]
      · simp [h]

/-- C23: `rock_part_indx_based` returns `ROCK_BAD_INPUT` exactly when
`dim_num ≥ order`, `len < num_parts` or `dim_size[dim_num] < num_parts`, and
`rock_part_desc_based` exactly when `dim_num ≥ order` or
`dim_size[dim_num] < num_parts`; in these cases the partition object is returned as
it was, and in every other case with `num_parts ≥ 1` the result is `ROCK_OK`. -/
theorem part_precondition_checks (desc : rock_desc_t) (part : rock_part_t) (x : List Nat)
    (dim prev0 : Nat) :
    ((rock_part_indx_based desc part x dim prev0).1 = rock_status.ROCK_BAD_INPUT ↔
      (dim ≥ desc.order ∨ x.length < part.num_parts ∨
        desc.dim_size.getD dim 0 < part.num_parts)) ∧
    ((rock_part_indx_based desc part x dim prev0).1 = rock_status.ROCK_BAD_INPUT →
      (rock_part_indx_based desc part x dim prev0).2 = part) ∧
    (1 ≤ part.num_parts →
      ¬ (dim ≥ desc.order ∨ x.length < part.num_parts ∨
        desc.dim_size.getD dim 0 < part.num_parts) →
      (rock_part_indx_based desc part x dim prev0).1 = rock_status.ROCK_OK) ∧
    ((rock_part_desc_based desc part dim).1 = rock_status.ROCK_BAD_INPUT ↔
      (dim ≥ desc.order ∨ desc.dim_size.getD dim 0 < part.num_parts)) ∧
    ((rock_part_desc_based desc part dim).1 = rock_status.ROCK_BAD_INPUT →
      (rock_part_desc_based desc part dim).2 = part) ∧
    (1 ≤ part.num_parts →
      ¬ (dim ≥ desc.order ∨ desc.dim_size.getD dim 0 < part.num_parts) →
      (rock_part_desc_based desc part dim).1 = rock_status.ROCK_OK) := by
  unfold rock_part_indx_based rock_part_desc_based
  generalize desc.dim_size.getD dim 0 = D
  by_cases g1 : dim ≥ desc.order
  · simp [g1]
  by_cases g2 : x.length < part.num_parts
  · by_cases g3 : D < part.num_parts
    · simp [g1, g2, g3]
    · simp [g1, g2, g3]
  by_cases g3 : D < part.num_parts
  · simp [g1, g2, g3]
  · simp [g1, g2, g3]

/-- Witness for C23: a dimension of size 4 with 3 rows: 4 parts are rejected by the
index-based partitioner (`len < num_parts`) and accepted by the space-based one. -/
theorem part_precondition_checks_witness :
    (rock_part_indx_based (rock_desc_init 32 1 [4]) (rock_part_init 32 4) [0, 1, 2] 0 0).1 =
      rock_status.ROCK_BAD_INPUT ∧
    (rock_part_indx_based (rock_desc_init 32 1 [4]) (rock_part_init 32 4) [0, 1, 2] 0 0).2 =
      rock_part_init 32 4 ∧
    (rock_part_desc_based (rock_desc_init 32 1 [4]) (rock_part_init 32 4) 0).1 =
      rock_status.ROCK_OK :=
  let h := part_precondition_checks (rock_desc_init 32 1 [4]) (rock_part_init 32 4) [0, 1, 2] 0 0
  ⟨h.1.mpr (by decide), h.2.1 (h.1.mpr (by decide)), h.2.2.2.2.2 (by decide) (by decide)⟩

/-! ## The bit layout of a packed row -/

theorem coord_changes_succ (desc : rock_desc_t) (x : List Nat) (dim n : Nat) :
    coord_changes desc x dim (n + 1) = coord_changes desc x dim n +
      if 0 < n ∧ rock_indx_extract desc x (n - 1) dim ≠ rock_indx_extract desc x n dim
      then 1 else 0 := by
  unfold coord_changes
  rw [countP_range_succ]
  congr 1
  by_cases h : 0 < n ∧ rock_indx_extract desc x (n - 1) dim ≠ rock_indx_extract desc x n dim
  · simp [h]
  · rw [if_neg h]; simp [h]

theorem part_indx_loop_count (desc : rock_desc_t) (o0 x : List Nat) (dim chunk prev0 : Nat)
    (hc : 1 ≤ chunk) :
    (part_indx_loop desc o0 x dim chunk prev0).curr_part ≤ coord_changes desc x dim x.length ∧
    ∀ k, (part_indx_loop desc o0 x dim chunk prev0).curr_part < k →
      (part_indx_loop desc o0 x dim chunk prev0).offset.getD k 0 = o0.getD k 0 := by
  have key := range_fold_inv x.length (part_indx_step desc x dim chunk)
    (fun n st => (n = 0 → st.proc_part = 0) ∧
      (0 < n → st.prev = rock_indx_extract desc x (n - 1) dim) ∧
      st.curr_part ≤ coord_changes desc x dim n ∧
      ∀ k, st.curr_part < k → st.offset.getD k 0 = o0.getD k 0)
    { offset := o0.set 0 0, curr_part := 0, proc_part := 0, prev := prev0 } ?_ ?_
  · exact key.2.2
  · refine ⟨fun _ => rfl, fun h => absurd h (by omega), Nat.zero_le _, ?_⟩
    intro k hk
    show (o0.set 0 0).getD k 0 = o0.getD k 0
    rw [getD_set, if_neg (by intro h; have := h.1; simp only [] at hk; omega)]
  · intro n st hn hst
    obtain ⟨h1, h2, h3, h4⟩ := hst
    unfold part_indx_step
    simp only []
    by_cases hcl : st.proc_part ≥ chunk ∧ st.prev ≠ rock_indx_extract desc x n dim
    · rw [if_pos hcl]
      have hn0 : 0 < n := by
        rcases Nat.eq_zero_or_pos n with h | h
        · have := h1 h; omega
        · exact h
      refine ⟨fun h => absurd h (by omega), fun _ => by simp, ?_, ?_⟩
      · show st.curr_part + 1 ≤ coord_changes desc x dim (n + 1)
        rw [coord_changes_succ, if_pos ⟨hn0, by rw [← h2 hn0]; exact hcl.2⟩]
        omega
      · intro k hk
        show (st.offset.set (st.curr_part + 1) n).getD k 0 = o0.getD k 0
        have hk' : st.curr_part + 1 < k := hk
        rw [getD_set, if_neg (by intro h; omega)]
        exact h4 k (by omega)
    · rw [if_neg hcl]
      refine ⟨fun h => absurd h (by omega), fun _ => by simp, ?_, h4⟩
      show st.curr_part ≤ coord_changes desc x dim (n + 1)
      rw [coord_changes_succ]
      omega

theorem changes_lt_distinct (c : Nat → Nat) (len : Nat)
    (hs : ∀ j, j < len → ∀ i, i < j → c i ≤ c j) (n : Nat) (h1 : 1 ≤ n) (hn : n ≤ len) :
    (List.range n).countP (fun r => decide (0 < r ∧ c (r - 1) ≠ c r)) + 1 ≤
      ((List.range n).map c).toFinset.card := by
  induction n with
  | zero => omega
  | succ n ih =>
    rcases Nat.eq_zero_or_pos n with h0 | hpos
    · subst h0
      rw [show List.range (0 + 1) = [0] from rfl]
      simp
    · have ih' := ih hpos (by omega)
      rw [countP_range_succ]
      have hset : ((List.range (n + 1)).map c).toFinset =
          insert (c n) ((List.range n).map c).toFinset := by
        rw [List.range_succ, List.map_append, List.toFinset_append]
        ext a
        simp [or_comm]
      rw [hset]
      by_cases hch : c (n - 1) ≠ c n
      · have hnew : c n ∉ ((List.range n).map c).toFinset := by
          intro hmem
          rw [List.mem_toFinset, List.mem_map] at hmem
          obtain ⟨i, hi, he⟩ := hmem
          have hi' := List.mem_range.mp hi
          have a1 : c i ≤ c (n - 1) := by
            rcases Nat.lt_or_ge i (n - 1) with h | h
            · exact hs (n - 1) (by omega) i h
            · have : i = n - 1 := by omega
              rw [this]
          have a2 : c (n - 1) ≤ c n := hs n (by omega) (n - 1) (by omega)
          omega
        rw [Finset.card_insert_of_not_mem hnew]
        have : decide (0 < n ∧ c (n - 1) ≠ c n) = true := by simp [hpos, hch]
        rw [this]
        simp only [if_true]
        omega
      · have : decide (0 < n ∧ c (n - 1) ≠ c n) = false := by simp [hch]
        rw [this]
        have := Finset.card_le_card (Finset.subset_insert (c n) ((List.range n).map c).toFinset)
        simp only [Bool.false_eq_true, if_false, Nat.add_zero]
        omega

/-- C24 (as stated, refuted): a dimension of size 4 and four rows with the same
coordinate 0 (one distinct value, sorted), 2 parts: the call returns `ROCK_OK` with
offsets `[0, 4, 0]`, whatever the uninitialised `prev` holds. -/
theorem part_indx_accepts_few_values :
    distinct_coords (rock_desc_init 32 1 [4]) [0, 0, 0, 0] 0 < 2 ∧
    ∀ prev0, rock_part_indx_based (rock_desc_init 32 1 [4]) (rock_part_init 32 2)
      [0, 0, 0, 0] 0 prev0 = (rock_status.ROCK_OK, ⟨2, [0, 4, 0]⟩) := by
  refine ⟨by decide, ?_⟩
  intro prev0
  rw [part_indx_based_prev _ _ _ _ prev0 (by decide)]
  decide

/-- C24 (amended): `rock_part_indx_based` has no check on the number of distinct
coordinates. For an index array sorted on `dim` that passes the three checks, with
`num_parts ≥ 1`, it returns `ROCK_OK`, and every `offset[k]` with `k` above the
number of distinct coordinates is left as it was: with fewer distinct values than
`num_parts` the entry `offset[num_parts]` is not written. -/
theorem part_indx_few_values (desc : rock_desc_t) (part : rock_part_t) (x : List Nat)
    (dim prev0 : Nat) (hnp : 1 ≤ part.num_parts) (hd : dim < desc.order)
    (hlen : part.num_parts ≤ x.length) (hds : part.num_parts ≤ desc.dim_size.getD dim 0)
    (hs : ∀ j, j < x.length → ∀ i, i < j →
      rock_indx_extract desc x i dim ≤ rock_indx_extract desc x j dim) :
    (rock_part_indx_based desc part x dim prev0).1 = rock_status.ROCK_OK ∧
    ∀ k, distinct_coords desc x dim < k →
      (rock_part_indx_based desc part x dim prev0).2.offset.getD k 0 =
        part.offset.getD k 0 := by
  have hc : 1 ≤ x.length / part.num_parts := (Nat.one_le_div_iff (by omega)).mpr hlen
  obtain ⟨h1, h2⟩ := part_indx_loop_count desc part.offset x dim (x.length / part.num_parts)
    prev0 hc
  have h3 := changes_lt_distinct (fun r => rock_indx_extract desc x r dim) x.length hs x.length
    (by omega) (Nat.le_refl _)
  rw [List.card_toFinset] at h3
  have hcp : (part_indx_loop desc part.offset x dim (x.length / part.num_parts) prev0).curr_part
      + 1 ≤ distinct_coords desc x dim := by
    unfold distinct_coords
    unfold coord_changes at h1
    exact Nat.le_trans (Nat.succ_le_succ h1) h3
  unfold rock_part_indx_based
  rw [if_neg (by omega), if_neg (by omega), if_neg (by omega)]
  refine ⟨rfl, ?_⟩
  intro k hk
  simp only []
  rw [getD_set, if_neg (by intro h; have := h.1; omega)]
  exact h2 k (by omega)

/-- Witness for C24 (amended): five rows with the coordinates `0, 0, 1, 1, 1` (two
distinct values) and a partition object of 3 parts with offsets `[9, 9, 9, 9]`: the
call returns `ROCK_OK` and `offset[3]` is still 9. -/
theorem part_indx_few_values_witness :
    (rock_part_indx_based (rock_desc_init 32 1 [4]) ⟨3, [9, 9, 9, 9]⟩ [0, 0, 1, 1, 1] 0 0).1 =
      rock_status.ROCK_OK ∧
    (rock_part_indx_based (rock_desc_init 32 1 [4]) ⟨3, [9, 9, 9, 9]⟩
      [0, 0, 1, 1, 1] 0 0).2.offset.getD 3 0 = 9 :=
  let h := part_indx_few_values (rock_desc_init 32 1 [4]) ⟨3, [9, 9, 9, 9]⟩ [0, 0, 1, 1, 1] 0 0
    (by decide) (by decide) (by decide) (by decide) (by decide)
  ⟨h.1, h.2 3 (by decide)⟩

/-! ## The sorter validates nothing -/

/-- With a key of total width 0 the loop of `indx_sort_thread` makes no pass and the
caller sees every buffer as it passed it. -/
theorem sort_zero_bits (W R T fuel : Nat) (desc : rock_desc_t) (num_dims : Nat)
    (dims : List Nat) (perm perm_alt : Option (List Nat)) (indx : List Nat)
    (indx_alt : Option (List Nat)) (want_swapped : Bool)
    (h0 : sort_total_bits desc num_dims dims = 0) :
    rock_indx_sort_alt W R T fuel desc num_dims dims perm perm_alt indx indx_alt want_swapped =
      some ⟨indx, indx_alt, perm, perm_alt, false⟩ := by
  have hl : ∀ st : sort_state, st.processed_bits = 0 →
      sort_loop W R T (sort_num_bins W R) desc dims 0 fuel st = some st := by
    intro st _
    cases fuel <;> simp [sort_loop]
  unfold rock_indx_sort_alt indx_sort indx_sort_thread
  simp only []
  rw [h0, hl _ rfl]
  cases perm <;> cases perm_alt <;> cases indx_alt <;>
    simp [sort_cleanup, sort_init, sort_perm_alt]

theorem sched_step (W R T nb : Nat) (desc : rock_desc_t) (dims : List Nat) (m j : Nat)
    (st : sort_state) (hs : sched_at R desc dims m j st)
    (hj : j * R < desc.bit_width.getD (dims.getD m 0) 0) :
    (sort_pass W R T nb desc dims st).first_pass = false ∧
    (sort_pass W R T nb desc dims st).dim_offset = desc.bit_offset.getD (dims.getD m 0) 0 ∧
    (sort_pass W R T nb desc dims st).dim_bits = desc.bit_width.getD (dims.getD m 0) 0 ∧
    (sort_pass W R T nb desc dims st).num_bits =
      min R (desc.bit_width.getD (dims.getD m 0) 0 - j * R) ∧
    (sort_pass W R T nb desc dims st).offset = desc.bit_offset.getD (dims.getD m 0) 0 + j * R +
      min R (desc.bit_width.getD (dims.getD m 0) 0 - j * R) ∧
    (sort_pass W R T nb desc dims st).dim_num = m - 1 ∧
    (sort_pass W R T nb desc dims st).processed_bits = st.processed_bits +
      min R (desc.bit_width.getD (dims.getD m 0) 0 - j * R) ∧
    (sort_pass W R T nb desc dims st).num_passes = st.num_passes + 1 := by
  unfold sched_at at hs
  by_cases hj0 : j = 0
  · subst hj0
    rw [if_pos rfl] at hs
    obtain ⟨hb, hdn⟩ := hs
    have hu : (st.first_pass || (st.offset == st.dim_offset + st.dim_bits)) = true := by
      rcases hb with h | h
      · simp [h]
      · simp [h]
    refine ⟨?_, ?_, ?_, ?_, ?_, ?_, ?_, ?_⟩ <;> unfold sort_pass <;>
      simp only [hu, if_true, hdn, Nat.zero_mul, Nat.add_zero, Nat.sub_zero] <;>
      first | rfl | (split <;> omega)
  · rw [if_neg hj0] at hs
    obtain ⟨hf, hdo, hdb, hoff, hnb, hdn⟩ := hs
    have hu : (st.first_pass || (st.offset == st.dim_offset + st.dim_bits)) = false := by
      rw [hf, Bool.false_or]
      apply beq_false_of_ne
      omega
    refine ⟨?_, ?_, ?_, ?_, ?_, ?_, ?_, ?_⟩ <;> unfold sort_pass <;>
      simp only [hu, Bool.false_eq_true, if_false] <;>
      simp only [hdo, hdb, hoff, hnb, hdn] <;>
      first | rfl | (split <;> omega)

theorem window_count_iff (R w j : Nat) (hR : 1 ≤ R) : j < (w + R - 1) / R ↔ j * R < w := by
  rw [Nat.lt_iff_add_one_le, Nat.le_div_iff_mul_le (by omega), Nat.add_mul]
  omega

theorem dim_windows_drop (R off w j : Nat) (hR : 1 ≤ R) (hj : j * R < w) :
    (dim_windows R off w).drop j =
      (off + j * R, min R (w - j * R)) :: (dim_windows R off w).drop (j + 1) := by
  have hlt : j < (dim_windows R off w).length := by
    simp only [dim_windows, List.length_map, List.length_range]
    exact (window_count_iff R w j hR).mpr hj
  rw [List.drop_eq_getElem_cons hlt]
  congr 1
  simp [dim_windows]

theorem dim_windows_drop_nil (R off w j : Nat) (hR : 1 ≤ R) (hj : w ≤ (j + 1) * R) :
    (dim_windows R off w).drop (j + 1) = [] := by
  apply List.drop_eq_nil_of_le
  simp only [dim_windows, List.length_map, List.length_range]
  have := (window_count_iff R w (j + 1) hR).not
  omega

theorem take_reverse_pred (dims : List Nat) (m : Nat) (h1 : 1 ≤ m) (hm : m ≤ dims.length) :
    (dims.take m).reverse = dims.getD (m - 1) 0 :: (dims.take (m - 1)).reverse := by
  obtain ⟨k, rfl⟩ : ∃ k, m = k + 1 := ⟨m - 1, by omega⟩
  have hk : k < dims.length := by omega
  rw [List.take_succ, List.reverse_append, Nat.add_sub_cancel]
  simp [List.getD_eq_getElem?_getD, List.getElem?_eq_getElem hk]

theorem sched_run (W R T nb : Nat) (desc : rock_desc_t) (dims : List Nat) (hR : 1 ≤ R)
    (hpos : ∀ i, i < dims.length → 0 < desc.bit_width.getD (dims.getD i 0) 0) :
    ∀ fuel m j st, m < dims.length → j * R < desc.bit_width.getD (dims.getD m 0) 0 →
      sched_at R desc dims m j st →
      st.processed_bits = dims_bits desc (dims.drop (m + 1)) + j * R →
      (windows_from R desc dims m j).length ≤ fuel →
      ∃ st', sort_loop W R T nb desc dims (dims_bits desc dims) fuel st = some st' ∧
        sort_loop_windows W R T nb desc dims (dims_bits desc dims) fuel st =
          some (windows_from R desc dims m j) ∧
        st'.num_passes = st.num_passes + (windows_from R desc dims m j).length := by
  intro fuel
  induction fuel with
  | zero =>
    intro m j st _ hj _ _ hf
    exfalso
    unfold windows_from at hf
    rw [dim_windows_drop R _ _ j hR hj] at hf
    simp at hf
  | succ fuel ih =>
    intro m j st hm hj hs hpb hf
    obtain ⟨s1, s2, s3, s4, s5, s6, s7, s8⟩ := sched_step W R T nb desc dims m j st hs hj
    have hdrop := dims_bits_drop desc dims m hm
    have hle := dims_bits_drop_le desc dims m
    have hlt : st.processed_bits < dims_bits desc dims := by omega
    have hwin : pass_window (sort_pass W R T nb desc dims st) =
        (desc.bit_offset.getD (dims.getD m 0) 0 + j * R,
          min R (desc.bit_width.getD (dims.getD m 0) 0 - j * R)) := by
      unfold pass_window
      rw [s4, s5, Nat.add_sub_cancel]
    unfold sort_loop sort_loop_windows
    rw [if_pos hlt, if_pos hlt, hwin]
    have hhead : windows_from R desc dims m j =
        (desc.bit_offset.getD (dims.getD m 0) 0 + j * R,
          min R (desc.bit_width.getD (dims.getD m 0) 0 - j * R)) ::
        ((dim_windows R (desc.bit_offset.getD (dims.getD m 0) 0)
          (desc.bit_width.getD (dims.getD m 0) 0)).drop (j + 1) ++
        ((dims.take m).reverse.map (fun d =>
          dim_windows R (desc.bit_offset.getD d 0) (desc.bit_width.getD d 0))).flatten) := by
      unfold windows_from
      rw [dim_windows_drop R _ _ j hR hj, List.cons_append]
    by_cases hnext : (j + 1) * R < desc.bit_width.getD (dims.getD m 0) 0
    · -- the next window lies in the same dimension
      have hmin : min R (desc.bit_width.getD (dims.getD m 0) 0 - j * R) = R := by
        rw [Nat.add_mul] at hnext; omega
      have hs' : sched_at R desc dims m (j + 1) (sort_pass W R T nb desc dims st) := by
        unfold sched_at
        rw [if_neg (by omega)]
        refine ⟨s1, s2, s3, ?_, ?_, s6⟩
        · rw [s5, hmin, Nat.add_mul]; omega
        · rw [s4, hmin]
      have htail : windows_from R desc dims m (j + 1) =
          (dim_windows R (desc.bit_offset.getD (dims.getD m 0) 0)
            (desc.bit_width.getD (dims.getD m 0) 0)).drop (j + 1) ++
          ((dims.take m).reverse.map (fun d =>
            dim_windows R (desc.bit_offset.getD d 0) (desc.bit_width.getD d 0))).flatten := rfl
      rw [hhead, ← htail] at hf ⊢
      obtain ⟨st', e1, e2, e3⟩ := ih m (j + 1) _ hm hnext hs'
        (by rw [s7, hpb, hmin, Nat.add_mul]; omega) (by simpa using hf)
      refine ⟨st', e1, ?_, ?_⟩
      · rw [e2]; rfl
      · rw [e3, s8, List.length_cons]; omega
    · -- the dimension is finished
      have hmin : min R (desc.bit_width.getD (dims.getD m 0) 0 - j * R) =
          desc.bit_width.getD (dims.getD m 0) 0 - j * R := by
        rw [Nat.add_mul] at hnext; omega
      have hnil := dim_windows_drop_nil R (desc.bit_offset.getD (dims.getD m 0) 0)
        (desc.bit_width.getD (dims.getD m 0) 0) j hR (by omega)
      have hpb1 : (sort_pass W R T nb desc dims st).processed_bits =
          dims_bits desc (dims.drop m) := by
        rw [s7, hpb, hmin, hdrop]; omega
      rcases Nat.eq_zero_or_pos m with hm0 | hmpos
      · -- it was the last dimension: the loop ends
        subst hm0
        have hdone : ¬ (sort_pass W R T nb desc dims st).processed_bits <
            dims_bits desc dims := by
          rw [hpb1, List.drop_zero]; omega
        have hw1 : windows_from R desc dims 0 j =
            [(desc.bit_offset.getD (dims.getD 0 0) 0 + j * R,
              min R (desc.bit_width.getD (dims.getD 0 0) 0 - j * R))] := by
          rw [hhead, hnil]; rfl
        rw [hw1]
        refine ⟨sort_pass W R T nb desc dims st, ?_, ?_, ?_⟩
        · cases fuel <;> simp [sort_loop, hdone]
        · cases fuel <;> simp [sort_loop_windows, hdone]
        · rw [s8]; rfl
      · -- the next window is the first of the dimension before
        have hs' : sched_at R desc dims (m - 1) 0 (sort_pass W R T nb desc dims st) := by
          unfold sched_at
          rw [if_pos rfl]
          refine ⟨Or.inr ?_, s6⟩
          rw [s5, s2, s3, hmin]; omega
        have htail : windows_from R desc dims (m - 1) 0 =
            (dim_windows R (desc.bit_offset.getD (dims.getD m 0) 0)
              (desc.bit_width.getD (dims.getD m 0) 0)).drop (j + 1) ++
            ((dims.take m).reverse.map (fun d =>
              dim_windows R (desc.bit_offset.getD d 0) (desc.bit_width.getD d 0))).flatten := by
          unfold windows_from
          rw [hnil, take_reverse_pred dims m hmpos (by omega)]
          simp
        rw [hhead, ← htail] at hf ⊢
        have hw := hpos (m - 1) (by omega)
        obtain ⟨st', e1, e2, e3⟩ := ih (m - 1) 0 _ (by omega) (by omega) hs'
          (by rw [hpb1, Nat.sub_add_cancel hmpos]; omega) (by simpa using hf)
        refine ⟨st', e1, ?_, ?_⟩
        · rw [e2]; rfl
        · rw [e3, s8, List.length_cons]; omega

theorem windows_from_last (R : Nat) (desc : rock_desc_t) (dims : List Nat)
    (h : 0 < dims.length) :
    windows_from R desc dims (dims.length - 1) 0 = sort_windows desc dims R := by
  unfold windows_from sort_windows
  have := take_reverse_pred dims dims.length h (Nat.le_refl _)
  rw [List.take_length] at this
  rw [this]
  simp

theorem sort_windows_length (desc : rock_desc_t) (dims : List Nat) (R : Nat) :
    (sort_windows desc dims R).length =
      (dims.map (fun d => (desc.bit_width.getD d 0 + R - 1) / R)).sum := by
  unfold sort_windows
  rw [List.length_flatten, List.map_map, List.map_reverse, List.sum_reverse]
  congr 1
  apply List.map_congr_left
  intro d _
  simp [dim_windows]

theorem dim_windows_mem (R off w : Nat) (hR : 1 ≤ R) (win : Nat × Nat)
    (h : win ∈ dim_windows R off w) :
    off ≤ win.1 ∧ win.1 + win.2 ≤ off + w ∧ 1 ≤ win.2 ∧ win.2 = min R (off + w - win.1) := by
  unfold dim_windows at h
  obtain ⟨j, hj, rfl⟩ := List.mem_map.mp h
  have hjw := (window_count_iff R w j hR).mp (List.mem_range.mp hj)
  simp only []
  refine ⟨by omega, by omega, by omega, ?_⟩
  congr 1
  omega

/-- C29: for a dims list whose dimensions all have positive width and a radix width
`R ≥ 1`, whatever the data, the thread count and the buffers: the pass loop of
`indx_sort_thread` ends after exactly `P = sum over d in dims of ceil(width d / R)`
passes (`num_passes = P`, given a bound of at least `P` passes), and the windows of
its passes are, in order, those of `dims[last]`, then `dims[last - 1]`, down to
`dims[0]`, window `j` of a dimension starting at `bit_offset + j * R`; every window
lies inside its dimension and has `min(R, bits remaining in the dimension)` bits. -/
theorem pass_schedule (W R T nb : Nat) (desc : rock_desc_t) (dims : List Nat)
    (perm : Option (List Nat)) (perm_alt indx indx_alt bins : List Nat)
    (hR : 1 ≤ R) (hpos : ∀ d ∈ dims, 0 < desc.bit_width.getD d 0) :
    (sort_windows desc dims R).length =
      (dims.map (fun d => (desc.bit_width.getD d 0 + R - 1) / R)).sum ∧
    (∀ fuel, (sort_windows desc dims R).length ≤ fuel →
      ∃ st, indx_sort_thread W R T nb fuel desc dims.length dims perm perm_alt indx indx_alt
          bins = some st ∧
        st.num_passes = (sort_windows desc dims R).length ∧
        sort_loop_windows W R T nb desc dims (sort_total_bits desc dims.length dims) fuel
          (sort_init dims.length dims perm perm_alt indx indx_alt bins) =
          some (sort_windows desc dims R)) ∧
    (∀ d ∈ dims, ∀ win ∈ dim_windows R (desc.bit_offset.getD d 0) (desc.bit_width.getD d 0),
      desc.bit_offset.getD d 0 ≤ win.1 ∧
      win.1 + win.2 ≤ desc.bit_offset.getD d 0 + desc.bit_width.getD d 0 ∧
      1 ≤ win.2 ∧
      win.2 = min R (desc.bit_offset.getD d 0 + desc.bit_width.getD d 0 - win.1)) := by
  refine ⟨sort_windows_length desc dims R, ?_, ?_⟩
  · intro fuel hf
    unfold indx_sort_thread
    rw [sort_total_bits_eq]
    rcases Nat.eq_zero_or_pos dims.length with h0 | hlen
    · have hd : dims = [] := List.eq_nil_of_length_eq_zero h0
      subst hd
      refine ⟨sort_init 0 [] perm perm_alt indx indx_alt bins, ?_, rfl, ?_⟩
      · cases fuel <;> simp [sort_loop, sort_init, dims_bits]
      · cases fuel <;> simp [sort_loop_windows, sort_init, dims_bits, sort_windows]
    · have hpos' : ∀ i, i < dims.length → 0 < desc.bit_width.getD (dims.getD i 0) 0 := by
        intro i hi
        apply hpos
        rw [List.getD_eq_getElem _ _ hi]
        exact List.getElem_mem _
      rw [← windows_from_last R desc dims hlen] at hf ⊢
      obtain ⟨st', e1, e2, e3⟩ := sched_run W R T nb desc dims hR hpos' fuel (dims.length - 1) 0
        (sort_init dims.length dims perm perm_alt indx indx_alt bins) (by omega)
        (by have := hpos' (dims.length - 1) (by omega); omega)
        (by unfold sched_at; rw [if_pos rfl]; exact ⟨Or.inl rfl, rfl⟩)
        (by
          rw [Nat.sub_add_cancel hlen, List.drop_length]
          simp [sort_init, dims_bits])
        hf
      refine ⟨st', e1, ?_, e2⟩
      rw [e3]
      simp [sort_init]
  · intro d _ win hw
    exact dim_windows_mem R _ _ hR win hw

/-- Witness for C29: the descriptor `[12, 5, 2]` (widths 4, 3, 1 at offsets 0, 4, 7),
`dims = [0, 1]` and radix width 2: four passes with the windows
`(4, 2), (6, 1), (0, 2), (2, 2)`. -/
theorem pass_schedule_witness :
    (sort_windows (rock_desc_init 32 3 [12, 5, 2]) [0, 1] 2).length = 4 ∧
    sort_windows (rock_desc_init 32 3 [12, 5, 2]) [0, 1] 2 = [(4, 2), (6, 1), (0, 2), (2, 2)] ∧
    ∃ st, indx_sort_thread 32 2 1 4 10 (rock_desc_init 32 3 [12, 5, 2]) 2 [0, 1] none []
        [52, 148, 208, 25] [0, 0, 0, 0] [0, 0, 0, 0] = some st ∧
      st.num_passes = (sort_windows (rock_desc_init 32 3 [12, 5, 2]) [0, 1] 2).length :=
  let h := pass_schedule 32 2 1 4 (rock_desc_init 32 3 [12, 5, 2]) [0, 1] none []
    [52, 148, 208, 25] [0, 0, 0, 0] [0, 0, 0, 0] (by decide) (by decide)
  let ⟨st, h1, h2, _⟩ := h.2.1 10 (by decide)
  ⟨by decide, by decide, st, h1, h2⟩

/-! ## Buffer bookkeeping -/

/-- C27 (the code at the failing input): descriptor `[5, 10]`, a multi-partition
fresh from `rock_mpart_init(2, {2, 2})` and no priority dimensions. Slot 0 gets
dimension 1, the largest. For slot 1, dimension 1 is looked up as
`mpart->dim_num[1]`, the still unassigned slot 1, and so counts as not partitioned:
slot 1 gets dimension 1 again, and dimension 0 is never assigned. -/
theorem mpart_assigns_dim_twice :
    (rock_mpart_init 32 2 [2, 2]).order ≤ (rock_desc_init 32 2 [5, 10]).order ∧
    (rock_mpart_desc_based 32 (rock_desc_init 32 2 [5, 10]) (rock_mpart_init 32 2 [2, 2])
      0 []).1 = rock_status.ROCK_OK ∧
    (rock_mpart_desc_based 32 (rock_desc_init 32 2 [5, 10]) (rock_mpart_init 32 2 [2, 2])
      0 []).2.dim_num.take 2 = [1, 1] ∧
    (mpart_desc_step 32 (rock_desc_init 32 2 [5, 10]) 0 [] (rock_mpart_init 32 2 [2, 2])
      0).dim_num.getD 0 0 = 1 ∧
    already_partitioned 32 (mpart_desc_step 32 (rock_desc_init 32 2 [5, 10]) 0 []
      (rock_mpart_init 32 2 [2, 2]) 0) 1 = false := by
  decide

/-! ## Sampling more rows than the domain holds -/

/-- C25: for a descriptor and an index array with `len > total_size`,
`rock_indx_sample`, `rock_indx_sample_sort_discard` and
`rock_indx_sample_shuffle_take` return `ROCK_BAD_INPUT` and the index array is as it
was (no random number is drawn); for `len ≤ total_size` (also `len = total_size`)
whatever they return has the status `ROCK_OK`. -/
theorem sample_rejects_oversized (W R T : Nat) (env : rand_env) (fuel : Nat)
    (desc : rock_desc_t) (indx : List Nat) (n : Nat) :
    (indx.length > desc.total_size →
      rock_indx_sample W R T env fuel desc indx n =
        some (rock_status.ROCK_BAD_INPUT, indx, n) ∧
      rock_indx_sample_sort_discard W R T env fuel desc indx n =
        some (rock_status.ROCK_BAD_INPUT, indx, n) ∧
      rock_indx_sample_shuffle_take W env fuel desc indx n =
        some (rock_status.ROCK_BAD_INPUT, indx, n)) ∧
    (indx.length ≤ desc.total_size →
      (∀ r, rock_indx_sample W R T env fuel desc indx n = some r →
        r.1 = rock_status.ROCK_OK) ∧
      (∀ r, rock_indx_sample_sort_discard W R T env fuel desc indx n = some r →
        r.1 = rock_status.ROCK_OK) ∧
      (∀ r, rock_indx_sample_shuffle_take W env fuel desc indx n = some r →
        r.1 = rock_status.ROCK_OK)) := by
  constructor
  · intro h
    unfold rock_indx_sample rock_indx_sample_sort_discard rock_indx_sample_shuffle_take
    simp only [if_pos h, and_self]
  · intro h
    have hn : ¬ indx.length > desc.total_size := by omega
    unfold rock_indx_sample rock_indx_sample_sort_discard rock_indx_sample_shuffle_take
    simp only [if_neg hn]
    refine ⟨?_, ?_, ?_⟩
    · intro r hr
      obtain ⟨p, _, rfl⟩ := Option.map_eq_some'.mp hr
      rfl
    · intro r hr
      obtain ⟨p, _, rfl⟩ := Option.map_eq_some'.mp hr
      rfl
    · intro r hr
      obtain ⟨p, _, rfl⟩ := Option.map_eq_some'.mp hr
      rfl

/-- Witness for C25: the descriptor `[2, 3]` (`total_size = 6`): seven rows are
rejected, six rows (`len = total_size`) are sampled with status `ROCK_OK` when
`rand()` returns `0, 1, 2, ...`. -/
theorem sample_rejects_oversized_witness :
    rock_indx_sample 32 2 1 rand_counting 20 (rock_desc_init 32 2 [2, 3])
      [0, 0, 0, 0, 0, 0, 0] 0 = some (rock_status.ROCK_BAD_INPUT, [0, 0, 0, 0, 0, 0, 0], 0) ∧
    rock_indx_sample 32 2 1 rand_counting 20 (rock_desc_init 32 2 [2, 3])
      [0, 0, 0, 0, 0, 0] 0 = some (rock_status.ROCK_OK, [0, 2, 4, 1, 3, 5], 10) :=
  ⟨((sample_rejects_oversized 32 2 1 rand_counting 20 (rock_desc_init 32 2 [2, 3])
      [0, 0, 0, 0, 0, 0, 0] 0).1 (by decide)).1, by decide⟩

/-! ## Zero-width keys, reads of `prev`, and bounds -/

/-- C34: when every dimension listed in `dims` has bit width 0, `indx_sort_thread`
returns with `num_passes = 0`, and the caller sees the index array unchanged, the
flag `swapped` false and every buffer it passed, the permutation included, exactly
as before the call (`perm` is not initialised to the identity). -/
theorem sort_zero_width_key (W R T fuel : Nat) (desc : rock_desc_t) (dims : List Nat)
    (perm : Option (List Nat)) (indx : List Nat)
    (h0 : ∀ d, d ∈ dims → desc.bit_width.getD d 0 = 0) :
    (∀ perm_alt0 indx_alt0 bins, ∃ st,
      indx_sort_thread W R T (sort_num_bins W R) fuel desc dims.length dims perm perm_alt0
        indx indx_alt0 bins = some st ∧ st.num_passes = 0 ∧ st.indx = indx ∧
        st.perm = perm) ∧
    rock_indx_sort W R T fuel desc dims.length dims perm indx =
      some ⟨indx, none, perm, none, false⟩ ∧
    ∀ perm_alt indx_alt want_swapped,
      rock_indx_sort_alt W R T fuel desc dims.length dims perm perm_alt indx indx_alt
        want_swapped = some ⟨indx, indx_alt, perm, perm_alt, false⟩ := by
  have hb : dims_bits desc dims = 0 := by
    unfold dims_bits
    rw [List.sum_eq_zero]
    intro v hv
    obtain ⟨d, hd, rfl⟩ := List.mem_map.mp hv
    exact h0 d hd
  have ht : sort_total_bits desc dims.length dims = 0 := by rw [sort_total_bits_eq, hb]
  refine ⟨?_, ?_, ?_⟩
  · intro perm_alt0 indx_alt0 bins
    exact ⟨_, indx_sort_thread_zero W R T _ fuel desc dims perm perm_alt0 indx indx_alt0 bins hb,
      rfl, rfl, rfl⟩
  · exact sort_zero_bits W R T fuel desc dims.length dims perm none indx none false ht
  · intro perm_alt indx_alt want_swapped
    exact sort_zero_bits W R T fuel desc dims.length dims perm perm_alt indx indx_alt
      want_swapped ht

/-- C34 at a concrete input: a one-dimensional descriptor of size 1, two rows and a
permutation buffer holding `[7, 7]`: the buffer comes back as `[7, 7]`. -/
theorem sort_zero_width_key_witness :
    rock_indx_sort 32 8 2 0 (rock_desc_init 32 1 [1]) 1 [0] (some [7, 7]) [0, 0] =
      some ⟨[0, 0], none, some [7, 7], none, false⟩ :=
  (sort_zero_width_key 32 8 2 0 (rock_desc_init 32 1 [1]) [0] (some [7, 7]) [0, 0]
    (by decide)).2.1

theorem part_indx_loop_first (desc : rock_desc_t) (o0 x : List Nat) (dim chunk prev0 : Nat) :
    (part_indx_loop desc o0 x dim chunk prev0).offset.getD 0 0 = 0 := by
  have key := range_fold_inv x.length (part_indx_step desc x dim chunk)
    (fun _ st => st.offset.getD 0 0 = 0)
    { offset := o0.set 0 0, curr_part := 0, proc_part := 0, prev := prev0 } ?_ ?_
  · exact key
  · show (o0.set 0 0).getD 0 0 = 0
    rw [getD_set]
    split
    · rfl
    · rename_i h
      have : ¬ 0 < o0.length := fun hl => h ⟨rfl, hl⟩
      have : o0 = [] := List.length_eq_zero.mp (by omega)
      rw [this]; rfl
  · intro n st _ hst
    unfold part_indx_step
    simp only []
    split
    · show (st.offset.set (st.curr_part + 1) n).getD 0 0 = 0
      rw [getD_set, if_neg (by intro h; have := h.1; omega)]
      exact hst
    · exact hst

/-- C32: for `num_parts ≥ 1` the result of `rock_part_indx_based` is the same for
every value of the uninitialised local `prev`; when the checks pass, the first
iteration of the loop (`proc_part = 0 < chunk`) takes the branch that does not
compare with `prev`, and `offset[0]` is 0 after the call. -/
theorem part_indx_prev_not_read (desc : rock_desc_t) (part : rock_part_t) (x : List Nat)
    (dim prev0 prev1 : Nat) (hnp : 1 ≤ part.num_parts) :
    rock_part_indx_based desc part x dim prev0 = rock_part_indx_based desc part x dim prev1 ∧
    ((rock_part_indx_based desc part x dim prev0).1 = rock_status.ROCK_OK →
      (rock_part_indx_based desc part x dim prev0).2.offset.getD 0 0 = 0 ∧
      ∀ o : List Nat, part_indx_step desc x dim (x.length / part.num_parts)
          { offset := o, curr_part := 0, proc_part := 0, prev := prev0 } 0 =
        { offset := o, curr_part := 0, proc_part := 1,
          prev := rock_indx_extract desc x 0 dim }) := by
  refine ⟨?_, ?_⟩
  · rw [part_indx_based_prev desc part x dim prev0 hnp,
      part_indx_based_prev desc part x dim prev1 hnp]
  · unfold rock_part_indx_based
    by_cases g1 : dim ≥ desc.order
    · rw [if_pos g1]; intro h; exact absurd h (fun h => rock_status.noConfusion h)
    rw [if_neg g1]
    by_cases g2 : x.length < part.num_parts
    · rw [if_pos g2]; intro h; exact absurd h (fun h => rock_status.noConfusion h)
    rw [if_neg g2]
    by_cases g3 : desc.dim_size.getD dim 0 < part.num_parts
    · rw [if_pos g3]; intro h; exact absurd h (fun h => rock_status.noConfusion h)
    rw [if_neg g3]
    intro _
    have hc : 1 ≤ x.length / part.num_parts := (Nat.one_le_div_iff (by omega)).mpr (by omega)
    refine ⟨?_, ?_⟩
    · simp only []
      rw [getD_set, if_neg (by intro h; have := h.1; omega)]
      exact part_indx_loop_first desc part.offset x dim _ prev0
    · intro o
      unfold part_indx_step
      simp only []
      rw [if_neg (by intro h; have := h.1; omega)]

/-- C32 at concrete inputs with `num_parts = 1` and `len = num_parts`: one row, one
part, two different values of the uninitialised `prev`. -/
theorem part_indx_prev_not_read_witness :
    rock_part_indx_based (rock_desc_init 32 1 [8]) (rock_part_init 32 1) [5] 0 5 =
      rock_part_indx_based (rock_desc_init 32 1 [8]) (rock_part_init 32 1) [5] 0 0 ∧
    rock_part_indx_based (rock_desc_init 32 1 [8]) (rock_part_init 32 1) [5] 0 0 =
      (rock_status.ROCK_OK, ⟨1, [0, 1]⟩) :=
  ⟨(part_indx_prev_not_read (rock_desc_init 32 1 [8]) (rock_part_init 32 1) [5] 0 5 0
    (by decide)).1, by decide⟩

/-- C36: for `num_parts ≥ 1` and any index array, after every number `n ≤ len` of
iterations of the loop of `rock_part_indx_based` fewer than `num_parts` boundaries
have been closed, so every write `offset[curr_part + 1]` inside the loop and the
final write after it address an entry `≤ num_parts` of the `num_parts + 1` entries. -/
theorem part_indx_no_overrun (desc : rock_desc_t) (o0 x : List Nat) (dim prev0 np : Nat)
    (hnp : 1 ≤ np) :
    (∀ n, n ≤ x.length →
      ((List.range n).foldl (part_indx_step desc x dim (x.length / np))
        { offset := o0.set 0 0, curr_part := 0, proc_part := 0, prev := prev0 }).curr_part + 1
        ≤ np) ∧
    (part_indx_loop desc o0 x dim (x.length / np) prev0).curr_part + 1 ≤ np ∧
    (part_indx_loop desc o0 x dim (x.length / np) prev0).offset.length = o0.length := by
  have main : ∀ n, n ≤ x.length →
      ((List.range n).foldl (part_indx_step desc x dim (x.length / np))
        { offset := o0.set 0 0, curr_part := 0, proc_part := 0, prev := prev0 }).curr_part + 1
        ≤ np ∧
      ((List.range n).foldl (part_indx_step desc x dim (x.length / np))
        { offset := o0.set 0 0, curr_part := 0, proc_part := 0, prev := prev0 }).offset.length
        = o0.length := by
    intro n hn
    have key := range_fold_inv n (part_indx_step desc x dim (x.length / np))
      (fun m st => st.curr_part * (x.length / np + 1) + st.proc_part ≤ m ∧
        st.offset.length = o0.length)
      { offset := o0.set 0 0, curr_part := 0, proc_part := 0, prev := prev0 } ?_ ?_
    · refine ⟨?_, key.2⟩
      generalize ((List.range n).foldl (part_indx_step desc x dim (x.length / np))
        { offset := o0.set 0 0, curr_part := 0, proc_part := 0, prev := prev0 }) = st at key
      have h1 : st.curr_part * (x.length / np + 1) ≤ x.length := by omega
      have h2 : x.length < np * (x.length / np + 1) := by
        have := Nat.lt_mul_div_succ x.length (show 0 < np by omega)
        simpa [Nat.succ_eq_add_one, Nat.mul_add] using this
      have h3 : st.curr_part * (x.length / np + 1) < np * (x.length / np + 1) := by omega
      have := Nat.lt_of_mul_lt_mul_right h3
      omega
    · exact ⟨by simp, by simp⟩
    · intro m st _ hst
      unfold part_indx_step
      simp only []
      split
      · rename_i hcl
        refine ⟨?_, ?_⟩
        · show (st.curr_part + 1) * (x.length / np + 1) + 0 ≤ m + 1
          have := hcl.1
          rw [Nat.add_mul]
          omega
        · show (st.offset.set (st.curr_part + 1) m).length = o0.length
          rw [List.length_set]; exact hst.2
      · exact ⟨by show st.curr_part * (x.length / np + 1) + (st.proc_part + 1) ≤ m + 1; omega,
          hst.2⟩
  exact ⟨fun n hn => (main n hn).1, (main x.length (Nat.le_refl _)).1,
    (main x.length (Nat.le_refl _)).2⟩

/-- C36 at a concrete input: six unsorted rows, three parts, offsets fresh from
`rock_part_init`: the loop closes at most two boundaries. -/
theorem part_indx_no_overrun_witness :
    (part_indx_loop (rock_desc_init 32 1 [8]) (rock_part_init 32 3).offset [3, 1, 4, 1, 5, 2] 0
      (6 / 3) 9).curr_part + 1 ≤ 3 :=
  (part_indx_no_overrun (rock_desc_init 32 1 [8]) (rock_part_init 32 3).offset
    [3, 1, 4, 1, 5, 2] 0 9 3 (by decide)).2.1

/-- C31 (the code at the failing input): one dimension of size 8, the six rows
`0, 1, ..., 5` and three parts, so `chunk = 2`.  The call returns offsets
`[0, 2, 5, 6]`: the first boundary is the least change position `≥ chunk`, but the
second is 5 although position `4 = offset[1] + chunk` already has a coordinate
different from its predecessor; the later part is closed only after `chunk + 1`
rows. -/
theorem part_indx_later_parts_longer :
    (∀ prev0, rock_part_indx_based (rock_desc_init 32 1 [8]) (rock_part_init 32 3)
      [0, 1, 2, 3, 4, 5] 0 prev0 = (rock_status.ROCK_OK, ⟨3, [0, 2, 5, 6]⟩)) ∧
    [0, 2, 5, 6].getD 1 0 + 6 / 3 ≤ 4 ∧ 4 < [0, 2, 5, 6].getD 2 0 ∧
    rock_indx_extract (rock_desc_init 32 1 [8]) [0, 1, 2, 3, 4, 5] 4 0 ≠
      rock_indx_extract (rock_desc_init 32 1 [8]) [0, 1, 2, 3, 4, 5] 3 0 := by
  refine ⟨?_, by decide, by decide, by decide⟩
  intro prev0
  rw [part_indx_based_prev _ _ _ _ prev0 (by decide)]
  decide

theorem upkd_pack_accesses_mem (desc : rock_desc_t) (upkd : List Nat) (p : Nat × Nat) :
    p ∈ upkd_pack_accesses desc upkd ↔
      ∃ i k, i < upkd.length ∧ k < desc.order ∧ p = (i, i * desc.order + k) := by
  unfold upkd_pack_accesses
  simp only [List.mem_flatten, List.mem_map, List.mem_range]
  constructor
  · rintro ⟨l, ⟨i, hi, rfl⟩, hp⟩
    simp only [List.mem_map, List.mem_range] at hp
    obtain ⟨k, hk, rfl⟩ := hp
    exact ⟨i, k, hi, hk, rfl⟩
  · rintro ⟨i, k, hi, hk, rfl⟩
    exact ⟨_, ⟨i, hi, rfl⟩, by simp only [List.mem_map, List.mem_range]; exact ⟨k, hk, rfl⟩⟩

/-- For a descriptor of order 1 every access of `rock_upkd_pack` is in bounds. -/
theorem upkd_pack_accesses_order_one (desc : rock_desc_t) (len : Nat) (ho : desc.order = 1)
    (p : Nat × Nat) (hp : p ∈ upkd_pack_accesses desc (rock_upkd_init desc len)) :
    p.1 < len ∧ p.2 < len * desc.order := by
  obtain ⟨i, k, hi, hk, rfl⟩ := (upkd_pack_accesses_mem desc _ p).mp hp
  unfold rock_upkd_init at hi
  rw [List.length_replicate, ho] at hi
  rw [ho] at hk ⊢
  simp only []
  omega

/-- C35 (the code at the failing input): descriptor `[2, 2]` (order 2), one row:
`rock_upkd_init(desc, 1)` has 2 entries and the index array 1 word, and the outer
loop of `rock_upkd_pack` runs over the 2 entries, so its accesses include
`indx.v[1]` and `upkd.v[2]`, `upkd.v[3]`, all out of bounds. -/
theorem upkd_pack_out_of_bounds :
    (rock_indx_init 1).length = 1 ∧
    (rock_upkd_init (rock_desc_init 32 2 [2, 2]) 1).length = 1 * 2 ∧
    upkd_pack_accesses (rock_desc_init 32 2 [2, 2])
        (rock_upkd_init (rock_desc_init 32 2 [2, 2]) 1) =
      [(0, 0), (0, 1), (1, 2), (1, 3)] ∧
    (1, 2) ∈ upkd_pack_accesses (rock_desc_init 32 2 [2, 2])
        (rock_upkd_init (rock_desc_init 32 2 [2, 2]) 1) ∧
    ¬ (1 < (rock_indx_init 1).length) ∧
    ¬ (2 < (rock_upkd_init (rock_desc_init 32 2 [2, 2]) 1).length) := by
  decide

/-! ## Part numbers: range and injectivity -/

theorem part_search_least (offset : List Nat) (c n : Nat) (hn : c < offset.getD n 0) :
    ∀ fuel a, a < n → n - a ≤ fuel →
      ∃ p, part_search offset c fuel a = some p ∧ a ≤ p ∧ p < n ∧
        c < offset.getD (p + 1) 0 ∧
        (∀ k, a ≤ k → k < p → offset.getD (k + 1) 0 ≤ c) ∧
        ∀ r, r ∈ part_search_reads offset c fuel a → r ≤ p + 1 := by
  intro fuel
  induction fuel with
  | zero => intro a h1 h2; omega
  | succ fuel ih =>
    intro a ha hf
    unfold part_search part_search_reads
    by_cases hc : c ≥ offset.getD (a + 1) 0
    · rw [if_pos hc, if_pos hc]
      have ha1 : a + 1 < n := by
        rcases Nat.lt_or_ge (a + 1) n with h | h
        · exact h
        · have : a + 1 = n := by omega
          rw [this] at hc; omega
      obtain ⟨p, h1, h2, h3, h4, h5, h6⟩ := ih (a + 1) ha1 (by omega)
      refine ⟨p, h1, by omega, h3, h4, ?_, ?_⟩
      · intro k hk1 hk2
        rcases Nat.eq_or_lt_of_le hk1 with h | h
        · rw [← h]; exact hc
        · exact h5 k (by omega) hk2
      · intro r hr
        rcases List.mem_cons.mp hr with h | h
        · omega
        · exact h6 r h
    · rw [if_neg hc, if_neg hc]
      refine ⟨a, rfl, Nat.le_refl _, ha, by omega, fun k h1 h2 => by omega, ?_⟩
      intro r hr
      rcases List.mem_cons.mp hr with h | h
      · omega
      · cases h

theorem part_num_formula_inj (np p q : Nat → Nat) (n : Nat)
    (hp : ∀ j, j < n → p j < np j) (hq : ∀ j, j < n → q j < np j)
    (h : part_num_formula np p n = part_num_formula np q n) : ∀ j, j < n → p j = q j := by
  induction n with
  | zero => intro j hj; omega
  | succ n ih =>
    rw [part_num_formula_succ, part_num_formula_succ] at h
    have h1 := part_num_formula_lt np p n (fun j hj => hp j (by omega))
    have h2 := part_num_formula_lt np q n (fun j hj => hq j (by omega))
    have hpn : p n = q n := by
      rcases Nat.lt_trichotomy (p n) (q n) with hlt | heq | hlt
      · have := Nat.mul_le_mul_left (parts_before np n) (show p n + 1 ≤ q n by omega)
        rw [Nat.mul_succ] at this
        omega
      · exact heq
      · have := Nat.mul_le_mul_left (parts_before np n) (show q n + 1 ≤ p n by omega)
        rw [Nat.mul_succ] at this
        omega
    rw [hpn] at h
    have h3 : part_num_formula np p n = part_num_formula np q n := by omega
    intro j hj
    rcases Nat.eq_or_lt_of_le (Nat.lt_succ_iff.mp hj) with h4 | h4
    · rw [h4]; exact hpn
    · exact ih (fun j hj => hp j (by omega)) (fun j hj => hq j (by omega)) h3 j h4

theorem part_num_of_search (W fuel : Nat) (mpart : rock_mpart_t) (indx : List Nat)
    (i : Nat) (pidx : Nat → Nat)
    (hs : ∀ j, j < mpart.order →
      part_search (mpart.dim_part.getD j ⟨0, []⟩).offset (mpart_coord mpart indx i j) fuel 0 =
        some (pidx j)) :
    rock_part_num_from_mpart W fuel mpart indx i =
      some (part_num_formula (mpart_np mpart) pidx mpart.order % 2 ^ W) := by
  obtain ⟨pi, hpi, hget⟩ := mpart_search_fold fuel mpart indx i pidx hs
  unfold rock_part_num_from_mpart
  rw [hpi, Option.map_some', mpart_part_num_eq,
    part_num_formula_congr _ _ pidx _ hget]

theorem part_search_slot (fuel : Nat) (mpart : rock_mpart_t) (indx : List Nat) (i : Nat)
    (hnp : ∀ j, j < mpart.order → 1 ≤ mpart_np mpart j)
    (hlast : ∀ j, j < mpart.order →
      mpart_coord mpart indx i j < mpart_offset mpart j (mpart_np mpart j))
    (hfuel : ∀ j, j < mpart.order → mpart_np mpart j ≤ fuel) :
    ∃ p : Nat → Nat, ∀ j, j < mpart.order →
      part_search (mpart.dim_part.getD j ⟨0, []⟩).offset (mpart_coord mpart indx i j) fuel 0 =
        some (p j) ∧ p j < mpart_np mpart j ∧
      (∀ r, r ∈ part_search_reads (mpart.dim_part.getD j ⟨0, []⟩).offset
        (mpart_coord mpart indx i j) fuel 0 → r ≤ mpart_np mpart j) := by
  have hex : ∀ j, ∃ p, j < mpart.order →
      part_search (mpart.dim_part.getD j ⟨0, []⟩).offset (mpart_coord mpart indx i j) fuel 0 =
        some p ∧ p < mpart_np mpart j ∧
      (∀ r, r ∈ part_search_reads (mpart.dim_part.getD j ⟨0, []⟩).offset
        (mpart_coord mpart indx i j) fuel 0 → r ≤ mpart_np mpart j) := by
    intro j
    by_cases hj : j < mpart.order
    · obtain ⟨p, h1, _, h3, _, _, h6⟩ := part_search_least
        (mpart.dim_part.getD j ⟨0, []⟩).offset (mpart_coord mpart indx i j) (mpart_np mpart j)
        (hlast j hj) fuel 0 (hnp j hj) (by have := hfuel j hj; omega)
      exact ⟨p, fun _ => ⟨h1, h3, fun r hr => by have := h6 r hr; omega⟩⟩
    · exact ⟨0, fun h => absurd h hj⟩
  choose p hp using hex
  exact ⟨p, hp⟩

/-- C38 (as stated, refuted): on a 32-bit word, the multi-partition of 17 slots with
`4 ^ 16 * 2 = 2 ^ 33` parts and the rows `0` and `65536` (coordinate 1 on dimension
16): all offsets are strictly increasing and every coordinate is below the last
offset of its slot; both rows get part number 0 although their part indices in slot
16 are 0 and 1. -/
theorem part_num_not_injective_when_wrapping :
    (∀ j, j < 17 → ∀ k, k < mpart_np mpart_wide j →
      mpart_offset mpart_wide j k < mpart_offset mpart_wide j (k + 1)) ∧
    (∀ j, j < 17 → mpart_coord mpart_wide [0, 65536] 0 j <
      mpart_offset mpart_wide j (mpart_np mpart_wide j)) ∧
    (∀ j, j < 17 → mpart_coord mpart_wide [0, 65536] 1 j <
      mpart_offset mpart_wide j (mpart_np mpart_wide j)) ∧
    rock_part_num_from_mpart 32 8 mpart_wide [0, 65536] 0 = some 0 ∧
    rock_part_num_from_mpart 32 8 mpart_wide [0, 65536] 1 = some 0 ∧
    part_search (mpart_wide.dim_part.getD 16 ⟨0, []⟩).offset
      (mpart_coord mpart_wide [0, 65536] 0 16) 8 0 = some 0 ∧
    part_search (mpart_wide.dim_part.getD 16 ⟨0, []⟩).offset
      (mpart_coord mpart_wide [0, 65536] 1 16) 8 0 = some 1 := by
  refine ⟨by decide, by decide, by decide, by decide, by decide, by decide, by decide⟩

/-- C38 (amended): for a multi-partition in which every slot has at least one part
and two rows whose coordinate on each partitioned dimension is below the last
offset of its slot, every search loop of `rock_part_num_from_mpart` stops with a
part index `< num_parts_j` and reads no entry of `offset` beyond
`offset[num_parts_j]`; when the product of all `num_parts` is at most `2 ^ W`, the
returned part numbers are below that product and are equal exactly when the part
indices of the two rows agree in every slot. -/
theorem part_num_in_range_injective (W fuel : Nat) (mpart : rock_mpart_t) (indx : List Nat)
    (i1 i2 : Nat)
    (hnp : ∀ j, j < mpart.order → 1 ≤ mpart_np mpart j)
    (hlast1 : ∀ j, j < mpart.order →
      mpart_coord mpart indx i1 j < mpart_offset mpart j (mpart_np mpart j))
    (hlast2 : ∀ j, j < mpart.order →
      mpart_coord mpart indx i2 j < mpart_offset mpart j (mpart_np mpart j))
    (hfuel : ∀ j, j < mpart.order → mpart_np mpart j ≤ fuel)
    (hprod : parts_before (mpart_np mpart) mpart.order ≤ 2 ^ W) :
    ∃ (p1 p2 : Nat → Nat) (n1 n2 : Nat),
      (∀ j, j < mpart.order →
        part_search (mpart.dim_part.getD j ⟨0, []⟩).offset (mpart_coord mpart indx i1 j)
          fuel 0 = some (p1 j) ∧ p1 j < mpart_np mpart j ∧
        (∀ r, r ∈ part_search_reads (mpart.dim_part.getD j ⟨0, []⟩).offset
          (mpart_coord mpart indx i1 j) fuel 0 → r ≤ mpart_np mpart j)) ∧
      (∀ j, j < mpart.order →
        part_search (mpart.dim_part.getD j ⟨0, []⟩).offset (mpart_coord mpart indx i2 j)
          fuel 0 = some (p2 j) ∧ p2 j < mpart_np mpart j ∧
        (∀ r, r ∈ part_search_reads (mpart.dim_part.getD j ⟨0, []⟩).offset
          (mpart_coord mpart indx i2 j) fuel 0 → r ≤ mpart_np mpart j)) ∧
      rock_part_num_from_mpart W fuel mpart indx i1 = some n1 ∧
      rock_part_num_from_mpart W fuel mpart indx i2 = some n2 ∧
      n1 < parts_before (mpart_np mpart) mpart.order ∧
      n2 < parts_before (mpart_np mpart) mpart.order ∧
      (n1 = n2 ↔ ∀ j, j < mpart.order → p1 j = p2 j) := by
  obtain ⟨p1, hp1⟩ := part_search_slot fuel mpart indx i1 hnp hlast1 hfuel
  obtain ⟨p2, hp2⟩ := part_search_slot fuel mpart indx i2 hnp hlast2 hfuel
  have l1 := part_num_formula_lt (mpart_np mpart) p1 mpart.order (fun j hj => (hp1 j hj).2.1)
  have l2 := part_num_formula_lt (mpart_np mpart) p2 mpart.order (fun j hj => (hp2 j hj).2.1)
  refine ⟨p1, p2, part_num_formula (mpart_np mpart) p1 mpart.order,
    part_num_formula (mpart_np mpart) p2 mpart.order, hp1, hp2, ?_, ?_, l1, l2, ?_⟩
  · rw [part_num_of_search W fuel mpart indx i1 p1 (fun j hj => (hp1 j hj).1),
      Nat.mod_eq_of_lt (by omega)]
  · rw [part_num_of_search W fuel mpart indx i2 p2 (fun j hj => (hp2 j hj).1),
      Nat.mod_eq_of_lt (by omega)]
  · constructor
    · intro h
      exact part_num_formula_inj (mpart_np mpart) p1 p2 mpart.order
        (fun j hj => (hp1 j hj).2.1) (fun j hj => (hp2 j hj).2.1) h
    · intro h
      exact part_num_formula_congr _ _ _ _ h

/-- Witness for C38 (amended): the descriptor `[4, 6]` with parts `[0, 2, 4]` and
`[0, 2, 4, 6]`, rows `(3, 2)` and `(1, 5)`: part numbers 3 and 4, both below 6. -/
theorem part_num_in_range_injective_witness :
    ∃ (p1 p2 : Nat → Nat) (n1 n2 : Nat),
      (∀ j, j < 2 → part_search (mpart_small.dim_part.getD j ⟨0, []⟩).offset
        (mpart_coord mpart_small [11, 21] 0 j) 8 0 = some (p1 j)) ∧
      (∀ j, j < 2 → part_search (mpart_small.dim_part.getD j ⟨0, []⟩).offset
        (mpart_coord mpart_small [11, 21] 1 j) 8 0 = some (p2 j)) ∧
      rock_part_num_from_mpart 32 8 mpart_small [11, 21] 0 = some n1 ∧
      rock_part_num_from_mpart 32 8 mpart_small [11, 21] 1 = some n2 ∧
      n1 < 6 ∧ n2 < 6 ∧ (n1 = n2 ↔ ∀ j, j < 2 → p1 j = p2 j) :=
  let ⟨p1, p2, n1, n2, h1, h2, h3, h4, h5, h6, h7⟩ :=
    part_num_in_range_injective 32 8 mpart_small [11, 21] 0 1 (by decide) (by decide)
      (by decide) (by decide) (by decide)
  ⟨p1, p2, n1, n2, fun j hj => (h1 j hj).1, fun j hj => (h2 j hj).1, h3, h4, h5, h6, h7⟩

/-! ## Sorting by all dimensions in reverse order -/

theorem dims_bits_rev_range (W order : Nat) (ds : List Nat) (n : Nat) (hn : n ≤ order) :
    dims_bits (rock_desc_init W order ds) (List.range n).reverse = init_offset ds n := by
  induction n with
  | zero => rfl
  | succ n ih =>
    rw [List.range_succ, List.reverse_append, List.reverse_singleton, List.singleton_append,
      dims_bits_cons, ih (by omega), (desc_getD W order ds n (by omega)).1, init_offset_succ]
    omega

/-- The composite key on the dimensions `n-1, ..., 1, 0` is the word reduced to its
low `bit_offset[n]` bits. -/
theorem sort_key_rev_range (W order : Nat) (ds : List Nat) (w n : Nat) (hn : n ≤ order) :
    sort_key (rock_desc_init W order ds) (List.range n).reverse w =
      w % 2 ^ init_offset ds n := by
  induction n with
  | zero => simp [sort_key, init_offset, Nat.mod_one]
  | succ n ih =>
    rw [List.range_succ, List.reverse_append, List.reverse_singleton, List.singleton_append,
      sort_key, ih (by omega), dims_bits_rev_range W order ds n (by omega), init_offset_succ,
      mod_pow_add]
    unfold dim_coord
    rw [(desc_getD W order ds n (by omega)).1, (desc_getD W order ds n (by omega)).2.1]
    rw [Nat.mul_comm, Nat.add_comm]

/-- With a key of at least one bit, sorting by the dimensions `order-1, ..., 1, 0`
arranges words below `2 ^ (summed width)` in stable order of their value. -/
theorem sort_reverse_dims_numeric (W R T order : Nat) (ds x : List Nat)
    (perm : Option (List Nat))
    (hT : 1 ≤ T) (hR : 1 ≤ R) (hcfg : T * 2 ^ R < 2 ^ W)
    (hfit : (rock_desc_init W order ds).bit_width.sum ≤ W)
    (hpos : 0 < (rock_desc_init W order ds).bit_width.sum)
    (hx : ∀ i, i < x.length → x.getD i 0 < 2 ^ (rock_desc_init W order ds).bit_width.sum)
    (hperm : ∀ p, perm = some p → p.length = x.length) :
    ∃ r σ, (∀ fuel, (rock_desc_init W order ds).bit_width.sum + order ≤ fuel →
        rock_indx_sort W R T fuel (rock_desc_init W order ds) order (List.range order).reverse
          perm x = some r) ∧
      sorted_inv (fun w => w) x r.indx σ ∧
      (∀ p, perm = some p → ∃ q, r.perm = some q ∧ q.length = x.length ∧
        ∀ i, i < x.length → q.getD i 0 = σ i) := by
  have hdims : ∀ dm ∈ (List.range order).reverse, dm < order := by
    intro dm hdm
    exact List.mem_range.mp (List.mem_reverse.mp hdm)
  have hlen : (List.range order).reverse.length = order := by simp
  have hbits : dims_bits (rock_desc_init W order ds) (List.range order).reverse =
      (rock_desc_init W order ds).bit_width.sum := by
    rw [dims_bits_rev_range W order ds order (Nat.le_refl _), desc_width_sum]
  obtain ⟨r, hr, hpost, _⟩ := rock_indx_sort_post W R T (rock_desc_init W order ds)
    (List.range order).reverse x perm hT hR hcfg
    (desc_fields_fit W order ds _ hfit hdims) hperm
  rw [hlen, hbits] at hr
  unfold sort_post at hpost
  rw [hbits, if_neg (by omega)] at hpost
  obtain ⟨σ, hs, hp⟩ := hpost
  refine ⟨r, σ, hr, ?_, ?_⟩
  · obtain ⟨h1, h2, h3⟩ := hs
    refine ⟨h1, h2, ?_⟩
    intro i j hij hj
    have hk : ∀ k, k < x.length →
        sort_key (rock_desc_init W order ds) (List.range order).reverse (r.indx.getD k 0) =
          r.indx.getD k 0 := by
      intro k hk
      rw [sort_key_rev_range W order ds _ order (Nat.le_refl _), ← desc_width_sum W order ds]
      apply Nat.mod_eq_of_lt
      rw [(h2 k hk).2]
      exact hx _ (h2 k hk).1
    have := h3 i j hij hj
    rw [hk i (by omega), hk j hj] at this
    exact this
  · intro p hpp
    rw [hpp] at hp
    exact hp

/-- C37 (the code at the failing input): descriptor `[1, 1]` (two dimensions of
width 0, summed width 0), `dims = [1, 0]`, three rows `0` and a permutation fresh
from `rock_perm_init`: the words come back in order, but the permutation is
returned as `[0, 0, 0]`, not the identity `[0, 1, 2]` of a stable sort. -/
theorem sort_reverse_dims_zero_width :
    (rock_desc_init 32 2 [1, 1]).bit_width.sum = 0 ∧
    (∀ fuel, rock_indx_sort 32 8 1 fuel (rock_desc_init 32 2 [1, 1]) 2 (List.range 2).reverse
      (some (rock_perm_init 3)) [0, 0, 0] =
        some ⟨[0, 0, 0], none, some [0, 0, 0], none, false⟩) ∧
    [0, 0, 0] ≠ List.range 3 := by
  refine ⟨by decide, ?_, by decide⟩
  intro fuel
  exact sort_zero_bits 32 8 1 fuel (rock_desc_init 32 2 [1, 1]) 2 (List.range 2).reverse
    (some (rock_perm_init 3)) none [0, 0, 0] none false (by decide)

/-! ## Linear value to multi-index (`rock_val_to_indx`) -/

theorem total_size_le (W order : Nat) (ds : List Nat) (h : 1 ≤ order) :
    (rock_desc_init W order ds).total_size =
      parts_before (fun j => ds.getD j 0) order % 2 ^ W := by
  rw [rock_desc_init_eq]
  simp only []
  rw [if_neg (by omega)]
  rfl

/-- One iteration on the level of values: the new virtual array is the old one with
positions `i` and `k` exchanged, or (when position `i` holds the value 0 and
position `k` is untouched) the old one. -/
theorem shuffle_value_step (range i k pz v pz1 ai pz2 : Nat) (s : Nat → Nat)
    (hi : 1 ≤ i) (hik : i ≤ k) (hk : k < range)
    (hv : v = if s i = 0 then (if i = pz then 0 else i) else s i)
    (hpz1 : pz1 = if s i = 0 ∧ i = pz then k else pz)
    (hai : ai = if s k = 0 then (if k = pz1 then 0 else k) else s k)
    (hpz2 : pz2 = if s k = 0 then (if k = pz1 then v else pz1) else pz1)
    (hinj : ∀ j1 j2, j1 < range → j2 < range →
      shuffle_value i pz s j1 = shuffle_value i pz s j2 → j1 = j2)
    (j : Nat) (hj : j < range) :
    shuffle_value (i + 1) pz2 (fun j => if j = k then v else if j = i then ai else s j) j =
    shuffle_value i pz s
      (if s i = 0 ∧ i = pz ∧ s k = 0 then j
       else if j = i then k else if j = k then i else j) := by
  have hDi : ∀ m, i ≤ m → shuffle_value i pz s m =
      if s m = 0 then (if m = pz then 0 else m) else s m := by
    intro m hm
    unfold shuffle_value
    rw [if_neg (by omega)]
  have hDlt : ∀ m, m < i → shuffle_value i pz s m = s m := by
    intro m hm
    unfold shuffle_value
    rw [if_pos hm]
  have hival : shuffle_value i pz s i = v := by rw [hDi i (Nat.le_refl _), hv]
  have hfix : ∀ m, i < m → m < range → s m = 0 → m ≠ pz → v ≠ m := by
    intro m h1 h2 h3 h4 h5
    have hm : shuffle_value i pz s m = m := by
      rw [hDi m (by omega), if_pos h3, if_neg h4]
    have := hinj i m (by omega) h2 (by rw [hival, h5, hm])
    omega
  have hL : shuffle_value (i + 1) pz2
      (fun j => if j = k then v else if j = i then ai else s j) j =
      if j < i + 1 then (if j = k then v else if j = i then ai else s j)
      else if (if j = k then v else if j = i then ai else s j) = 0 then
        (if j = pz2 then 0 else j)
      else (if j = k then v else if j = i then ai else s j) := rfl
  have hs1 : j < i → (if j = i then k else if j = k then i else j) = j := by
    intro h; split_ifs <;> omega
  have hs2 : j = i → (if j = i then k else if j = k then i else j) = k := by
    intro h; split_ifs; omega
  have hs3 : i < j → j = k → (if j = i then k else if j = k then i else j) = i := by
    intro h h2; split_ifs <;> omega
  have hs4 : i < j → ¬ j = k → (if j = i then k else if j = k then i else j) = j := by
    intro h h2; split_ifs <;> omega
  rw [hL]
  by_cases hc1 : s i = 0 ∧ i = pz
  · -- position `i` holds the value 0
    obtain ⟨hsi, hipz⟩ := hc1
    rw [if_pos hsi, if_pos hipz] at hv
    rw [if_pos ⟨hsi, hipz⟩] at hpz1
    by_cases hsk : s k = 0
    · rw [if_pos hsk, if_pos hpz1.symm] at hai hpz2
      rw [if_pos (show s i = 0 ∧ i = pz ∧ s k = 0 from ⟨hsi, hipz, hsk⟩)]
      rcases Nat.lt_trichotomy j i with h | h | h
      · rw [hDlt j h]
        split_ifs <;> first | rfl | omega
      · rw [hDi j (by omega)]
        subst h
        split_ifs <;> first | rfl | omega
      · rw [hDi j (by omega)]
        by_cases e : j = k
        · subst e
          split_ifs <;> first | rfl | omega
        · split_ifs <;> first | rfl | omega
    · have hki : k ≠ i := by intro h; rw [h] at hsk; exact hsk hsi
      rw [if_neg hsk] at hai hpz2
      rw [if_neg (show ¬ (s i = 0 ∧ i = pz ∧ s k = 0) from fun h => hsk h.2.2)]
      rcases Nat.lt_trichotomy j i with h | h | h
      · rw [hs1 h, hDlt j h]
        split_ifs <;> first | rfl | omega
      · rw [hs2 h, hDi k hik, if_neg hsk]
        split_ifs <;> first | rfl | omega
      · by_cases e : j = k
        · rw [hs3 h e, hival]
          split_ifs <;> first | rfl | omega
        · rw [hs4 h e, hDi j (by omega)]
          split_ifs <;> first | rfl | omega
  · -- position `i` holds a value other than 0
    have hv0 : v ≠ 0 := by
      rw [hv]
      by_cases hsi : s i = 0
      · rw [if_pos hsi, if_neg (fun h => hc1 ⟨hsi, h⟩)]; omega
      · rw [if_neg hsi]; exact hsi
    rw [if_neg hc1] at hpz1
    rw [if_neg (show ¬ (s i = 0 ∧ i = pz ∧ s k = 0) from fun h => hc1 ⟨h.1, h.2.1⟩)]
    subst hpz1
    have hvi : i = k → v = if s k = 0 then (if k = pz1 then 0 else k) else s k := by
      intro h
      rw [← hival, hDi i (Nat.le_refl _), h]
    by_cases hsk : s k = 0
    · rw [if_pos hsk] at hai hpz2
      by_cases hkpz : k = pz1
      · -- position `k` holds the value 0
        have hki : k ≠ i := by
          intro h; apply hc1; rw [← h]; exact ⟨hsk, hkpz⟩
        rw [if_pos hkpz] at hai hpz2
        rcases Nat.lt_trichotomy j i with h | h | h
        · rw [hs1 h, hDlt j h]
          split_ifs <;> first | rfl | omega
        · rw [hs2 h, hDi k hik, if_pos hsk, if_pos hkpz]
          split_ifs <;> first | rfl | omega
        · by_cases e : j = k
          · rw [hs3 h e, hival]
            split_ifs <;> rfl
          · rw [hs4 h e, hDi j (by omega)]
            by_cases e2 : s j = 0
            · have := hfix j h hj e2 (by omega)
              split_ifs <;> first | rfl | omega
            · split_ifs <;> first | rfl | omega
      · -- position `k` is untouched
        rw [if_neg hkpz] at hai hpz2
        subst hpz2
        rcases Nat.lt_trichotomy j i with h | h | h
        · rw [hs1 h, hDlt j h]
          split_ifs <;> first | rfl | omega
        · rw [hs2 h, hDi k hik, if_pos hsk, if_neg hkpz]
          have := hvi
          rw [if_pos hsk, if_neg hkpz] at this
          split_ifs <;> first | rfl | omega
        · by_cases e : j = k
          · rw [hs3 h e, hival]
            split_ifs <;> rfl
          · rw [hs4 h e, hDi j (by omega)]
            split_ifs <;> first | rfl | omega
    · -- position `k` holds a stored value
      rw [if_neg hsk] at hai hpz2
      subst hpz2
      rcases Nat.lt_trichotomy j i with h | h | h
      · rw [hs1 h, hDlt j h]
        split_ifs <;> first | rfl | omega
      · rw [hs2 h, hDi k hik, if_neg hsk]
        have := hvi
        rw [if_neg hsk] at this
        split_ifs <;> first | rfl | omega
      · by_cases e : j = k
        · rw [hs3 h e, hival]
          split_ifs <;> rfl
        · rw [hs4 h e, hDi j (by omega)]
          split_ifs <;> first | rfl | omega

theorem shuffle_body_eq (len i k : Nat) (st : shuffle_state) (hil : i < len) :
    shuffle_take_body len i k st =
      { a := if k < len then
            (st.a.set i (if shuffle_stored len st k = 0 then
              (if k = (if shuffle_stored len st i = 0 ∧ i = st.pos_z then k else st.pos_z)
                then 0 else k)
              else shuffle_stored len st k)).set k
              (if shuffle_stored len st i = 0 then (if i = st.pos_z then 0 else i)
                else shuffle_stored len st i)
          else
            st.a.set i (if shuffle_stored len st k = 0 then
              (if k = (if shuffle_stored len st i = 0 ∧ i = st.pos_z then k else st.pos_z)
                then 0 else k)
              else shuffle_stored len st k)
        b := if k < len then st.b
          else st.b.set (k - len)
            (if shuffle_stored len st i = 0 then (if i = st.pos_z then 0 else i)
              else shuffle_stored len st i)
        pos_z := if shuffle_stored len st k = 0 then
            (if k = (if shuffle_stored len st i = 0 ∧ i = st.pos_z then k else st.pos_z) then
              (if shuffle_stored len st i = 0 then (if i = st.pos_z then 0 else i)
                else shuffle_stored len st i)
            else (if shuffle_stored len st i = 0 ∧ i = st.pos_z then k else st.pos_z))
          else (if shuffle_stored len st i = 0 ∧ i = st.pos_z then k else st.pos_z)
        n := st.n } := by
  have hsi : shuffle_stored len st i = st.a.getD i 0 := by
    unfold shuffle_stored; rw [if_pos hil]
  rw [hsi]
  unfold shuffle_take_body
  by_cases hkl : k < len
  · have hsk : shuffle_stored len st k = st.a.getD k 0 := by
      unfold shuffle_stored; rw [if_pos hkl]
    rw [hsk]
    by_cases h0 : st.a.getD k 0 = 0
    · by_cases hz : k = (if st.a.getD i 0 = 0 ∧ i = st.pos_z then k else st.pos_z)
      · simp only [hkl, h0, ← hz, true_and, and_self, true_or, if_true]
      · simp only [hkl, h0, hz, true_and, and_self, true_or, if_true, if_false]
    · simp only [hkl, h0, true_and, and_false, false_and, or_false, if_true, if_false,
        ge_iff_le, Nat.not_le.mpr hkl]
  · have hsk : shuffle_stored len st k = st.b.getD (k - len) 0 := by
      unfold shuffle_stored; rw [if_neg hkl]
    rw [hsk]
    by_cases h0 : st.b.getD (k - len) 0 = 0
    · by_cases hz : k = (if st.a.getD i 0 = 0 ∧ i = st.pos_z then k else st.pos_z)
      · simp only [hkl, h0, ← hz, false_and, and_self, false_or, if_true, if_false,
          ge_iff_le, Nat.not_lt.mp hkl]
      · simp only [hkl, h0, hz, false_and, and_self, false_or, if_true, if_false,
          ge_iff_le, Nat.not_lt.mp hkl]
    · simp only [hkl, h0, false_and, and_false, or_false, if_false, ge_iff_le]

theorem shuffle_body_stored (len range i k : Nat) (st : shuffle_state)
    (ha : st.a.length = len) (hb : st.b.length = range - len)
    (hil : i < len) (hk : k < range) :
    ∃ v pz1 ai pz2,
      v = (if shuffle_stored len st i = 0 then (if i = st.pos_z then 0 else i)
        else shuffle_stored len st i) ∧
      pz1 = (if shuffle_stored len st i = 0 ∧ i = st.pos_z then k else st.pos_z) ∧
      ai = (if shuffle_stored len st k = 0 then (if k = pz1 then 0 else k)
        else shuffle_stored len st k) ∧
      pz2 = (if shuffle_stored len st k = 0 then (if k = pz1 then v else pz1) else pz1) ∧
      (shuffle_take_body len i k st).a.length = len ∧
      (shuffle_take_body len i k st).b.length = range - len ∧
      (shuffle_take_body len i k st).pos_z = pz2 ∧
      ∀ j, shuffle_stored len (shuffle_take_body len i k st) j =
        if j = k then v else if j = i then ai else shuffle_stored len st j := by
  refine ⟨_, _, _, _, rfl, rfl, rfl, rfl, ?_⟩
  rw [shuffle_body_eq len i k st hil]
  generalize (if shuffle_stored len st i = 0 then (if i = st.pos_z then 0 else i)
        else shuffle_stored len st i) = v
  generalize (if shuffle_stored len st k = 0 then
      (if k = (if shuffle_stored len st i = 0 ∧ i = st.pos_z then k else st.pos_z)
        then 0 else k) else shuffle_stored len st k) = ai
  refine ⟨?_, ?_, rfl, ?_⟩
  · show (if k < len then (st.a.set i ai).set k v else st.a.set i ai).length = len
    split <;> simp [ha]
  · show (if k < len then st.b else st.b.set (k - len) v).length = range - len
    split <;> simp [hb]
  · intro j
    show (if j < len then (if k < len then (st.a.set i ai).set k v else st.a.set i ai).getD j 0
      else (if k < len then st.b else st.b.set (k - len) v).getD (j - len) 0) = _
    unfold shuffle_stored
    by_cases hkl : k < len
    · rw [if_pos hkl, if_pos hkl]
      by_cases hj : j < len
      · rw [if_pos hj, if_pos hj, getD_set, getD_set, List.length_set]
        by_cases e : k = j
        · rw [if_pos ⟨e, by omega⟩, if_pos e.symm]
        · rw [if_neg (show ¬ (k = j ∧ k < st.a.length) from fun h => e h.1),
            if_neg (show ¬ j = k from fun h => e h.symm)]
          by_cases e2 : i = j
          · rw [if_pos ⟨e2, by omega⟩, if_pos e2.symm]
          · rw [if_neg (show ¬ (i = j ∧ i < st.a.length) from fun h => e2 h.1),
              if_neg (show ¬ j = i from fun h => e2 h.symm)]
      · rw [if_neg hj, if_neg hj, if_neg (show ¬ j = k by omega),
          if_neg (show ¬ j = i by omega)]
    · rw [if_neg hkl, if_neg hkl]
      by_cases hj : j < len
      · rw [if_pos hj, if_pos hj, getD_set, if_neg (show ¬ j = k by omega)]
        by_cases e2 : i = j
        · rw [if_pos ⟨e2, by omega⟩, if_pos e2.symm]
        · rw [if_neg (show ¬ (i = j ∧ i < st.a.length) from fun h => e2 h.1),
            if_neg (show ¬ j = i from fun h => e2 h.symm)]
      · rw [if_neg hj, if_neg hj, getD_set]
        by_cases e : j = k
        · rw [if_pos ⟨by omega, by omega⟩, if_pos e]
        · rw [if_neg (show ¬ (k - len = j - len ∧ k - len < st.b.length) from
            fun h => by have := h.1; omega), if_neg e, if_neg (show ¬ j = i by omega)]

theorem shuffle_inv_step (len range i k : Nat) (st : shuffle_state)
    (hi : 1 ≤ i) (hil : i < len) (hik : i ≤ k) (hk : k < range)
    (h : shuffle_inv len range i st) :
    shuffle_inv len range (i + 1) (shuffle_take_body len i k st) := by
  obtain ⟨ha, hb, hrange, hinj⟩ := h
  obtain ⟨v, pz1, ai, pz2, hv, hpz1, hai, hpz2, hla, hlb, hpz, hst⟩ :=
    shuffle_body_stored len range i k st ha hb hil hk
  have hfun : shuffle_stored len (shuffle_take_body len i k st) =
      fun j => if j = k then v else if j = i then ai else shuffle_stored len st j :=
    funext hst
  have hstep := shuffle_value_step range i k st.pos_z v pz1 ai pz2 (shuffle_stored len st)
    hi hik hk hv hpz1 hai hpz2 hinj
  have hsig : ∀ j, j < range →
      (if shuffle_stored len st i = 0 ∧ i = st.pos_z ∧ shuffle_stored len st k = 0 then j
       else if j = i then k else if j = k then i else j) < range := by
    intro j hj
    split_ifs <;> omega
  refine ⟨hla, hlb, ?_, ?_⟩
  · intro j hj
    rw [hpz, hfun, hstep j hj]
    exact hrange _ (hsig j hj)
  · intro j1 j2 h1 h2 heq
    rw [hpz, hfun, hstep j1 h1, hstep j2 h2] at heq
    have := hinj _ _ (hsig j1 h1) (hsig j2 h2) heq
    split_ifs at this <;> omega

theorem getD_replicate_zero (m j : Nat) : (List.replicate m 0).getD j 0 = 0 := by
  rw [List.getD_eq_getElem?_getD, List.getElem?_replicate]
  split <;> rfl

theorem shuffle_inv_init (len range k : Nat) (hl : 1 ≤ len) (hk : k < range) (n : Nat) :
    shuffle_inv len range 1
      { a := (List.replicate len 0).set 0 k, b := List.replicate (range - len) 0
        pos_z := k, n := n } := by
  have hs : ∀ j, shuffle_stored len
      { a := (List.replicate len 0).set 0 k, b := List.replicate (range - len) 0
        pos_z := k, n := n } j = if j = 0 then k else 0 := by
    intro j
    unfold shuffle_stored
    simp only []
    by_cases hj : j < len
    · rw [if_pos hj, getD_set, List.length_replicate]
      by_cases e : 0 = j
      · rw [if_pos ⟨e, by omega⟩, if_pos e.symm]
      · rw [if_neg (show ¬ (0 = j ∧ 0 < len) from fun h => e h.1),
          if_neg (show ¬ j = 0 from fun h => e h.symm), getD_replicate_zero]
    · rw [if_neg hj, if_neg (show ¬ j = 0 by omega), getD_replicate_zero]
  have hv : ∀ j, shuffle_value 1 k (shuffle_stored len
      { a := (List.replicate len 0).set 0 k, b := List.replicate (range - len) 0
        pos_z := k, n := n }) j =
      if j = 0 then k else if j = k then 0 else j := by
    intro j
    unfold shuffle_value
    rw [hs j]
    split_ifs <;> first | rfl | omega
  refine ⟨by simp, by simp, ?_, ?_⟩
  · intro j hj
    show shuffle_value 1 k _ j < range
    rw [hv j]
    split_ifs <;> omega
  · intro j1 j2 h1 h2 heq
    change shuffle_value 1 k _ j1 = shuffle_value 1 k _ j2 at heq
    rw [hv j1, hv j2] at heq
    split_ifs at heq <;> omega

theorem range_foldlM_inv {σ : Type} (m : Nat) (f : σ → Nat → Option σ) (Q : Nat → σ → Prop)
    (s : σ) (h0 : Q 0 s)
    (hstep : ∀ i st, i < m → Q i st → ∃ st2, f st i = some st2 ∧ Q (i + 1) st2) :
    ∃ st2, (List.range m).foldlM f s = some st2 ∧ Q m st2 := by
  induction m with
  | zero => exact ⟨s, rfl, h0⟩
  | succ m ih =>
    obtain ⟨st1, h1, q1⟩ := ih (fun i st hi hq => hstep i st (by omega) hq)
    obtain ⟨st2, h2, q2⟩ := hstep m st1 (by omega) q1
    refine ⟨st2, ?_, q2⟩
    rw [List.range_succ, List.foldlM_append, h1]
    simp [h2]

/-- The rejection loop on the counting generator returns within `threshold + 1`
draws, with a value below `range`. -/
theorem rand_counting_loop (range t : Nat) (hr : 1 ≤ range) (ht : t < 4294967296) :
    ∀ fuel m, t - m % 4294967296 < fuel →
      ∃ p, random_loop rand_counting range t fuel m = some p ∧ p.1 < range := by
  intro fuel
  induction fuel with
  | zero => intro m h; omega
  | succ fuel ih =>
    intro m h
    unfold random_loop
    simp only []
    have hrnd : rand_counting.rnd m = m := rfl
    rw [hrnd]
    by_cases hc : m % 2 ^ 32 ≥ t
    · rw [if_pos hc]
      exact ⟨_, rfl, Nat.mod_lt _ (by omega)⟩
    · rw [if_neg hc]
      apply ih
      have e : (2 : Nat) ^ 32 = 4294967296 := by norm_num
      rw [e] at hc
      omega

theorem rand_counting_draw (range fuel m : Nat) (hr : 1 ≤ range) (hf : range ≤ fuel)
    (hm : range ≤ 2147483647) :
    ∃ p, rock_uint_random 32 rand_counting range fuel m = some p ∧ p.1 < range := by
  unfold rock_uint_random
  rw [if_neg (by decide), if_neg (by show ¬ range > 2147483647; omega)]
  have ht : ((2 ^ 32 - range % 2 ^ 32) % 2 ^ 32) % range < range := Nat.mod_lt _ (by omega)
  exact rand_counting_loop range _ hr (by omega) fuel m (by omega)

/-- C39: for `1 ≤ len ≤ range < 2 ^ W`, a zeroed array `a` of length `len` and a
generator whose every call `rock_uint_random(r)` with `1 ≤ r ≤ range` returns a value
below `r` (so the first draw is below `range` and the draw `k` of iteration `i` has
`i ≤ k < range`), `rock_uint_shuffle_take` returns with `a[0..len)` pairwise distinct
and every entry below `range`. -/
theorem shuffle_take_distinct (W : Nat) (env : rand_env) (fuel len range n : Nat)
    (hr : range < 2 ^ W) (hl : 1 ≤ len) (hlr : len ≤ range)
    (hdraw : ∀ r m, 1 ≤ r → r ≤ range →
      ∃ p, rock_uint_random W env r fuel m = some p ∧ p.1 < r) :
    ∃ a n2, rock_uint_shuffle_take W env fuel (List.replicate len 0) len range n =
        some (a, n2) ∧ a.length = len ∧
      (∀ i, i < len → a.getD i 0 < range) ∧
      ∀ i j, i < len → j < len → a.getD i 0 = a.getD j 0 → i = j := by
  obtain ⟨p0, hp0, hlt0⟩ := hdraw range n (by omega) (Nat.le_refl _)
  obtain ⟨k0, n1⟩ := p0
  have hb : (range + 2 ^ W - len) % 2 ^ W = range - len := by
    rw [show range + 2 ^ W - len = (range - len) + 2 ^ W by omega, Nat.add_mod_right]
    exact Nat.mod_eq_of_lt (by omega)
  obtain ⟨st, hst, hinv⟩ := range_foldlM_inv (len - 1)
    (fun st j => shuffle_take_step W env fuel len range st (j + 1))
    (fun j st => shuffle_inv len range (j + 1) st)
    { a := (List.replicate len 0).set 0 k0, b := List.replicate (range - len) 0
      pos_z := k0, n := n1 }
    (shuffle_inv_init len range k0 hl hlt0 n1) (by
      intro j st hj hq
      have hsub : (range + 2 ^ W - (j + 1)) % 2 ^ W = range - (j + 1) := by
        rw [show range + 2 ^ W - (j + 1) = (range - (j + 1)) + 2 ^ W by omega,
          Nat.add_mod_right]
        exact Nat.mod_eq_of_lt (by omega)
      obtain ⟨p, hp, hlt⟩ := hdraw (range - (j + 1)) st.n (by omega) (by omega)
      have hkk : (p.1 + (j + 1)) % 2 ^ W = p.1 + (j + 1) := Nat.mod_eq_of_lt (by omega)
      refine ⟨shuffle_take_body len (j + 1) (p.1 + (j + 1)) ⟨st.a, st.b, st.pos_z, p.2⟩,
        ?_, ?_⟩
      · show shuffle_take_step W env fuel len range st (j + 1) = _
        unfold shuffle_take_step
        rw [hsub, hp, Option.map_some', hkk]
      · exact shuffle_inv_step len range (j + 1) (p.1 + (j + 1))
          ⟨st.a, st.b, st.pos_z, p.2⟩
          (by omega) (by omega) (by omega) (by omega) hq)
  refine ⟨st.a, st.n, ?_, hinv.1, ?_, ?_⟩
  · unfold rock_uint_shuffle_take
    rw [hp0]
    simp only []
    rw [hb, hst, Option.map_some']
  · intro i hi
    have := hinv.2.2.1 i (by omega)
    rw [show len - 1 + 1 = len by omega] at this
    unfold shuffle_value shuffle_stored at this
    rw [if_pos hi, if_pos hi] at this
    exact this
  · intro i j hi hj heq
    apply hinv.2.2.2 i j (by omega) (by omega)
    rw [show len - 1 + 1 = len by omega]
    unfold shuffle_value shuffle_stored
    rw [if_pos hi, if_pos hi, if_pos hj, if_pos hj]
    exact heq

/-- Witness for C39: three values out of `[0, 5)` with the counting generator on a
32-bit word. -/
theorem shuffle_take_distinct_witness :
    ∃ a n2, rock_uint_shuffle_take 32 rand_counting 8 (List.replicate 3 0) 3 5 0 =
        some (a, n2) ∧ a.length = 3 ∧
      (∀ i, i < 3 → a.getD i 0 < 5) ∧
      ∀ i j, i < 3 → j < 3 → a.getD i 0 = a.getD j 0 → i = j :=
  shuffle_take_distinct 32 rand_counting 8 3 5 0 (by decide) (by decide) (by decide)
    (fun r m h1 h2 => rand_counting_draw r 8 m h1 (by omega) (by omega))

/-! ## Shuffling permutations -/

theorem rock_uint_swap_eq (v : List Nat) (k i : Nat) (hk : k < v.length) (hi : i < v.length) :
    rock_uint_swap v k i =
      ((List.range v.length).map (fun j => if j = i then k else if j = k then i else j)).map
        (fun j => v.getD j 0) := by
  apply list_ext_getD
  · simp [rock_uint_swap]
  · intro p hp
    have hp2 : p < v.length := by simpa [rock_uint_swap] using hp
    rw [List.map_map, getD_map_range _ _ _ _ hp2]
    unfold rock_uint_swap
    rw [getD_set, List.length_set]
    show _ = v.getD (if p = i then k else if p = k then i else p) 0
    by_cases e : i = p
    · rw [if_pos ⟨e, hi⟩, if_pos e.symm]
    · rw [if_neg (show ¬ (i = p ∧ i < v.length) from fun h => e h.1),
        if_neg (show ¬ p = i from fun h => e h.symm), getD_set]
      by_cases e2 : k = p
      · rw [if_pos ⟨e2, hk⟩, if_pos e2.symm]
      · rw [if_neg (show ¬ (k = p ∧ k < v.length) from fun h => e2 h.1),
          if_neg (show ¬ p = k from fun h => e2 h.symm)]

/-- Exchanging two entries of an array rearranges it. -/
theorem rock_uint_swap_perm (v : List Nat) (k i : Nat) (hk : k < v.length)
    (hi : i < v.length) : (rock_uint_swap v k i).Perm v := by
  rw [rock_uint_swap_eq v k i hk hi]
  apply map_getD_perm
  · simp
  · apply List.Nodup.map _ (List.nodup_range _)
    intro a b h
    simp only [] at h
    split_ifs at h <;> omega
  · intro w hw
    obtain ⟨j, hj, rfl⟩ := List.mem_map.mp hw
    have := List.mem_range.mp hj
    split_ifs <;> omega

theorem perm_shuffle_loop_perm (W : Nat) (env : rand_env) (fuel len : Nat)
    (hlen : len < 2 ^ W)
    (hdraw : ∀ r m, 1 ≤ r → r ≤ len →
      ∃ p, rock_uint_random W env r fuel m = some p ∧ p.1 < r) :
    ∀ i (st : List Nat × Nat), st.1.length = len → i < len →
      ∃ q n2, perm_shuffle_loop W env fuel i st = some (q, n2) ∧ q.Perm st.1 := by
  intro i
  induction i with
  | zero => intro st _ _; exact ⟨st.1, st.2, rfl, List.Perm.refl _⟩
  | succ i ih =>
    intro st hst hi
    obtain ⟨p, hp, hlt⟩ := hdraw (i + 1 + 1) st.2 (by omega) (by omega)
    obtain ⟨k, n1⟩ := p
    have hsw := rock_uint_swap_perm st.1 k (i + 1) (by rw [hst]; simp only [] at hlt; omega)
      (by omega)
    obtain ⟨q, n2, h1, h2⟩ := ih (rock_uint_swap st.1 k (i + 1), n1)
      (by rw [← hst]; exact hsw.length_eq) (by omega)
    refine ⟨q, n2, ?_, h2.trans hsw⟩
    unfold perm_shuffle_loop
    rw [Nat.mod_eq_of_lt (by omega), hp]
    exact h1

/-- C40: for an array of length `len` with `1 ≤ len < 2 ^ W` and a generator whose
every call `rock_uint_random(r)` with `1 ≤ r ≤ len` returns a value below `r` (so the
draw at step `i` is at most `i`), `rock_perm_sample` returns a permutation of
`[0, len)`, and `rock_perm_shuffle` returns a rearrangement of its input, hence maps
a permutation of `[0, len)` to a permutation of `[0, len)`. -/
theorem perm_shuffle_preserves (W : Nat) (env : rand_env) (fuel : Nat) (perm : List Nat)
    (n : Nat) (hl : 1 ≤ perm.length) (hlen : perm.length < 2 ^ W)
    (hdraw : ∀ r m, 1 ≤ r → r ≤ perm.length →
      ∃ p, rock_uint_random W env r fuel m = some p ∧ p.1 < r) :
    (∃ q n2, rock_perm_sample W env fuel perm n = some (q, n2) ∧
      q.Perm (List.range perm.length)) ∧
    (∃ q n2, rock_perm_shuffle W env fuel perm n = some (q, n2) ∧ q.Perm perm ∧
      (perm.Perm (List.range perm.length) → q.Perm (List.range perm.length))) := by
  have hstart : (perm.length + 2 ^ W - 1) % 2 ^ W = perm.length - 1 := by
    rw [show perm.length + 2 ^ W - 1 = (perm.length - 1) + 2 ^ W by omega, Nat.add_mod_right]
    exact Nat.mod_eq_of_lt (by omega)
  refine ⟨?_, ?_⟩
  · have hid : (List.range perm.length).foldl (fun p i => p.set i i) perm =
        List.range perm.length := by
      rw [foldl_set_map (fun i => i) perm perm.length (Nat.le_refl _), List.drop_length,
        List.append_nil, List.map_id']
    unfold rock_perm_sample rock_perm_shuffle
    rw [hid, List.length_range, hstart]
    obtain ⟨q, n2, h1, h2⟩ := perm_shuffle_loop_perm W env fuel perm.length hlen hdraw
      (perm.length - 1) (List.range perm.length, n) (by simp) (by omega)
    exact ⟨q, n2, h1, h2⟩
  · unfold rock_perm_shuffle
    rw [hstart]
    obtain ⟨q, n2, h1, h2⟩ := perm_shuffle_loop_perm W env fuel perm.length hlen hdraw
      (perm.length - 1) (perm, n) rfl (by omega)
    exact ⟨q, n2, h1, h2, fun h => h2.trans h⟩

/-- Witness for C40: four entries, the counting generator on a 32-bit word. -/
theorem perm_shuffle_preserves_witness :
    (∃ q n2, rock_perm_sample 32 rand_counting 8 [0, 0, 0, 0] 0 = some (q, n2) ∧
      q.Perm (List.range 4)) ∧
    rock_perm_sample 32 rand_counting 8 [0, 0, 0, 0] 0 = some ([2, 3, 1, 0], 3) :=
  ⟨(perm_shuffle_preserves 32 rand_counting 8 [0, 0, 0, 0] 0 (by decide) (by decide)
    (fun r m h1 h2 => rand_counting_draw r 8 m h1
      (by simp only [List.length] at h2; omega)
      (by simp only [List.length] at h2; omega))).1, by decide⟩

end Rock
